import Mathlib

/-!
Verification of the Ogex regex engine (lexer, recursive-descent parser,
Thompson-style NFA compiler, NFA simulator with capture/backreference support,
and group registry) against its natural-language specification.

The definitions below are a shallow embedding of the Rust sources:
  ogex/src/{ast.rs, parser.rs, nfa.rs, engine.rs, groups.rs, transpiler.rs}
  ogex-core/src/lexer.rs   (the lexer consumed by the parser)
Strings are modelled as lists of Unicode codepoints (List Char); positions are
codepoint offsets, mirroring the engine's use of a Vec of chars.  Machine
integers (usize/u32/i32) are modelled as Nat/Int (no claim depends on
overflow).  Rust functions that can panic on out-of-range indexing are
modelled with explicit Option results where a claim depends on the panic
(byte slicing in Match::as_str); elsewhere out-of-range list reads use a
default that no stated theorem exercises.
-/

set_option maxHeartbeats 1000000

namespace Ogex

/-! ## Character helpers (Rust char ASCII classification) -/

/-- Rust char::is_ascii_digit. -/
def isAsciiDigit (c : Char) : Bool := '0' ≤ c && c ≤ '9'

/-- Rust char::is_ascii_alphanumeric. -/
def isAsciiAlphanumeric (c : Char) : Bool :=
  ('0' ≤ c && c ≤ '9') || ('a' ≤ c && c ≤ 'z') || ('A' ≤ c && c ≤ 'Z')

/-- Rust char::is_ascii_whitespace. -/
def isAsciiWhitespace (c : Char) : Bool :=
  c = ' ' || c = '\t' || c = '\n' || c = '\x0c' || c = '\r'

/-- Rust char::to_ascii_lowercase. -/
def toAsciiLowercase (c : Char) : Char :=
  if 'A' ≤ c && c ≤ 'Z' then Char.ofNat (c.toNat + 32) else c

/-- Rust char::is_ascii_uppercase. -/
def isAsciiUppercase (c : Char) : Bool := 'A' ≤ c && c ≤ 'Z'

/-- Number of bytes of the UTF-8 encoding of a codepoint (Rust char::len_utf8). -/
def utf8SizeOf (c : Char) : Nat :=
  if c.toNat < 0x80 then 1
  else if c.toNat < 0x800 then 2
  else if c.toNat < 0x10000 then 3
  else 4

/-- Byte length of the UTF-8 encoding of a string (Rust str::len). -/
def utf8Len (cs : List Char) : Nat := (cs.map utf8SizeOf).sum

/-- Decimal value of a digit list (most significant first), as accumulated by
the Rust loops num = num * 10 + digit. -/
def digitsToNat (ds : List Char) : Nat :=
  ds.foldl (fun n d => n * 10 + (d.toNat - '0'.toNat)) 0

/-! ## Tokens (ogex-core/src/lexer.rs, enum Token) -/

/-- Token produced by the lexer; one constructor per Rust enum variant. -/
inductive Token where
  | leftParen | rightParen
  | leftBracket | rightBracket
  | leftBrace | rightBrace
  | colon | comma | pipe
  | caret | dollar | dot
  | star | starLazy | plus | plusLazy | question
  | nonCapturing
  | namedGroupStart (name : String)
  | escape (c : Char)
  | backrefNumber (n : Nat)
  | backrefRelative (n : Int)
  | backrefName (name : String)
  | wordChar | nonWordChar
  | digit | nonDigit
  | whitespace | nonWhitespace
  | wordBoundary | nonWordBoundary
  | literal (c : Char)
  | eof
deriving DecidableEq, Repr

/-! ## Lexer (ogex-core/src/lexer.rs)

The Rust lexer keeps (input, position, current_char) with current_char =
input.chars().nth(position-1); this is equivalent to a cursor over the list
of remaining codepoints, which is the representation used here.  Two parts
of the source are not codepoint-clean: Lexer::read_identifier (and the
number and class-content readers) slice the input string BY BYTE INDEX
using codepoint counts, so lexing a pattern whose group body begins with a
non-ASCII letter (for example the pattern (e-acute)) panics inside the
slice rather than producing a token; and Rust char::is_alphabetic /
is_alphanumeric are Unicode-aware where Char.isAlpha / Char.isAlphanum are
ASCII.  On a pattern made of ASCII codepoints, byte offsets coincide with
codepoint offsets and the predicates agree, so this total model and the
source lex identically there.  Every pattern lexed in a theorem below is
ASCII, and the C3 round-trip theorem carries an explicit ASCII hypothesis
on the printed pattern; non-ASCII text appears below only as engine INPUT
(C5, C7), which the lexer never touches. -/

/-- Lexer::is_identifier_char. -/
def isIdentifierChar (c : Char) : Bool := c.isAlphanum || c = '_'

/-- Rust str::parse::<i32> (optional sign, then one or more digits). -/
def parseI32 (cs : List Char) : Option Int :=
  let go : List Char → Option Nat := fun ds =>
    if ds = [] then none
    else if ds.all isAsciiDigit then some (digitsToNat ds) else none
  match cs with
  | '+' :: tl => (go tl).map Int.ofNat
  | '-' :: tl => (go tl).map fun n => -(n : Int)
  | _ => (go cs).map Int.ofNat

/-- Lexer::read_escape: the backslash and the first character c after it have
been consumed; rest is the remaining input. -/
def readEscape (c : Char) (rest : List Char) : Token × List Char :=
  match c with
  | 'w' => (.wordChar, rest)
  | 'W' => (.nonWordChar, rest)
  | 'd' => (.digit, rest)
  | 'D' => (.nonDigit, rest)
  | 's' => (.whitespace, rest)
  | 'S' => (.nonWhitespace, rest)
  | 'b' => (.wordBoundary, rest)
  | 'B' => (.nonWordBoundary, rest)
  | _ =>
    if isAsciiDigit c then
      (.backrefNumber (digitsToNat (c :: rest.takeWhile isAsciiDigit)),
       rest.dropWhile isAsciiDigit)
    else
      (.escape c, rest)

/-- Lexer::read_g_backref: backslash, g and the opening brace have been
consumed; reads the content up to the closing brace. -/
def readGBackref (rest : List Char) : Token × List Char :=
  let content := rest.takeWhile (· ≠ '}')
  let after := rest.dropWhile (· ≠ '}')
  let rest' := match after with
    | '}' :: t => t
    | other => other
  match content with
  | '-' :: tl =>
    match parseI32 tl with
    | some n => if 0 < n then (.backrefRelative (-n), rest') else (.backrefName ⟨content⟩, rest')
    | none => (.backrefName ⟨content⟩, rest')
  | _ => (.backrefName ⟨content⟩, rest')

/-- Lexer handling of a left parenthesis: speculative lookahead for a
non-capturing marker or a named-group opener; on mismatch the cursor is reset
to just after the parenthesis (Lexer::next_token, the LeftParen arm).  The
source tests char::is_alphabetic (Unicode) and read_identifier then slices
bytes at codepoint indices, panicking when the candidate name begins with a
non-ASCII letter; this model (Char.isAlpha, clean list splitting) coincides
with the source exactly on the ASCII patterns to which every theorem below
confines the lexer. -/
def lexLParen (rest : List Char) : Token × List Char :=
  match rest with
  | '?' :: more =>
    match more with
    | ':' :: t => (.nonCapturing, t)
    | _ => (.leftParen, '?' :: more)
  | c :: _ =>
    if c.isAlpha || c = '_' then
      let name := rest.takeWhile isIdentifierChar
      match rest.dropWhile isIdentifierChar with
      | ':' :: t => (.namedGroupStart ⟨name⟩, t)
      | _ => (.leftParen, rest)
    else (.leftParen, rest)
  | [] => (.leftParen, [])

/-- Lexer::next_token on the remaining input. -/
def nextToken : List Char → Token × List Char
  | [] => (.eof, [])
  | '\\' :: rest =>
    match rest with
    | 'g' :: rest2 =>
      match rest2 with
      | '{' :: rest3 => readGBackref rest3
      | _ => (.escape 'g', rest2)
    | c :: rest2 => readEscape c rest2
    | [] => (.escape '\x00', [])
  | '(' :: rest => lexLParen rest
  | ')' :: rest => (.rightParen, rest)
  | '[' :: rest => (.leftBracket, rest)
  | ']' :: rest => (.rightBracket, rest)
  | '{' :: rest => (.leftBrace, rest)
  | '}' :: rest => (.rightBrace, rest)
  | ':' :: rest => (.colon, rest)
  | ',' :: rest => (.comma, rest)
  | '|' :: rest => (.pipe, rest)
  | '^' :: rest => (.caret, rest)
  | '$' :: rest => (.dollar, rest)
  | '.' :: rest => (.dot, rest)
  | '*' :: '?' :: rest => (.starLazy, rest)
  | '*' :: rest => (.star, rest)
  | '+' :: '?' :: rest => (.plusLazy, rest)
  | '+' :: rest => (.plus, rest)
  | '?' :: rest => (.question, rest)
  | c :: rest => (.literal c, rest)

/-! ## AST (ogex/src/ast.rs) -/

/-- An item in a character class (ast.rs, enum ClassItem). -/
inductive ClassItem where
  | char (c : Char)
  | range (lo hi : Char)
  | shorthand (c : Char)
deriving DecidableEq, Repr

/-- A quantifier (ast.rs, enum Quantifier). -/
inductive Quantifier where
  | zeroOrMore | zeroOrMoreLazy
  | oneOrMore | oneOrMoreLazy
  | optional
  | exactly (n : Nat)
  | atLeast (n : Nat)
  | atLeastLazy (n : Nat)
  | between (n m : Nat)
  | betweenLazy (n m : Nat)
deriving DecidableEq, Repr

/-- A character class (ast.rs, struct CharacterClass). -/
structure CharacterClass where
  negated : Bool
  items : List ClassItem
deriving DecidableEq, Repr

/-- An expression in the AST (ast.rs, enum Expr).  The ModeFlagsGroup variant
referenced by a parser arm does not exist in the provided ast.rs and its token
does not exist in the provided lexer, so it is omitted. -/
inductive Expr where
  | empty
  | literal (c : Char)
  | any
  | sequence (es : List Expr)
  | alternation (es : List Expr)
  | characterClass (cc : CharacterClass)
  | quantified (e : Expr) (q : Quantifier)
  | group (e : Expr)
  | nonCapturingGroup (e : Expr)
  | namedGroup (name : String) (pattern : Expr)
  | startAnchor
  | endAnchor
  | backreference (n : Nat)
  | relativeBackreference (n : Int)
  | namedBackreference (name : String)
  | shorthand (c : Char)
  | wordBoundary
  | nonWordBoundary
  | lookahead (e : Expr)
  | negativeLookahead (e : Expr)
  | lookbehind (e : Expr)
  | negativeLookbehind (e : Expr)
  | atomicGroup (e : Expr)
  | conditionalGroup (e : Expr)
deriving Repr

/-! ## Printing an AST back to pattern text (ast.rs, to_regex_string) -/

/-- Fueled helper for decimal rendering (fuel keeps the recursion
structural, so that it reduces in the kernel; any fuel above the argument
gives the same digits). -/
def natToCharsGo : Nat → Nat → List Char
  | 0, _ => []
  | fuel + 1, n =>
    if n < 10 then [Char.ofNat ('0'.toNat + n)]
    else natToCharsGo fuel (n / 10) ++ [Char.ofNat ('0'.toNat + n % 10)]

/-- Decimal rendering of a nonnegative integer, mirroring Rust Display for
u32. -/
def natToChars (n : Nat) : List Char := natToCharsGo (n + 1) n

/-- Decimal rendering of an i32, mirroring Rust Display. -/
def intToChars (i : Int) : List Char :=
  if i < 0 then '-' :: natToChars i.natAbs else natToChars i.toNat

/-- ClassItem rendering inside CharacterClass::to_regex_string. -/
def ClassItem.printChars : ClassItem → List Char
  | .char c => [c]
  | .range lo hi => [lo, '-', hi]
  | .shorthand c => ['\\', c]

/-- CharacterClass::to_regex_string. -/
def CharacterClass.printChars (cc : CharacterClass) : List Char :=
  '[' :: (if cc.negated then ['^'] else []) ++
    (cc.items.map ClassItem.printChars).flatten ++ [']']

/-- Quantifier::to_regex_string. -/
def Quantifier.printChars : Quantifier → List Char
  | .zeroOrMore => ['*']
  | .zeroOrMoreLazy => ['*', '?']
  | .oneOrMore => ['+']
  | .oneOrMoreLazy => ['+', '?']
  | .optional => ['?']
  | .exactly n => '{' :: natToChars n ++ ['}']
  | .atLeast n => '{' :: natToChars n ++ [',', '}']
  | .atLeastLazy n => '{' :: natToChars n ++ [',', '}', '?']
  | .between n m => '{' :: natToChars n ++ ',' :: natToChars m ++ ['}']
  | .betweenLazy n m => '{' :: natToChars n ++ ',' :: natToChars m ++ ['}', '?']

/-- Is this expression an alternation (the needs_parens test in
Expr::to_regex_string for quantified expressions)? -/
def Expr.isAlternation : Expr → Bool
  | .alternation _ => true
  | _ => false

mutual

/-- Expr::to_regex_string, producing the codepoint list of the rendered
pattern (this is what the transpiler emits). -/
def Expr.toRegexString : Expr → List Char
  | .empty => []
  | .literal c => [c]
  | .any => ['.']
  | .sequence es => Expr.printSeq es
  | .alternation es => Expr.printAlts es
  | .characterClass cc => cc.printChars
  | .quantified e q =>
    (if e.isAlternation then '(' :: '?' :: ':' :: e.toRegexString ++ [')']
     else e.toRegexString) ++ q.printChars
  | .group e => '(' :: e.toRegexString ++ [')']
  | .nonCapturingGroup e => '(' :: '?' :: ':' :: e.toRegexString ++ [')']
  | .namedGroup name pat => '(' :: '?' :: '<' :: name.data ++ '>' :: pat.toRegexString ++ [')']
  | .startAnchor => ['^']
  | .endAnchor => ['$']
  | .backreference n => '\\' :: natToChars n
  | .relativeBackreference n => '\\' :: 'g' :: '{' :: intToChars n ++ ['}']
  | .namedBackreference name => '\\' :: 'g' :: '{' :: name.data ++ ['}']
  | .shorthand c => ['\\', c]
  | .wordBoundary => ['\\', 'b']
  | .nonWordBoundary => ['\\', 'B']
  | .lookahead e => '(' :: '@' :: '>' :: ':' :: e.toRegexString ++ [')']
  | .negativeLookahead e => '(' :: '@' :: '>' :: '~' :: ':' :: e.toRegexString ++ [')']
  | .lookbehind e => '(' :: '@' :: '<' :: ':' :: e.toRegexString ++ [')']
  | .negativeLookbehind e => '(' :: '@' :: '<' :: '~' :: ':' :: e.toRegexString ++ [')']
  | .atomicGroup e => '(' :: '@' :: '*' :: ':' :: e.toRegexString ++ [')']
  | .conditionalGroup e => '(' :: '@' :: '%' :: ':' :: e.toRegexString ++ [')']

/-- Concatenated rendering of a sequence of expressions. -/
def Expr.printSeq : List Expr → List Char
  | [] => []
  | e :: es => e.toRegexString ++ Expr.printSeq es

/-- Pipe-joined rendering of alternation branches. -/
def Expr.printAlts : List Expr → List Char
  | [] => []
  | [e] => e.toRegexString
  | e :: es => e.toRegexString ++ '|' :: Expr.printAlts es

end

/-! ## Parse errors (ogex-core/src/error.rs, enum ParseError)

The expected/found payloads are display strings in Rust; the exact rendering
is irrelevant to every claim, so descriptions are short plain words here.
The extra fuelExhausted constructor is an artifact of the embedding: the
recursive-descent functions take a fuel argument, and fuel exhaustion (never
hit at the fuel budget used by parse) reports this distinguished error. -/

inductive ParseError where
  | unexpectedToken (expected found : String)
  | unexpectedEof
  | duplicateGroupName (name : String)
  | undefinedBackreference (name : String)
  | invalidQuantifier (s : String)
  | fuelExhausted
deriving DecidableEq, Repr

instance {e a : Type} [DecidableEq e] [DecidableEq a] : DecidableEq (Except e a) := fun x y =>
  match x, y with
  | .ok u, .ok v =>
    if h : u = v then .isTrue (by rw [h])
    else .isFalse (by intro hh; injection hh; exact h (by assumption))
  | .error u, .error v =>
    if h : u = v then .isTrue (by rw [h])
    else .isFalse (by intro hh; injection hh; exact h (by assumption))
  | .ok _, .error _ => .isFalse (by intro hh; exact Except.noConfusion hh)
  | .error _, .ok _ => .isFalse (by intro hh; exact Except.noConfusion hh)

/-- Short description of a token, standing in for the Rust Display/Debug
strings carried inside UnexpectedToken payloads. -/
def Token.describe : Token → String
  | .eof => "EOF"
  | .rightParen => "closing paren"
  | .rightBracket => "closing bracket"
  | .rightBrace => "closing brace"
  | _ => "token"

/-! ## Parser (ogex/src/parser.rs)

The Rust Parser owns a lexer plus the current token; here the state is the
pair of the current token and the unread remainder of the input.  Every
recursive function takes a fuel argument decremented at each call; parse
supplies a fuel that is more than sufficient for any input of the given
length (see the need bounds proved below). -/

/-- Parser state: current token plus unread input. -/
structure ParserSt where
  current : Token
  rest : List Char
deriving DecidableEq, Repr

/-- Parser::new. -/
def mkParser (cs : List Char) : ParserSt :=
  let (t, r) := nextToken cs
  ⟨t, r⟩

/-- Parser::advance. -/
def ParserSt.advance (ps : ParserSt) : ParserSt :=
  let (t, r) := nextToken ps.rest
  ⟨t, r⟩

/-- Parser::expect. -/
def expectTok (ps : ParserSt) (t : Token) : Except ParseError ParserSt :=
  if ps.current = t then .ok ps.advance
  else .error (.unexpectedToken t.describe ps.current.describe)

/-- Parser::is_sequence_end. -/
def isSequenceEnd (t : Token) : Bool :=
  match t with
  | .eof | .rightParen | .rightBracket | .rightBrace | .pipe => true
  | _ => false

mutual

/-- Parser::parse_alternation. -/
def parseAlternation : Nat → ParserSt → Except ParseError (Expr × ParserSt)
  | 0, _ => .error .fuelExhausted
  | fuel + 1, ps => do
    let (e, ps) ← parseSequence fuel ps
    let (alts, ps) ← parseAlternationRest fuel ps
    match alts with
    | [] => .ok (e, ps)
    | _ => .ok (.alternation (e :: alts), ps)

/-- The while-Pipe loop inside Parser::parse_alternation. -/
def parseAlternationRest : Nat → ParserSt → Except ParseError (List Expr × ParserSt)
  | 0, _ => .error .fuelExhausted
  | fuel + 1, ps =>
    if ps.current = .pipe then do
      let (e, ps) ← parseSequence fuel ps.advance
      let (alts, ps) ← parseAlternationRest fuel ps
      .ok (e :: alts, ps)
    else .ok ([], ps)

/-- Parser::parse_sequence. -/
def parseSequence : Nat → ParserSt → Except ParseError (Expr × ParserSt)
  | 0, _ => .error .fuelExhausted
  | fuel + 1, ps => do
    let (es, ps) ← parseSequenceItems fuel ps
    match es with
    | [] => .ok (.empty, ps)
    | [e] => .ok (e, ps)
    | _ => .ok (.sequence es, ps)

/-- The collection loop inside Parser::parse_sequence. -/
def parseSequenceItems : Nat → ParserSt → Except ParseError (List Expr × ParserSt)
  | 0, _ => .error .fuelExhausted
  | fuel + 1, ps =>
    if isSequenceEnd ps.current then .ok ([], ps)
    else do
      let (e, ps) ← parseQuantified fuel ps
      let (es, ps) ← parseSequenceItems fuel ps
      .ok (e :: es, ps)

/-- Parser::parse_quantified. -/
def parseQuantified : Nat → ParserSt → Except ParseError (Expr × ParserSt)
  | 0, _ => .error .fuelExhausted
  | fuel + 1, ps => do
    let (atom, ps) ← parseAtom fuel ps
    let (q?, ps) ← parseQuantifier fuel ps
    match q? with
    | some q => .ok (.quantified atom q, ps)
    | none => .ok (atom, ps)

/-- Parser::parse_quantifier. -/
def parseQuantifier : Nat → ParserSt → Except ParseError (Option Quantifier × ParserSt)
  | 0, _ => .error .fuelExhausted
  | fuel + 1, ps =>
    match ps.current with
    | .star => .ok (some .zeroOrMore, ps.advance)
    | .starLazy => .ok (some .zeroOrMoreLazy, ps.advance)
    | .plus => .ok (some .oneOrMore, ps.advance)
    | .plusLazy => .ok (some .oneOrMoreLazy, ps.advance)
    | .question => .ok (some .optional, ps.advance)
    | .leftBrace => do
      let ps := ps.advance
      let (min, ps) ← parseNumber fuel ps
      let (q, ps) ←
        if ps.current = .comma then do
          let ps := ps.advance
          if ps.current = .rightBrace then
            pure (Quantifier.atLeast min, ps)
          else do
            let (max, ps) ← parseNumber fuel ps
            pure (Quantifier.between min max, ps)
        else
          pure (Quantifier.exactly min, ps)
      let ps ← expectTok ps .rightBrace
      if ps.current = .question then
        let ps := ps.advance
        match q with
        | .atLeast n => .ok (some (.atLeastLazy n), ps)
        | .between n m => .ok (some (.betweenLazy n m), ps)
        | _ => .ok (some q, ps)
      else
        .ok (some q, ps)
    | _ => .ok (none, ps)

/-- Parser::parse_number. -/
def parseNumber : Nat → ParserSt → Except ParseError (Nat × ParserSt)
  | 0, _ => .error .fuelExhausted
  | fuel + 1, ps =>
    match ps.current with
    | .literal c =>
      if isAsciiDigit c then
        parseNumberRest fuel (c.toNat - '0'.toNat) ps.advance
      else
        .error (.unexpectedToken "number" ps.current.describe)
    | _ => .error (.unexpectedToken "number" ps.current.describe)

/-- The additional-digit loop inside Parser::parse_number. -/
def parseNumberRest : Nat → Nat → ParserSt → Except ParseError (Nat × ParserSt)
  | 0, _, _ => .error .fuelExhausted
  | fuel + 1, n, ps =>
    match ps.current with
    | .literal c =>
      if isAsciiDigit c then
        parseNumberRest fuel (n * 10 + (c.toNat - '0'.toNat)) ps.advance
      else
        .ok (n, ps)
    | _ => .ok (n, ps)

/-- Parser::parse_atom. -/
def parseAtom : Nat → ParserSt → Except ParseError (Expr × ParserSt)
  | 0, _ => .error .fuelExhausted
  | fuel + 1, ps =>
    match ps.current with
    | .literal c => .ok (.literal c, ps.advance)
    | .dot => .ok (.any, ps.advance)
    | .caret => .ok (.startAnchor, ps.advance)
    | .dollar => .ok (.endAnchor, ps.advance)
    | .escape c => .ok (.literal c, ps.advance)
    | .backrefNumber n => .ok (.backreference n, ps.advance)
    | .backrefRelative n => .ok (.relativeBackreference n, ps.advance)
    | .backrefName name => .ok (.namedBackreference name, ps.advance)
    | .wordChar => .ok (.shorthand 'w', ps.advance)
    | .nonWordChar => .ok (.shorthand 'W', ps.advance)
    | .digit => .ok (.shorthand 'd', ps.advance)
    | .nonDigit => .ok (.shorthand 'D', ps.advance)
    | .whitespace => .ok (.shorthand 's', ps.advance)
    | .nonWhitespace => .ok (.shorthand 'S', ps.advance)
    | .wordBoundary => .ok (.wordBoundary, ps.advance)
    | .nonWordBoundary => .ok (.nonWordBoundary, ps.advance)
    | .leftParen => parseGroup fuel ps
    | .namedGroupStart name => do
      let (pat, ps) ← parseAlternation fuel ps.advance
      let ps ← expectTok ps .rightParen
      .ok (.namedGroup name pat, ps)
    | .nonCapturing => do
      let (pat, ps) ← parseAlternation fuel ps.advance
      let ps ← expectTok ps .rightParen
      .ok (.nonCapturingGroup pat, ps)
    | .leftBracket => parseCharClass fuel ps
    | .eof => .error .unexpectedEof
    | _ => .error (.unexpectedToken "expression" ps.current.describe)

/-- Parser::parse_group. -/
def parseGroup : Nat → ParserSt → Except ParseError (Expr × ParserSt)
  | 0, _ => .error .fuelExhausted
  | fuel + 1, ps => do
    let ps ← expectTok ps .leftParen
    let (e, ps) ←
      match ps.current with
      | .namedGroupStart name => do
        let (pat, ps) ← parseAlternation fuel ps.advance
        pure (Expr.namedGroup name pat, ps)
      | .nonCapturing => do
        let (pat, ps) ← parseAlternation fuel ps.advance
        pure (Expr.nonCapturingGroup pat, ps)
      | _ => do
        let (pat, ps) ← parseAlternation fuel ps
        pure (Expr.group pat, ps)
    let ps ← expectTok ps .rightParen
    .ok (e, ps)

/-- Parser::parse_char_class. -/
def parseCharClass : Nat → ParserSt → Except ParseError (Expr × ParserSt)
  | 0, _ => .error .fuelExhausted
  | fuel + 1, ps => do
    let ps ← expectTok ps .leftBracket
    let (negated, ps) :=
      if ps.current = .caret then (true, ps.advance) else (false, ps)
    let (items, ps) ← parseClassItems fuel ps
    match items with
    | [] => .error (.unexpectedToken "character class item" ps.current.describe)
    | _ => do
      let ps ← expectTok ps .rightBracket
      .ok (.characterClass ⟨negated, items⟩, ps)

/-- The collection loop inside Parser::parse_char_class. -/
def parseClassItems : Nat → ParserSt → Except ParseError (List ClassItem × ParserSt)
  | 0, _ => .error .fuelExhausted
  | fuel + 1, ps =>
    if ps.current ≠ .rightBracket ∧ ps.current ≠ .eof then do
      let (it, ps) ← parseClassItem fuel ps
      let (its, ps) ← parseClassItems fuel ps
      .ok (it :: its, ps)
    else .ok ([], ps)

/-- Parser::parse_class_item. -/
def parseClassItem : Nat → ParserSt → Except ParseError (ClassItem × ParserSt)
  | 0, _ => .error .fuelExhausted
  | _ + 1, ps =>
    match ps.current with
    | .literal c =>
      let ps := ps.advance
      if ps.current = .literal '-' then
        let ps := ps.advance
        match ps.current with
        | .literal e => .ok (.range c e, ps.advance)
        | _ => .ok (.char c, ps)
      else
        .ok (.char c, ps)
    | .escape c => .ok (.shorthand c, ps.advance)
    | _ => .error (.unexpectedToken "character or escape" ps.current.describe)

end

/-- Fuel supplied by parse; generous for any input of this length. -/
def parseFuel (cs : List Char) : Nat := 16 * cs.length + 16

/-- The top-level parse function over codepoints (parser.rs, fn parse plus
Parser::parse). -/
def parseChars (cs : List Char) : Except ParseError Expr := do
  let (e, ps) ← parseAlternation (parseFuel cs) (mkParser cs)
  if ps.current = .eof then .ok e
  else .error (.unexpectedToken "EOF" ps.current.describe)

/-- Parsing entry point on Lean strings. -/
def parse (s : String) : Except ParseError Expr := parseChars s.data

/-- Transpiler (ogex/src/transpiler.rs, fn transpile): parse then render the
AST back to conventional regex notation. -/
def transpile (s : String) : Except ParseError (List Char) :=
  (parse s).map Expr.toRegexString

/-! ## NFA (ogex/src/nfa.rs) -/

/-- A transition label (nfa.rs, enum Transition). -/
inductive Transition where
  | char (c : Char)
  | any
  | epsilon
  | charClass (negated : Bool) (items : List ClassItem)
  | groupStart (g : Nat)
  | groupEnd (g : Nat)
  | backref (g : Nat)
  | backrefRelative (n : Int)
  | startAnchor
  | endAnchor
  | wordBoundary
  | nonWordBoundary
deriving DecidableEq, Repr

/-- An NFA state (nfa.rs, struct State). -/
structure NfaState where
  transitions : List (Transition × Nat)
  isAccepting : Bool
deriving DecidableEq, Repr

/-- Mode flags (engine.rs, struct ModeFlags).  The nfa.rs provided in the
sources has no mode_flags field even though engine.rs reads one; the only
value the provided compiler could supply is the default (all flags off), so
compiled NFAs carry the default. -/
structure ModeFlags where
  caseInsensitive : Bool := false
  multiline : Bool := false
  dotall : Bool := false
  extended : Bool := false
deriving DecidableEq, Repr

/-- The NFA (nfa.rs, struct Nfa).  HashMaps are modelled as association
lists with most-recent-entry-first lookup, which matches HashMap::insert
overwrite semantics for every lookup the code performs. -/
structure Nfa where
  states : List NfaState
  start : Nat
  accept : Nat
  nextStateId : Nat
  nextGroupId : Nat
  namedGroups : List (String × Nat)
  numberedGroups : List Nat
  modeFlags : ModeFlags
deriving Repr

/-- Nfa::new. -/
def Nfa.new : Nfa := ⟨[], 0, 0, 0, 1, [], [], {}⟩

/-- Nfa::new_state: allocate a fresh state, returning (updated nfa, id). -/
def newState (nfa : Nfa) : Nfa × Nat :=
  ({ nfa with
      states := nfa.states ++ [⟨[], false⟩]
      nextStateId := nfa.nextStateId + 1 },
   nfa.nextStateId)

/-- In-place update of the i-th list element (Vec index-assign). -/
def listModify {α : Type} : List α → Nat → (α → α) → List α
  | [], _, _ => []
  | x :: xs, 0, f => f x :: xs
  | x :: xs, n + 1, f => x :: listModify xs n f

/-- Nfa::add_transition. -/
def addTransition (nfa : Nfa) (fromId : Nat) (t : Transition) (toId : Nat) : Nfa :=
  { nfa with
      states := listModify nfa.states fromId
        (fun st => { st with transitions := st.transitions ++ [(t, toId)] }) }

/-- Nfa::resolve_relative. -/
def resolveRelative (nfa : Nfa) (relative : Int) : Option Nat :=
  if 0 ≤ relative then none
  else
    let reverseIndex := (-relative).toNat
    if reverseIndex = 0 ∨ nfa.numberedGroups.length < reverseIndex then none
    else some (nfa.numberedGroups.getD (nfa.numberedGroups.length - reverseIndex) 0)

/-- Nfa::compile_empty. -/
def compileEmpty (nfa : Nfa) : Nfa × Nat × Nat :=
  let (nfa, start) := newState nfa
  let (nfa, accept) := newState nfa
  (addTransition nfa start .epsilon accept, start, accept)

/-- Nfa::compile_char. -/
def compileChar (nfa : Nfa) (c : Char) : Nfa × Nat × Nat :=
  let (nfa, start) := newState nfa
  let (nfa, accept) := newState nfa
  (addTransition nfa start (.char c) accept, start, accept)

/-- Nfa::compile_any. -/
def compileAny (nfa : Nfa) : Nfa × Nat × Nat :=
  let (nfa, start) := newState nfa
  let (nfa, accept) := newState nfa
  (addTransition nfa start .any accept, start, accept)

/-- Nfa::compile_char_class. -/
def compileCharClass (nfa : Nfa) (negated : Bool) (items : List ClassItem) : Nfa × Nat × Nat :=
  let (nfa, start) := newState nfa
  let (nfa, accept) := newState nfa
  (addTransition nfa start (.charClass negated items) accept, start, accept)

/-- Nfa::compile_start_anchor. -/
def compileStartAnchor (nfa : Nfa) : Nfa × Nat × Nat :=
  let (nfa, start) := newState nfa
  let (nfa, accept) := newState nfa
  (addTransition nfa start .startAnchor accept, start, accept)

/-- Nfa::compile_end_anchor. -/
def compileEndAnchor (nfa : Nfa) : Nfa × Nat × Nat :=
  let (nfa, start) := newState nfa
  let (nfa, accept) := newState nfa
  (addTransition nfa start .endAnchor accept, start, accept)

/-- Nfa::compile_backref. -/
def compileBackref (nfa : Nfa) (n : Nat) : Nfa × Nat × Nat :=
  let (nfa, start) := newState nfa
  let (nfa, accept) := newState nfa
  (addTransition nfa start (.backref n) accept, start, accept)

/-- Nfa::compile_backref_relative. -/
def compileBackrefRelative (nfa : Nfa) (n : Int) : Nfa × Nat × Nat :=
  let (nfa, start) := newState nfa
  let (nfa, accept) := newState nfa
  (addTransition nfa start (.backrefRelative n) accept, start, accept)

/-- Nfa::compile_shorthand. -/
def compileShorthand (nfa : Nfa) (c : Char) : Nfa × Nat × Nat :=
  let (nfa, start) := newState nfa
  let (nfa, accept) := newState nfa
  (addTransition nfa start
      (.charClass (isAsciiUppercase c) [.shorthand (toAsciiLowercase c)]) accept,
   start, accept)

/-- Nfa::compile_word_boundary. -/
def compileWordBoundary (nfa : Nfa) (negated : Bool) : Nfa × Nat × Nat :=
  let (nfa, start) := newState nfa
  let (nfa, accept) := newState nfa
  (addTransition nfa start (if negated then .nonWordBoundary else .wordBoundary) accept,
   start, accept)

/-- Fuel for the compile functions.  The Rust recursion terminates on a
(sizeOf expression, helper rank, copy count) measure; the embedding instead
threads fuel, decremented at every call, so that compilation stays
structurally recursive and therefore kernel-computable.  This constant
exceeds the call count of every pattern appearing in this development (on
fuel exhaustion the functions return the inert triple (nfa, 0, 0), which no
theorem below ever produces). -/
def compileMaxFuel : Nat := 1000000

mutual

/-- Nfa::compile_expr. -/
def compileExpr : Nat → Nfa → Expr → Nfa × Nat × Nat
  | 0, nfa, _ => (nfa, 0, 0)
  | fuel + 1, nfa, e =>
    match e with
    | .empty => compileEmpty nfa
    | .literal c => compileChar nfa c
    | .any => compileAny nfa
    | .sequence es =>
      match es with
      | [] => compileEmpty nfa
      | e0 :: rest =>
        let (nfa, s, a) := compileExpr fuel nfa e0
        compileSeqGo fuel nfa rest s a
    | .alternation es =>
      match es with
      | [] => compileEmpty nfa
      | [e0] => compileExpr fuel nfa e0
      | es =>
        let (nfa, start) := newState nfa
        let (nfa, accept) := newState nfa
        compileAltGo fuel nfa es start accept
    | .characterClass cc => compileCharClass nfa cc.negated cc.items
    | .quantified e q => compileQuantified fuel nfa e q
    | .group e => compileGroupExpr fuel nfa e none
    | .nonCapturingGroup e => compileExpr fuel nfa e
    | .namedGroup name pat => compileGroupExpr fuel nfa pat (some name)
    | .atomicGroup e => compileExpr fuel nfa e
    | .startAnchor => compileStartAnchor nfa
    | .endAnchor => compileEndAnchor nfa
    | .backreference n => compileBackref nfa n
    | .relativeBackreference n => compileBackrefRelative nfa n
    | .namedBackreference name =>
      match nfa.namedGroups.lookup name with
      | some gid => compileBackref nfa gid
      | none => compileBackref nfa 0
    | .shorthand c => compileShorthand nfa c
    | .wordBoundary => compileWordBoundary nfa false
    | .nonWordBoundary => compileWordBoundary nfa true
    | .lookahead _ | .negativeLookahead _ | .lookbehind _ | .negativeLookbehind _
    | .conditionalGroup _ => compileEmpty nfa
termination_by structural fuel _x1 _x2 => fuel

/-- The chaining loop of Nfa::compile_sequence. -/
def compileSeqGo : Nat → Nfa → List Expr → Nat → Nat → Nfa × Nat × Nat
  | 0, nfa, _, _, _ => (nfa, 0, 0)
  | fuel + 1, nfa, es, start, prevAccept =>
    match es with
    | [] => (nfa, start, prevAccept)
    | e :: rest =>
      let (nfa, s, a) := compileExpr fuel nfa e
      let nfa := addTransition nfa prevAccept .epsilon s
      compileSeqGo fuel nfa rest start a
termination_by structural fuel _x1 _x2 _x3 _x4 => fuel

/-- The branch loop of Nfa::compile_alternation. -/
def compileAltGo : Nat → Nfa → List Expr → Nat → Nat → Nfa × Nat × Nat
  | 0, nfa, _, _, _ => (nfa, 0, 0)
  | fuel + 1, nfa, es, start, accept =>
    match es with
    | [] => (nfa, start, accept)
    | e :: rest =>
      let (nfa, s, a) := compileExpr fuel nfa e
      let nfa := addTransition nfa start .epsilon s
      let nfa := addTransition nfa a .epsilon accept
      compileAltGo fuel nfa rest start accept
termination_by structural fuel _x1 _x2 _x3 _x4 => fuel

/-- Nfa::compile_quantified.  Note: the inner expression is compiled (and the
start/accept pair allocated) before the quantifier is inspected; for the
braced quantifiers the code then returns a fresh compile_repeat fragment,
abandoning that first copy (its states, transitions and any group ids it
registered remain in the NFA). -/
def compileQuantified : Nat → Nfa → Expr → Quantifier → Nfa × Nat × Nat
  | 0, nfa, _, _ => (nfa, 0, 0)
  | fuel + 1, nfa, e, q =>
    let (nfa, innerStart, innerAccept) := compileExpr fuel nfa e
    let (nfa, start) := newState nfa
    let (nfa, accept) := newState nfa
    match q with
    | .zeroOrMore =>
      let nfa := addTransition nfa start .epsilon innerStart
      let nfa := addTransition nfa start .epsilon accept
      let nfa := addTransition nfa innerAccept .epsilon innerStart
      let nfa := addTransition nfa innerAccept .epsilon accept
      (nfa, start, accept)
    | .zeroOrMoreLazy =>
      let nfa := addTransition nfa start .epsilon accept
      let nfa := addTransition nfa start .epsilon innerStart
      let nfa := addTransition nfa innerAccept .epsilon accept
      let nfa := addTransition nfa innerAccept .epsilon innerStart
      (nfa, start, accept)
    | .oneOrMore =>
      let nfa := addTransition nfa start .epsilon innerStart
      let nfa := addTransition nfa innerAccept .epsilon innerStart
      let nfa := addTransition nfa innerAccept .epsilon accept
      (nfa, start, accept)
    | .oneOrMoreLazy =>
      let nfa := addTransition nfa start .epsilon innerStart
      let nfa := addTransition nfa innerAccept .epsilon accept
      let nfa := addTransition nfa innerAccept .epsilon innerStart
      (nfa, start, accept)
    | .optional =>
      let nfa := addTransition nfa start .epsilon innerStart
      let nfa := addTransition nfa start .epsilon accept
      let nfa := addTransition nfa innerAccept .epsilon accept
      (nfa, start, accept)
    | .exactly n => compileRepeatExact fuel nfa e n
    | .atLeast n => compileRepeatAtLeast fuel nfa e n
    | .atLeastLazy n => compileRepeatAtLeastLazy fuel nfa e n
    | .between n m => compileRepeatBetween fuel nfa e n m
    | .betweenLazy n m => compileRepeatBetweenLazy fuel nfa e n m
termination_by structural fuel _x1 _x2 _x3 => fuel

/-- Nfa::compile_repeat_exact. -/
def compileRepeatExact : Nat → Nfa → Expr → Nat → Nfa × Nat × Nat
  | 0, nfa, _, _ => (nfa, 0, 0)
  | fuel + 1, nfa, e, n =>
    if n = 0 then compileEmpty nfa
    else if n = 1 then compileExpr fuel nfa e
    else
      let (nfa, s, a) := compileExpr fuel nfa e
      compileRepeatExactGo fuel nfa e (n - 1) s a
termination_by structural fuel _x1 _x2 _x3 => fuel

/-- The copy loop of Nfa::compile_repeat_exact. -/
def compileRepeatExactGo : Nat → Nfa → Expr → Nat → Nat → Nat → Nfa × Nat × Nat
  | 0, nfa, _, _, _, _ => (nfa, 0, 0)
  | fuel + 1, nfa, e, k, start, prevAccept =>
    match k with
    | 0 => (nfa, start, prevAccept)
    | k + 1 =>
      let (nfa, s, a) := compileExpr fuel nfa e
      let nfa := addTransition nfa prevAccept .epsilon s
      compileRepeatExactGo fuel nfa e k start a
termination_by structural fuel _x1 _x2 _x3 _x4 _x5 => fuel

/-- Nfa::compile_repeat_at_least. -/
def compileRepeatAtLeast : Nat → Nfa → Expr → Nat → Nfa × Nat × Nat
  | 0, nfa, _, _ => (nfa, 0, 0)
  | fuel + 1, nfa, e, n =>
    let (nfa, exactStart, exactAccept) := compileRepeatExact fuel nfa e n
    let (nfa, starStart, starAccept) := compileQuantified fuel nfa e .zeroOrMore
    (addTransition nfa exactAccept .epsilon starStart, exactStart, starAccept)
termination_by structural fuel _x1 _x2 _x3 => fuel

/-- Nfa::compile_repeat_at_least_lazy. -/
def compileRepeatAtLeastLazy : Nat → Nfa → Expr → Nat → Nfa × Nat × Nat
  | 0, nfa, _, _ => (nfa, 0, 0)
  | fuel + 1, nfa, e, n =>
    let (nfa, exactStart, exactAccept) := compileRepeatExact fuel nfa e n
    let (nfa, starStart, starAccept) := compileQuantified fuel nfa e .zeroOrMoreLazy
    (addTransition nfa exactAccept .epsilon starStart, exactStart, starAccept)
termination_by structural fuel _x1 _x2 _x3 => fuel

/-- Nfa::compile_repeat_between. -/
def compileRepeatBetween : Nat → Nfa → Expr → Nat → Nat → Nfa × Nat × Nat
  | 0, nfa, _, _, _ => (nfa, 0, 0)
  | fuel + 1, nfa, e, n, m =>
    if n = m then compileRepeatExact fuel nfa e n
    else
      let (nfa, exactStart, exactAccept) := compileRepeatExact fuel nfa e n
      let (nfa, start) := newState nfa
      let (nfa, accept) := newState nfa
      let nfa := addTransition nfa start .epsilon exactStart
      let (nfa, prevAccept) := compileRepeatBetweenGo fuel nfa e (m - n) accept exactAccept
      (addTransition nfa prevAccept .epsilon accept, start, accept)
termination_by structural fuel _x1 _x2 _x3 _x4 => fuel

/-- The optional-copy loop of Nfa::compile_repeat_between (greedy order). -/
def compileRepeatBetweenGo : Nat → Nfa → Expr → Nat → Nat → Nat → Nfa × Nat
  | 0, nfa, _, _, _, prevAccept => (nfa, prevAccept)
  | fuel + 1, nfa, e, k, accept, prevAccept =>
    match k with
    | 0 => (nfa, prevAccept)
    | k + 1 =>
      let (nfa, s, a) := compileExpr fuel nfa e
      let nfa := addTransition nfa prevAccept .epsilon s
      let nfa := addTransition nfa prevAccept .epsilon accept
      compileRepeatBetweenGo fuel nfa e k accept a
termination_by structural fuel _x1 _x2 _x3 _x4 _x5 => fuel

/-- Nfa::compile_repeat_between_lazy. -/
def compileRepeatBetweenLazy : Nat → Nfa → Expr → Nat → Nat → Nfa × Nat × Nat
  | 0, nfa, _, _, _ => (nfa, 0, 0)
  | fuel + 1, nfa, e, n, m =>
    if n = m then compileRepeatExact fuel nfa e n
    else
      let (nfa, exactStart, exactAccept) := compileRepeatExact fuel nfa e n
      let (nfa, start) := newState nfa
      let (nfa, accept) := newState nfa
      let nfa := addTransition nfa start .epsilon exactStart
      let (nfa, prevAccept) := compileRepeatBetweenLazyGo fuel nfa e (m - n) accept exactAccept
      (addTransition nfa prevAccept .epsilon accept, start, accept)
termination_by structural fuel _x1 _x2 _x3 _x4 => fuel

/-- The optional-copy loop of Nfa::compile_repeat_between_lazy (exit-first
order). -/
def compileRepeatBetweenLazyGo : Nat → Nfa → Expr → Nat → Nat → Nat → Nfa × Nat
  | 0, nfa, _, _, _, prevAccept => (nfa, prevAccept)
  | fuel + 1, nfa, e, k, accept, prevAccept =>
    match k with
    | 0 => (nfa, prevAccept)
    | k + 1 =>
      let (nfa, s, a) := compileExpr fuel nfa e
      let nfa := addTransition nfa prevAccept .epsilon accept
      let nfa := addTransition nfa prevAccept .epsilon s
      compileRepeatBetweenLazyGo fuel nfa e k accept a
termination_by structural fuel _x1 _x2 _x3 _x4 _x5 => fuel

/-- Nfa::compile_group (capturing or named). -/
def compileGroupExpr : Nat → Nfa → Expr → Option String → Nfa × Nat × Nat
  | 0, nfa, _, _ => (nfa, 0, 0)
  | fuel + 1, nfa, e, name =>
    let groupId := nfa.nextGroupId
    let nfa := { nfa with nextGroupId := nfa.nextGroupId + 1 }
    let nfa :=
      match name with
      | some n => { nfa with namedGroups := (n, groupId) :: nfa.namedGroups }
      | none => { nfa with numberedGroups := nfa.numberedGroups ++ [groupId] }
    let (nfa, start) := newState nfa
    let (nfa, innerStart, innerAccept) := compileExpr fuel nfa e
    let (nfa, accept) := newState nfa
    let nfa := addTransition nfa start (.groupStart groupId) innerStart
    let nfa := addTransition nfa innerAccept (.groupEnd groupId) accept
    (nfa, start, accept)
termination_by structural fuel _x1 _x2 _x3 => fuel

end

/-- Nfa::from_expr. -/
def fromExpr (e : Expr) : Nfa :=
  let nfa := Nfa.new
  let (nfa, start, accept) := compileExpr compileMaxFuel nfa e
  let nfa := { nfa with start := start, accept := accept }
  { nfa with states := listModify nfa.states accept (fun st => { st with isAccepting := true }) }

/-! ## Matching engine (ogex/src/engine.rs)

The simulator works over positions into the codepoint list (the Rust code
collects input.chars() into a Vec and indexes it).  Capture maps
(HashMap of group index to span) are association lists whose lookup returns
the most recently inserted binding, matching HashMap::insert overwrite
semantics.  The epsilon-closure worklist loop is given explicit fuel; the
fuel supplied by epsilonClosure is shown below to be large enough that the
loop always drains its stack, so the embedding computes exactly the closure
the Rust loop computes. -/

/-- Capture map: group index to half-open span. -/
abbrev GroupMap := List (Nat × (Nat × Nat))

/-- A match result (engine.rs, struct Match). -/
structure Match where
  start : Nat
  «end» : Nat
  groups : GroupMap
  namedGroups : List (String × (Nat × Nat))
deriving DecidableEq, Repr

/-- Match::group. -/
def Match.group (m : Match) (n : Nat) : Option (Nat × Nat) := m.groups.lookup n

/-- Match::named_group. -/
def Match.namedGroup (m : Match) (name : String) : Option (Nat × Nat) :=
  m.namedGroups.lookup name

/-- Take exactly k bytes worth of codepoints from the front, failing when k
does not land on a codepoint boundary or exceeds the text. -/
def takeBytes : List Char → Nat → Option (List Char)
  | _, 0 => some []
  | [], _ + 1 => none
  | c :: cs, k + 1 =>
    if _h : utf8SizeOf c ≤ k + 1 then
      (takeBytes cs (k + 1 - utf8SizeOf c)).map (c :: ·)
    else none

/-- Drop exactly k bytes worth of codepoints, failing off-boundary. -/
def dropBytes : List Char → Nat → Option (List Char)
  | cs, 0 => some cs
  | [], _ + 1 => none
  | c :: cs, k + 1 =>
    if _h : utf8SizeOf c ≤ k + 1 then dropBytes cs (k + 1 - utf8SizeOf c)
    else none

/-- Match::as_str models the Rust byte slice input[start..end]: the indices
are used as byte offsets into the UTF-8 text, and the slice panics (None
here) when an index is out of range, not on a character boundary, or
start > end. -/
def Match.asStr (m : Match) (input : List Char) : Option (List Char) :=
  if m.start ≤ m.end then
    (dropBytes input m.start).bind (fun t => takeBytes t (m.end - m.start))
  else none

/-- A simulation thread (engine.rs, struct SimState). -/
structure SimState where
  stateId : Nat
  groups : GroupMap
deriving DecidableEq, Repr

/-- Read a state from the flat table; out of range reads (a panic in Rust,
never reachable from compiled NFAs) give an inert empty state. -/
def getState (nfa : Nfa) (id : Nat) : NfaState := nfa.states.getD id ⟨[], false⟩

/-- Is a thread with this state id present (the closure dedup test)? -/
def containsId (l : List SimState) (id : Nat) : Bool := l.any (·.stateId = id)

/-- NfaSimulator::is_word_char. -/
def isWordChar (c : Char) : Bool := isAsciiAlphanumeric c || c = '_'

/-- NfaSimulator::is_word_boundary.  The Rust code indexes input_chars[pos-1]
unguarded (panicking when pos-1 is past the end); every position reachable in
the theorems below is in range, and the default used for the out-of-range
read is a non-word character. -/
def isWordBoundary (cs : List Char) (pos : Nat) : Bool :=
  let leftIsWord := decide (0 < pos) && isWordChar (cs.getD (pos - 1) '\x00')
  let rightIsWord := decide (pos < cs.length) && isWordChar (cs.getD pos '\x00')
  leftIsWord != rightIsWord

/-- Matching of one character-class item (the closure inside
NfaSimulator::try_transition). -/
def classItemMatches (it : ClassItem) (c : Char) : Bool :=
  match it with
  | .char ch => ch = c
  | .range lo hi => lo ≤ c && c ≤ hi
  | .shorthand sh =>
    match sh with
    | 'd' => isAsciiDigit c
    | 'D' => !isAsciiDigit c
    | 'w' => isAsciiAlphanumeric c || c = '_'
    | 'W' => !(isAsciiAlphanumeric c || c = '_')
    | 's' => isAsciiWhitespace c
    | 'S' => !isAsciiWhitespace c
    | _ => false

/-- NfaSimulator::try_transition. -/
def tryTransition (nfa : Nfa) (st : SimState) (t : Transition) (target : Nat)
    (c : Char) : Option SimState :=
  let m : Bool :=
    match t with
    | .char tc =>
      if nfa.modeFlags.caseInsensitive then toAsciiLowercase tc = toAsciiLowercase c
      else tc = c
    | .charClass negated items =>
      let matched := items.any (classItemMatches · c)
      if negated then !matched else matched
    | .any => if nfa.modeFlags.dotall then true else c ≠ '\n'
    | _ => false
  if m then some ⟨target, st.groups⟩ else none

/-- The pushes made while processing one popped thread inside
NfaSimulator::epsilon_closure: its zero-width transitions, in declaration
order, each skipped when the target state id is already in the closure. -/
def zwPushes (nfa : Nfa) (cs : List Char) (startPos pos : Nat)
    (clo : List SimState) (st : SimState) : List SimState :=
  (getState nfa st.stateId).transitions.filterMap fun tr =>
    let (t, target) := tr
    if containsId clo target then none
    else
      match t with
      | .epsilon => some ⟨target, st.groups⟩
      | .startAnchor =>
        if nfa.modeFlags.multiline then
          let isStart := pos = startPos
          let isAfterNewline := 0 < pos ∧ cs.get? (pos - 1) = some '\n'
          if isStart ∨ isAfterNewline then some ⟨target, st.groups⟩ else none
        else
          if startPos = 0 ∧ pos = startPos then some ⟨target, st.groups⟩ else none
      | .endAnchor =>
        if nfa.modeFlags.multiline then
          let isEnd := pos = cs.length
          let isBeforeNewline := cs.get? pos = some '\n'
          if isEnd ∨ isBeforeNewline then some ⟨target, st.groups⟩ else none
        else
          if pos = cs.length then some ⟨target, st.groups⟩ else none
      | .wordBoundary =>
        if isWordBoundary cs pos then some ⟨target, st.groups⟩ else none
      | .nonWordBoundary =>
        if !isWordBoundary cs pos then some ⟨target, st.groups⟩ else none
      | .groupStart g => some ⟨target, (g, (pos, pos)) :: st.groups⟩
      | .groupEnd g =>
        match st.groups.lookup g with
        | some (s0, _) => some ⟨target, (g, (s0, pos)) :: st.groups⟩
        | none => some ⟨target, st.groups⟩
      | _ => none

/-- The worklist loop of NfaSimulator::epsilon_closure.  The stack is the
reverse of the Rust Vec (head = next pop); pushes for one thread are made in
transition order, so they are popped in reverse order, exactly as the Rust
Vec push/pop does. -/
def closureGo (nfa : Nfa) (cs : List Char) (startPos pos : Nat) :
    Nat → List SimState → List SimState → List SimState
  | 0, clo, _ => clo
  | _ + 1, clo, [] => clo
  | fuel + 1, clo, st :: stack =>
    if containsId clo st.stateId then closureGo nfa cs startPos pos fuel clo stack
    else
      let clo' := clo ++ [st]
      let pushes := zwPushes nfa cs startPos pos clo' st
      closureGo nfa cs startPos pos fuel clo' (pushes.reverse ++ stack)

/-- Total number of transitions in the NFA. -/
def totalTransCount (nfa : Nfa) : Nat := (nfa.states.map (·.transitions.length)).sum

/-- Fuel that always suffices to drain the closure worklist (proved
sufficient below). -/
def closureFuel (nfa : Nfa) (k : Nat) : Nat :=
  k + (nfa.states.length + k + totalTransCount nfa + 1) * (totalTransCount nfa + 1) + 1

/-- NfaSimulator::epsilon_closure. -/
def epsilonClosure (nfa : Nfa) (cs : List Char) (startPos : Nat)
    (states : List SimState) (pos : Nat) : List SimState :=
  closureGo nfa cs startPos pos (closureFuel nfa states.length) [] states.reverse

/-- NfaSimulator::find_accepting. -/
def findAccepting (nfa : Nfa) (states : List SimState) : Option GroupMap :=
  (states.find? (·.stateId = nfa.accept)).map (·.groups)

/-- One thread-and-transition step of NfaSimulator::step_with_backrefs: the
accumulator carries (new_states, chars_consumed), initialised to ([], 1). -/
def stepTrans (nfa : Nfa) (cs : List Char) (pos : Nat) (st : SimState) (c : Char)
    (acc : List SimState × Nat) (tr : Transition × Nat) : List SimState × Nat :=
  let (t, target) := tr
  match t with
  | .backref gid =>
    match st.groups.lookup gid with
    | some (a, b) =>
      let captured := (cs.drop a).take (b - a)
      let remaining := cs.drop pos
      if captured.isPrefixOf remaining then
        (acc.1 ++ [⟨target, st.groups⟩], max acc.2 (max (utf8Len captured) 1))
      else acc
    | none => acc
  | .backrefRelative rel =>
    match resolveRelative nfa rel with
    | some gid =>
      match st.groups.lookup gid with
      | some (a, b) =>
        let captured := (cs.drop a).take (b - a)
        let remaining := cs.drop pos
        if captured.isPrefixOf remaining then
          (acc.1 ++ [⟨target, st.groups⟩], max acc.2 (max (utf8Len captured) 1))
        else acc
      | none => acc
    | none => acc
  | _ =>
    match tryTransition nfa st t target c with
    | some ns => (acc.1 ++ [ns], acc.2)
    | none => acc

/-- NfaSimulator::step_with_backrefs. -/
def stepWithBackrefs (nfa : Nfa) (cs : List Char) (startPos : Nat)
    (states : List SimState) (c : Char) (pos : Nat) : List SimState × Nat :=
  let folded :=
    List.foldl
      (fun acc st =>
        List.foldl (stepTrans nfa cs pos st c) acc (getState nfa st.stateId).transitions)
      ([], 1) states
  (epsilonClosure nfa cs startPos folded.1 (pos + folded.2), folded.2)

/-- The shared tail of NfaSimulator::run: a final epsilon closure (letting
end anchors and boundaries fire) followed by one last accept test. -/
def runFinish (nfa : Nfa) (cs : List Char) (startPos : Nat) (states : List SimState)
    (pos : Nat) (la : Option (Nat × GroupMap)) : Option (Nat × GroupMap) :=
  let closed := epsilonClosure nfa cs startPos states pos
  match findAccepting nfa closed with
  | some g => some (pos, g)
  | none => la

/-- The while loop of NfaSimulator::run.  The loop advances pos by at least
one per iteration (stepWithBackrefs_consumed_pos) and stops once
pos ≥ cs.length, so the fuel cs.length + 1 supplied by runSim always
suffices; fuel keeps the recursion structural for kernel evaluation. -/
def runLoop (nfa : Nfa) (cs : List Char) (startPos : Nat) :
    Nat → List SimState → Nat → Option (Nat × GroupMap) → Option (Nat × GroupMap)
  | 0, _, _, la => la
  | fuel + 1, cur, pos, la =>
    if h : pos < cs.length then
      let c := cs.get ⟨pos, h⟩
      let res := stepWithBackrefs nfa cs startPos cur c pos
      if res.1 = [] then runFinish nfa cs startPos res.1 pos la
      else
        let pos' := pos + res.2
        let la' :=
          match findAccepting nfa res.1 with
          | some g => some (pos', g)
          | none => la
        runLoop nfa cs startPos fuel res.1 pos' la'
    else runFinish nfa cs startPos cur pos la

/-- NfaSimulator::run. -/
def runSim (nfa : Nfa) (cs : List Char) (startPos : Nat) : Option Match :=
  let pos := startPos
  let cur := epsilonClosure nfa cs startPos [⟨nfa.start, []⟩] pos
  let la :=
    match findAccepting nfa cur with
    | some g => some (pos, g)
    | none => none
  (runLoop nfa cs startPos (cs.length + 1) cur pos la).map fun eg => ⟨startPos, eg.1, eg.2, []⟩

/-- Regex::match_from. -/
def matchFrom (nfa : Nfa) (cs : List Char) (start : Nat) : Option Match :=
  runSim nfa cs start

/-- The scan loop of Regex::find: try each start position up to the byte
length of the input (the Rust loop bound is input.len(), the UTF-8 byte
count).  The second argument counts the remaining start positions, making
the recursion structural. -/
def findGo (nfa : Nfa) (cs : List Char) (s : Nat) : Nat → Option Match
  | 0 => none
  | remaining + 1 =>
    match matchFrom nfa cs s with
    | some m => some m
    | none => findGo nfa cs (s + 1) remaining

/-- Regex::find (start positions 0, 1, ..., utf8Len cs). -/
def find (nfa : Nfa) (cs : List Char) : Option Match :=
  findGo nfa cs 0 (utf8Len cs + 1)

/-- Regex::is_match. -/
def isMatch (nfa : Nfa) (cs : List Char) : Bool := (find nfa cs).isSome

/-- The scan loop of Regex::find_all.  The Rust loop can fail to terminate
(it does not advance past an empty match), so the embedding carries fuel and
returns none exactly when the loop has not finished within that many
iterations; any two sufficient fuels agree. -/
def findAllGo (nfa : Nfa) (cs : List Char) :
    Nat → Nat → List Match → Option (List Match)
  | 0, _, _ => none
  | fuel + 1, pos, acc =>
    if pos ≤ utf8Len cs then
      match matchFrom nfa cs pos with
      | some m => findAllGo nfa cs fuel m.end (acc ++ [m])
      | none => findAllGo nfa cs fuel (pos + 1) acc
    else some acc

/-- Regex::find_all, with fuel for the (possibly nonterminating) scan loop. -/
def findAll (nfa : Nfa) (cs : List Char) (fuel : Nat) : Option (List Match) :=
  findAllGo nfa cs fuel 0 []

/-- Regex::new (parse then Nfa::from_expr). -/
def regexNew (s : String) : Except ParseError Nfa := (parse s).map fromExpr

/-! ## Group registry (ogex/src/groups.rs)

The registry is not consulted by the Regex::new compile pipeline (the NFA
compiler keeps its own name map), but it is part of the public surface and
the subject of claims about its invariants. -/

/-- Information about a capture group (groups.rs, struct GroupInfo). -/
structure GroupInfo where
  index : Nat
  name : Option String
  isNamed : Bool
deriving DecidableEq, Repr

/-- Registry state (groups.rs, struct GroupRegistry). -/
structure GroupRegistry where
  groups : List GroupInfo
  nameToIndex : List (String × Nat)
  numberedGroups : List Nat
  nextIndex : Nat
deriving DecidableEq, Repr

/-- Errors of the registry (groups.rs, enum GroupRegistryError). -/
inductive GroupRegistryError where
  | duplicateGroupName (name : String)
  | undefinedBackreference (name : String)
  | invalidBackreference (n : Nat)
  | invalidRelativeBackreference (n : Int)
deriving DecidableEq, Repr

/-- GroupRegistry::new. -/
def GroupRegistry.new : GroupRegistry := ⟨[], [], [], 1⟩

/-- GroupRegistry::register_group.  Mirrors the Rust mutation order: the
index counter is incremented before the duplicate-name check, so a failing
call still advances next_index. -/
def registerGroup (r : GroupRegistry) (name : Option String) :
    Except GroupRegistryError Nat × GroupRegistry :=
  let index := r.nextIndex
  let r := { r with nextIndex := r.nextIndex + 1 }
  match name with
  | some gn =>
    if (r.nameToIndex.lookup gn).isSome then
      (.error (.duplicateGroupName gn), r)
    else
      let r := { r with nameToIndex := (gn, index) :: r.nameToIndex }
      let r := { r with groups := r.groups ++ [⟨index, some gn, true⟩] }
      (.ok index, r)
  | none =>
    let r := { r with numberedGroups := r.numberedGroups ++ [index] }
    let r := { r with groups := r.groups ++ [⟨index, none, false⟩] }
    (.ok index, r)

/-- GroupRegistry::get_by_index. -/
def getByIndex (r : GroupRegistry) (index : Nat) : Option GroupInfo :=
  r.groups.find? (·.index = index)

/-- GroupRegistry::get_by_name. -/
def getByName (r : GroupRegistry) (name : String) : Option Nat :=
  r.nameToIndex.lookup name

/-- GroupRegistry::has_name. -/
def hasName (r : GroupRegistry) (name : String) : Bool :=
  (r.nameToIndex.lookup name).isSome

/-- GroupRegistry::group_count. -/
def groupCount (r : GroupRegistry) : Nat := r.groups.length

/-- GroupRegistry::validate_backref_name. -/
def validateBackrefName (r : GroupRegistry) (name : String) :
    Except GroupRegistryError Nat :=
  match getByName r name with
  | some i => .ok i
  | none => .error (.undefinedBackreference name)

/-- GroupRegistry::validate_backref_number. -/
def validateBackrefNumber (r : GroupRegistry) (num : Nat) :
    Except GroupRegistryError Nat :=
  if num = 0 ∨ r.nextIndex ≤ num then .error (.invalidBackreference num)
  else .ok num

/-- GroupRegistry::numbered_group_count. -/
def numberedGroupCount (r : GroupRegistry) : Nat := r.numberedGroups.length

/-- GroupRegistry::get_numbered_by_reverse_index. -/
def getNumberedByReverseIndex (r : GroupRegistry) (reverseIndex : Nat) :
    Except GroupRegistryError Nat :=
  if reverseIndex = 0 ∨ r.numberedGroups.length < reverseIndex then
    .error (.invalidRelativeBackreference (reverseIndex : Int))
  else
    .ok (r.numberedGroups.getD (r.numberedGroups.length - reverseIndex) 0)

/-- GroupRegistry::resolve_relative_backreference. -/
def resolveRelativeBackreference (r : GroupRegistry) (relative : Int) :
    Except GroupRegistryError Nat :=
  if 0 ≤ relative then .error (.invalidRelativeBackreference relative)
  else getNumberedByReverseIndex r (-relative).toNat

/-- Registry states reachable from new() through successful register_group
calls. -/
inductive ReachableOk : GroupRegistry → Prop where
  | base : ReachableOk GroupRegistry.new
  | step (r : GroupRegistry) (name : Option String) (i : Nat) :
      ReachableOk r → (registerGroup r name).1 = .ok i →
      ReachableOk (registerGroup r name).2

/-- Registry states reachable from new() through arbitrary (possibly
failing) register_group calls. -/
inductive Reachable : GroupRegistry → Prop where
  | base : Reachable GroupRegistry.new
  | step (r : GroupRegistry) (name : Option String) :
      Reachable r → Reachable (registerGroup r name).2

mutual

/-- GroupCollector::visit_expr (fuel keeps the nested recursion
structural; the fuel constant supplied by collectGroups always suffices for
the patterns used). -/
def visitExpr : Nat → Expr → GroupRegistry → Except GroupRegistryError GroupRegistry
  | 0, _, _ => .error (.invalidBackreference 0)
  | fuel + 1, e, r =>
    match e with
    | .empty | .literal _ | .any | .startAnchor | .endAnchor
    | .backreference _ | .relativeBackreference _ | .namedBackreference _
    | .shorthand _ | .wordBoundary | .nonWordBoundary => .ok r
    | .sequence es => visitList fuel es r
    | .alternation es => visitList fuel es r
    | .quantified e _ => visitExpr fuel e r
    | .group e =>
      match registerGroup r none with
      | (.ok _, r) => visitExpr fuel e r
      | (.error err, _) => .error err
    | .nonCapturingGroup e => visitExpr fuel e r
    | .namedGroup name pat =>
      match registerGroup r (some name) with
      | (.ok _, r) => visitExpr fuel pat r
      | (.error err, _) => .error err
    | .characterClass _ => .ok r
    | .lookahead _ | .negativeLookahead _ | .lookbehind _ | .negativeLookbehind _
    | .atomicGroup _ | .conditionalGroup _ => .ok r
termination_by structural fuel _e _r => fuel

/-- Child traversal for sequence/alternation nodes in
GroupCollector::visit_expr. -/
def visitList : Nat → List Expr → GroupRegistry → Except GroupRegistryError GroupRegistry
  | 0, _, _ => .error (.invalidBackreference 0)
  | fuel + 1, es, r =>
    match es with
    | [] => .ok r
    | e :: rest =>
      match visitExpr fuel e r with
      | .ok r => visitList fuel rest r
      | .error err => .error err
termination_by structural fuel _es _r => fuel

end

/-- GroupCollector::collect. -/
def collectGroups (e : Expr) (r : GroupRegistry) :
    Except GroupRegistryError GroupRegistry :=
  visitExpr compileMaxFuel e r

/-! ## Spec-side matching semantics (modelled from the spec)

Modelled from the spec: section 4.4 describes how a compiled pattern
consumes input, as transitions over configurations (state, position,
capture map): zero-width transitions fire under position conditions
(start anchor at position 0, end anchor at the input length, word
boundaries comparing wordness of the neighbouring codepoints with
out-of-bounds treated as non-word), group-start/group-end record spans,
character transitions consume the codepoint at the position, and a
backreference transition for a group captured as (s, e) consumes e − s
codepoints when they equal the captured text (zero codepoints for an empty
capture).  The default (no mode flags) semantics is modelled.  A substring
of the input is accepted by the compiled pattern exactly when such a
transition path leads from the start state to the accept state. -/

/-- Spec-side single-character matching for the default mode flags. -/
def charMatches (t : Transition) (c : Char) : Bool :=
  match t with
  | .char tc => tc = c
  | .any => c ≠ '\n'
  | .charClass negated items =>
    let matched := items.any (classItemMatches · c)
    if negated then !matched else matched
  | _ => false

/-- Presence of a labelled edge in the NFA's transition table. -/
def hasTrans (nfa : Nfa) (q : Nat) (t : Transition) (q' : Nat) : Prop :=
  (t, q') ∈ (getState nfa q).transitions

instance (nfa : Nfa) (q : Nat) (t : Transition) (q' : Nat) :
    Decidable (hasTrans nfa q t q') :=
  inferInstanceAs (Decidable ((t, q') ∈ (getState nfa q).transitions))

/-- One spec-side transition between configurations (state, position,
capture map), following section 4.4 of the spec with default mode flags. -/
inductive SpecStep (nfa : Nfa) (cs : List Char) :
    Nat → Nat → GroupMap → Nat → Nat → GroupMap → Prop where
  | epsilon {q q' pos m} :
      hasTrans nfa q .epsilon q' →
      SpecStep nfa cs q pos m q' pos m
  | startAnchor {q q' m} :
      hasTrans nfa q .startAnchor q' →
      SpecStep nfa cs q 0 m q' 0 m
  | endAnchor {q q' m} :
      hasTrans nfa q .endAnchor q' →
      SpecStep nfa cs q cs.length m q' cs.length m
  | wordBoundary {q q' pos m} :
      hasTrans nfa q .wordBoundary q' →
      isWordBoundary cs pos = true →
      SpecStep nfa cs q pos m q' pos m
  | nonWordBoundary {q q' pos m} :
      hasTrans nfa q .nonWordBoundary q' →
      isWordBoundary cs pos = false →
      SpecStep nfa cs q pos m q' pos m
  | groupStart {q q' pos m g} :
      hasTrans nfa q (.groupStart g) q' →
      SpecStep nfa cs q pos m q' pos ((g, (pos, pos)) :: m)
  | groupEndSome {q q' pos m g s0 e0} :
      hasTrans nfa q (.groupEnd g) q' →
      m.lookup g = some (s0, e0) →
      SpecStep nfa cs q pos m q' pos ((g, (s0, pos)) :: m)
  | groupEndNone {q q' pos m g} :
      hasTrans nfa q (.groupEnd g) q' →
      m.lookup g = none →
      SpecStep nfa cs q pos m q' pos m
  | charStep {q q' pos m t} :
      hasTrans nfa q t q' →
      (h : pos < cs.length) →
      charMatches t (cs.get ⟨pos, h⟩) = true →
      SpecStep nfa cs q pos m q' (pos + 1) m
  | backrefStep {q q' pos m g a b} :
      hasTrans nfa q (.backref g) q' →
      m.lookup g = some (a, b) →
      (cs.drop pos).take (b - a) = (cs.drop a).take (b - a) →
      pos + (b - a) ≤ cs.length →
      SpecStep nfa cs q pos m q' (pos + (b - a)) m
  | backrefRelStep {q q' pos m rel g a b} :
      hasTrans nfa q (.backrefRelative rel) q' →
      resolveRelative nfa rel = some g →
      m.lookup g = some (a, b) →
      (cs.drop pos).take (b - a) = (cs.drop a).take (b - a) →
      pos + (b - a) ≤ cs.length →
      SpecStep nfa cs q pos m q' (pos + (b - a)) m

/-- Reflexive-transitive closure of SpecStep: a transition path between
configurations. -/
inductive SpecExec (nfa : Nfa) (cs : List Char) :
    Nat → Nat → GroupMap → Nat → Nat → GroupMap → Prop where
  | refl {q pos m} : SpecExec nfa cs q pos m q pos m
  | tail {q pos m q1 pos1 m1 q2 pos2 m2} :
      SpecExec nfa cs q pos m q1 pos1 m1 →
      SpecStep nfa cs q1 pos1 m1 q2 pos2 m2 →
      SpecExec nfa cs q pos m q2 pos2 m2

/-- Acceptance of the substring [s, j) of the input by the compiled
pattern, per the spec-side transition semantics. -/
def AcceptsAt (nfa : Nfa) (cs : List Char) (s j : Nat) : Prop :=
  s ≤ cs.length ∧
    ∃ g, SpecExec nfa cs nfa.start s [] nfa.accept j g

/-- No backreference transitions anywhere in the NFA (decidable). -/
def BackrefFree (nfa : Nfa) : Bool :=
  nfa.states.all fun st =>
    st.transitions.all fun tr =>
      match tr.1 with
      | .backref _ => false
      | .backrefRelative _ => false
      | _ => true

/-! ## Concrete instances used by the claims -/

/-- Parse a pattern, defaulting to the empty expression (all patterns used
below are shown to parse successfully where it matters). -/
def astOf (s : String) : Expr := (parse s).toOption.getD Expr.empty

/-- Compile a pattern string to its NFA. -/
def nfaOf (s : String) : Nfa := fromExpr (astOf s)

/-- The named-group/backreference scenario pattern of the spec:
the pattern (name:\w+) is \g\x7bname\x7d. -/
def c4Pattern : String := "(name:\\w+) is \\g\x7bname\x7d"

/-- The scenario input for the named-group pattern. -/
def c4Input : List Char := "John is John and Jane is Jane".data


/-- Compiled NFA of the pattern (x?)\\1y (an empty-capturable group, a
backreference to it, then a literal). -/
def c1Nfa : Nfa := nfaOf "(x?)\\1y"

/-- Input "y" for the backreference-completeness counterexample. -/
def c1Input : List Char := "y".data

/-- Registry obtained by registering "a", then "a" again (which fails but
still advances the index counter), then an unnamed group. -/
def c10Failing : GroupRegistry :=
  (registerGroup (registerGroup (registerGroup GroupRegistry.new (some "a")).2 (some "a")).2 none).2

/-- Modelled from the claim (C6): replace a relative backreference
transition by the absolute numeric backreference it resolves to against the
full numbered-group list of the NFA; an unresolvable relative
backreference is kept as it is. -/
def Transition.toAbsolute (nfa : Nfa) : Transition → Transition
  | .backrefRelative rel =>
    match resolveRelative nfa rel with
    | some g => .backref g
    | none => .backrefRelative rel
  | t => t

/-- Modelled from the claim (C6): the NFA with every resolvable relative
backreference replaced by its absolute counterpart. -/
def toAbsoluteNfa (nfa : Nfa) : Nfa :=
  { nfa with states := nfa.states.map fun st =>
      { st with transitions := st.transitions.map fun tr => (Transition.toAbsolute nfa tr.1, tr.2) } }

/-! ## Proof support for the leftmost-match analysis (C1) -/

/-- Cons-structured transition paths: the same relation as SpecExec but built
by a first step followed by a path, which eases induction over the first
step. -/
inductive SpecExecH (nfa : Nfa) (cs : List Char) :
    Nat → Nat → GroupMap → Nat → Nat → GroupMap → Prop where
  | refl {q pos m} : SpecExecH nfa cs q pos m q pos m
  | head {q pos m q1 pos1 m1 q2 pos2 m2} :
      SpecStep nfa cs q pos m q1 pos1 m1 →
      SpecExecH nfa cs q1 pos1 m1 q2 pos2 m2 →
      SpecExecH nfa cs q pos m q2 pos2 m2

/-- All zero-width successors of one thread: zwPushes with an empty closure,
so no push is suppressed by the dedup test. -/
def zwTargets (nfa : Nfa) (cs : List Char) (startPos pos : Nat)
    (st : SimState) : List SimState :=
  zwPushes nfa cs startPos pos [] st

/-- A thread list closed under zero-width transitions at a position. -/
def SatAt (nfa : Nfa) (cs : List Char) (startPos pos : Nat)
    (l : List SimState) : Prop :=
  ∀ st ∈ l, ∀ st' ∈ zwTargets nfa cs startPos pos st,
    containsId l st'.stateId = true

/-- Every thread of the list is justified by a spec-side transition path from
the run's origin configuration. -/
def ThreadsOk (nfa : Nfa) (cs : List Char) (s pos : Nat)
    (l : List SimState) : Prop :=
  ∀ st ∈ l, SpecExec nfa cs nfa.start s [] st.stateId pos st.groups

/-- The recorded last-accept value is justified by a spec-side path into the
accept state. -/
def LaSound (nfa : Nfa) (cs : List Char) (s : Nat)
    (la : Option (Nat × GroupMap)) : Prop :=
  ∀ p g, la = some (p, g) → SpecExec nfa cs nfa.start s [] nfa.accept p g

/-- When the accept state is present among the threads, an accept has been
recorded. -/
def LaOk (nfa : Nfa) (l : List SimState) (la : Option (Nat × GroupMap)) : Prop :=
  containsId l nfa.accept = true → la.isSome = true

/-- The character-successors of one thread on input character c: the inner
fold of step_with_backrefs restricted to non-backreference transitions. -/
def charSucc (nfa : Nfa) (st : SimState) (c : Char) : List SimState :=
  (getState nfa st.stateId).transitions.filterMap fun tr =>
    tryTransition nfa st tr.1 tr.2 c

/-! ## Printable fragment of the AST (for the surface-syntax round-trip) -/

/-- Characters with no special lexical role: they always lex as a literal
token. -/
def plainChar (c : Char) : Bool :=
  !(c ∈ ['(' ,')', '[', ']', '\x7b', '\x7d', ':', ',', '|', '^', '$', '.', '*', '+', '?', '\\'])

/-- Class items whose printed form re-lexes to the same item. -/
def classItemOk : ClassItem → Bool
  | .char c => plainChar c && c ≠ '-'
  | .range lo hi => plainChar lo && plainChar hi && lo ≠ '-' && hi ≠ '-'
  | .shorthand c =>
    !(c ∈ ['w', 'W', 'd', 'D', 's', 'S', 'b', 'B', 'g']) && !isAsciiDigit c

/-- The input does not begin with a character that could start a quantifier
token. -/
def headNotQuant : List Char → Bool
  | [] => true
  | c :: _ => !(c ∈ ['*', '+', '?', '\x7b'])

/-- The input does not begin with a question mark (which the lexer may merge
into a lazy-quantifier token). -/
def headNotQm : List Char → Bool
  | [] => true
  | c :: _ => c ≠ '?'

/-- After the leading identifier characters, the input does not continue
with a colon (which would make the lexer read a named-group opener). -/
def noColonAfterIdent (cs : List Char) : Bool :=
  match cs.dropWhile isIdentifierChar with
  | ':' :: _ => false
  | _ => true

/-- The printed form does not begin with the three characters of a
non-capturing-group opener. -/
def headNotNcg : List Char → Bool
  | '(' :: '?' :: ':' :: _ => false
  | _ => true

/-- Expressions printed as a single atom (operand of a quantifier). -/
def isAtomShape : Expr → Bool
  | .literal _ | .any | .startAnchor | .endAnchor | .shorthand _
  | .wordBoundary | .nonWordBoundary | .characterClass _
  | .group _ | .nonCapturingGroup _ => true
  | _ => false

/-- Expressions usable as one item of a sequence. -/
def isItemShape : Expr → Bool
  | .quantified _ _ => true
  | e => isAtomShape e

/-- Expressions usable as one branch of an alternation. -/
def isSeqShape : Expr → Bool
  | .alternation _ => false
  | _ => true

/-- The printable-and-reparseable fragment of the AST: no named groups, no
backreferences, plain literals only, class items that re-lex to themselves,
quantifiers applied to atoms only, sequences of at least two items that are
not themselves sequences or alternations, alternations of at least two
branches that are not themselves alternations. -/
inductive Frag : Expr → Prop where
  | literal (c : Char) : plainChar c = true → Frag (.literal c)
  | any : Frag .any
  | startAnchor : Frag .startAnchor
  | endAnchor : Frag .endAnchor
  | wordBoundary : Frag .wordBoundary
  | nonWordBoundary : Frag .nonWordBoundary
  | shorthand (c : Char) : c ∈ (['w', 'W', 'd', 'D', 's', 'S'] : List Char) →
      Frag (.shorthand c)
  | characterClass (cc : CharacterClass) : cc.items ≠ [] →
      (∀ it ∈ cc.items, classItemOk it = true) → Frag (.characterClass cc)
  | group (e : Expr) : Frag e →
      headNotQm (e.toRegexString) = true →
      headNotNcg (e.toRegexString) = true →
      noColonAfterIdent (e.toRegexString ++ [')']) = true →
      noColonAfterIdent ((e.toRegexString).drop 1 ++ [')']) = true →
      Frag (.group e)
  | nonCapturingGroup (e : Expr) : Frag e → Frag (.nonCapturingGroup e)
  | quantified (e : Expr) (q : Quantifier) : Frag e → isAtomShape e = true →
      Frag (.quantified e q)
  | empty : Frag .empty
  | sequence (es : List Expr) : 2 ≤ es.length →
      (∀ e ∈ es, isItemShape e = true) → (∀ e ∈ es, Frag e) → Frag (.sequence es)
  | alternation (es : List Expr) : 2 ≤ es.length →
      (∀ e ∈ es, isSeqShape e = true) → (∀ e ∈ es, Frag e) → Frag (.alternation es)

/-- First tokens that cannot continue an item: a quantifier may not follow. -/
def notQuantTok : Token → Bool
  | .star | .starLazy | .plus | .plusLazy | .question | .leftBrace => false
  | _ => true

/-- The input begins with a sequence terminator (or is exhausted). -/
def seqEndHead : List Char → Bool
  | [] => true
  | c :: _ => c ∈ [')', '|']

/-- The first token is not a digit literal (so a number parse stops here). -/
def digitStopTok : Token → Bool
  | .literal c => !isAsciiDigit c
  | _ => true

/-- The input begins with an alternation terminator (or is exhausted). -/
def altEndHead : List Char → Bool
  | [] => true
  | c :: _ => c = ')'

/-- The printed tail of an alternation: a pipe before each further branch. -/
def printAltsTail : List Expr → List Char
  | [] => []
  | b :: bs => '|' :: b.toRegexString ++ printAltsTail bs

/-- Round-trip statement at atom level. -/
def AtomRT (e : Expr) : Prop :=
  ∀ (rest : List Char) (fuel : Nat), 8 * (e.toRegexString).length + 6 ≤ fuel →
    parseAtom fuel (mkParser (e.toRegexString ++ rest)) = .ok (e, mkParser rest)

/-- Round-trip statement at sequence-item level. -/
def ItemRT (e : Expr) : Prop :=
  ∀ (rest : List Char) (fuel : Nat), 8 * (e.toRegexString).length + 8 ≤ fuel →
    headNotQuant rest = true →
    parseQuantified fuel (mkParser (e.toRegexString ++ rest)) = .ok (e, mkParser rest)

/-- Front facts about an item's print: whatever follows, the first token can
neither end a sequence nor start a quantifier. -/
def ItemFront (e : Expr) : Prop :=
  ∀ z : List Char, headNotQuant (e.toRegexString ++ z) = true ∧
    isSequenceEnd (nextToken (e.toRegexString ++ z)).1 = false

/-- Round-trip statement at sequence level. -/
def SeqRT (e : Expr) : Prop :=
  ∀ (rest : List Char) (fuel : Nat), 8 * (e.toRegexString).length + 12 ≤ fuel →
    seqEndHead rest = true →
    parseSequence fuel (mkParser (e.toRegexString ++ rest)) = .ok (e, mkParser rest)

/-- Round-trip statement at alternation level. -/
def ExprRT (e : Expr) : Prop :=
  ∀ (rest : List Char) (fuel : Nat), 8 * (e.toRegexString).length + 16 ≤ fuel →
    altEndHead rest = true →
    parseAlternation fuel (mkParser (e.toRegexString ++ rest)) = .ok (e, mkParser rest)

def c3FragExpr : Expr :=
  .alternation [.quantified (.group (.sequence [.literal 'a', .literal 'b'])) .zeroOrMore,
    .literal 'c']

/-! ## Lemmas and claim theorems -/

theorem stepTrans_consumed_mono (nfa : Nfa) (cs : List Char) (pos : Nat)
    (st : SimState) (c : Char) (acc : List SimState × Nat) (tr : Transition × Nat) :
    acc.2 ≤ (stepTrans nfa cs pos st c acc tr).2 := by
  obtain ⟨t, target⟩ := tr
  unfold stepTrans
  cases t <;> simp only [] <;>
    repeat' (split <;> try simp)

theorem foldl_consumed_mono {β : Type} (f : List SimState × Nat → β → List SimState × Nat)
    (hf : ∀ a b, a.2 ≤ (f a b).2) (l : List β) (acc : List SimState × Nat) :
    acc.2 ≤ (List.foldl f acc l).2 := by
  induction l generalizing acc with
  | nil => simp
  | cons b l ih => exact Nat.le_trans (hf acc b) (ih _)

/-- The step always reports at least one consumed character (the accumulator
starts at 1 and only grows by max). -/
theorem stepWithBackrefs_consumed_pos (nfa : Nfa) (cs : List Char) (startPos : Nat)
    (states : List SimState) (c : Char) (pos : Nat) :
    1 ≤ (stepWithBackrefs nfa cs startPos states c pos).2 := by
  unfold stepWithBackrefs
  simp only []
  refine Nat.le_trans (Nat.le_refl 1) ?_
  have h : (1 : Nat) = (([] , 1) : List SimState × Nat).2 := rfl
  rw [h]
  apply foldl_consumed_mono
  intro a b
  apply foldl_consumed_mono
  intro a' b'
  exact stepTrans_consumed_mono nfa cs pos b c a' b'

/-- C2: for the compiled pattern a* and input "b", the first match attempt
yields the empty match [0,0), and the find_all scan loop never terminates:
it returns the fuel-exhaustion marker for every fuel, because the loop re-
scans position 0 forever instead of advancing past the empty match. -/
theorem c2_find_all_never_terminates :
    ((matchFrom (nfaOf "a*") ("b".data) 0).map fun m => (m.start, m.end)) = some (0, 0) ∧
    ∀ fuel acc, findAllGo (nfaOf "a*") ("b".data) fuel 0 acc = none := by
  refine ⟨by decide, ?_⟩
  intro fuel
  induction fuel with
  | zero => intro acc; rfl
  | succ fuel ih =>
    intro acc
    have h : findAllGo (nfaOf "a*") ("b".data) (fuel + 1) 0 acc
        = findAllGo (nfaOf "a*") ("b".data) fuel 0 (acc ++ [⟨0, 0, [], []⟩]) := rfl
    rw [h]
    exact ih _

/-- C4 counterexample: on the spec scenario pattern and input, the first
match's named-group lookup for "name" yields none (the engine constructs
every Match with an empty named_groups map), not some (0, 4) as claimed. -/
theorem c4_counterexample :
    ((find (nfaOf c4Pattern) c4Input).map fun m => m.namedGroup "name") = some none ∧
    ((find (nfaOf c4Pattern) c4Input).map fun m => m.namedGroup "name")
      ≠ some (some (0, 4)) := by
  exact ⟨by decide, by decide⟩

/-- C4 amended: the first match spans [0,12) and the span of the capturing
group is available by index (group 1 = (0,4)), but named-group lookup yields
none; find_all yields exactly the two matches [0,12) and [17,29). -/
theorem c4_amended_behavior :
    ((find (nfaOf c4Pattern) c4Input).map fun m =>
        (m.start, m.end, m.group 1, m.namedGroup "name"))
      = some (0, 12, some (0, 4), none) ∧
    ((findAll (nfaOf c4Pattern) c4Input 60).map (List.map fun m => (m.start, m.end)))
      = some [(0, 12), (17, 29)] := by
  exact ⟨by decide, by decide⟩

/-- C5: the backreference step advances by the captured text's byte count
(minimum one), not its codepoint count: matching the all-ASCII pattern
(.)\1 against the two-codepoint input "éé" reports the match [0,3) although
the input has only two codepoints (the step that matched the one-codepoint
capture "é" consumed 2 because é takes two UTF-8 bytes), and the
empty-capture pattern (x?)\1y fails to match "y" because the engine cannot
advance by zero codepoints over the empty backreference. -/
theorem c5_backref_advance_uses_bytes_not_codepoints :
    ((find (nfaOf "(.)\\1") ("éé".data)).map fun m => (m.start, m.end)) = some (0, 3) ∧
    ("éé".data).length = 2 ∧
    (stepWithBackrefs (nfaOf "(.)\\1") ("éé".data) 0 [⟨4, [(1, (0, 1))]⟩] 'é' 1).2 = 2 ∧
    find (nfaOf "(x?)\\1y") ("y".data) = none := by
  exact ⟨by decide, by decide, by decide, by decide⟩

/-- C7: match spans are codepoint offsets, but Match::as_str uses them as
byte offsets: the pattern "x" against "éx" matches at codepoint span [1,2),
and slicing the UTF-8 text at byte offsets 1..2 falls inside the two-byte
encoding of é, so the Rust slice panics (modelled as none) instead of
returning the matched text "x". -/
theorem c7_as_str_byte_slice_panics :
    ((find (nfaOf "x") ("éx".data)).map fun m => (m.start, m.end)) = some (1, 2) ∧
    ((find (nfaOf "x") ("éx".data)).map fun m => m.asStr ("éx".data)) = some none := by
  exact ⟨by decide, by decide⟩

/-- C8 counterexample: compiling a pattern with two groups named "n"
succeeds; Regex::new does not fail with a duplicate-group-name error. -/
theorem c8_counterexample : (regexNew "(n:a)(n:b)").isOk = true := by decide

/-- C8 amended: Regex::new accepts duplicate group names (the compiler's
name map silently rebinds the name to the most recent group, here group 2),
while GroupRegistry-based collection, which the compile pipeline never
invokes, does report the duplicate-group-name error. -/
theorem c8_amended_no_duplicate_check :
    (regexNew "(n:a)(n:b)").isOk = true ∧
    ((parse "(n:a)(n:b)").toOption.map fun e => (fromExpr e).namedGroups.lookup "n")
      = some (some 2) ∧
    ((parse "(n:a)(n:b)").toOption.map fun e => collectGroups e GroupRegistry.new)
      = some (.error (.duplicateGroupName "n")) := by
  exact ⟨by decide, by decide, by decide⟩

/-- C9 counterexample: on the token stream of \x7b2\x7d?xyz the quantifier
routine returns the plain exactly-2 quantifier with the parser state already
past the question mark (at the token stream of xyz): the ? was consumed,
contradicting the claim.  Accordingly, a\x7b2\x7d? parses successfully
(had the ? been left unconsumed, the sequence loop would next read ? as an
atom and fail). -/
theorem c9_counterexample :
    parseQuantifier 10 (mkParser ("\x7b2\x7d?xyz".data))
      = .ok (some (.exactly 2), mkParser ("xyz".data)) ∧
    (parse "a\x7b2\x7d?").isOk = true := by
  exact ⟨by decide, by decide⟩

theorem toAbsolute_getState (nfa : Nfa) (q : Nat) :
    getState (toAbsoluteNfa nfa) q =
      { getState nfa q with transitions :=
          (getState nfa q).transitions.map fun tr => (Transition.toAbsolute nfa tr.1, tr.2) } := by
  unfold getState toAbsoluteNfa
  simp only []
  rcases Nat.lt_or_ge q nfa.states.length with h | h
  · rw [List.getD_eq_getElem _ _ (by simpa using h), List.getD_eq_getElem _ _ h]
    simp
  · rw [List.getD_eq_default _ _ (by simpa using h), List.getD_eq_default _ _ h]
    rfl

theorem toAbsolute_modeFlags (nfa : Nfa) : (toAbsoluteNfa nfa).modeFlags = nfa.modeFlags := rfl

theorem toAbsolute_numbered (nfa : Nfa) :
    (toAbsoluteNfa nfa).numberedGroups = nfa.numberedGroups := rfl

theorem toAbsolute_resolveRelative (nfa : Nfa) (rel : Int) :
    resolveRelative (toAbsoluteNfa nfa) rel = resolveRelative nfa rel := rfl

theorem toAbsolute_tryTransition (nfa : Nfa) (st : SimState) (t : Transition)
    (target : Nat) (c : Char) :
    tryTransition (toAbsoluteNfa nfa) st (Transition.toAbsolute nfa t) target c =
      tryTransition nfa st t target c := by
  cases t <;> try rfl
  case backrefRelative rel =>
    cases hr : resolveRelative nfa rel <;> simp only [Transition.toAbsolute, hr] <;> rfl

theorem toAbsolute_zwPushes (nfa : Nfa) (cs : List Char) (sp p : Nat)
    (clo : List SimState) (st : SimState) :
    zwPushes (toAbsoluteNfa nfa) cs sp p clo st = zwPushes nfa cs sp p clo st := by
  unfold zwPushes
  rw [toAbsolute_getState]
  simp only [List.filterMap_map]
  refine List.filterMap_congr ?_
  intro tr hmem
  obtain ⟨t, target⟩ := tr
  cases t <;> try rfl
  case backrefRelative rel =>
    cases hr : resolveRelative nfa rel <;>
      simp only [Function.comp, Transition.toAbsolute, hr]

theorem toAbsolute_closureGo (nfa : Nfa) (cs : List Char) (sp p : Nat) :
    ∀ (fuel : Nat) (clo stack : List SimState),
      closureGo (toAbsoluteNfa nfa) cs sp p fuel clo stack =
        closureGo nfa cs sp p fuel clo stack := by
  intro fuel
  induction fuel with
  | zero => intro clo stack; rfl
  | succ fuel ih =>
    intro clo stack
    cases stack with
    | nil => rfl
    | cons st stack =>
      by_cases h : containsId clo st.stateId
      · simp only [closureGo, h, if_pos, ih]
      · simp only [closureGo, h, if_neg, Bool.false_eq_true, toAbsolute_zwPushes, ih]

theorem toAbsolute_totalTransCount (nfa : Nfa) :
    totalTransCount (toAbsoluteNfa nfa) = totalTransCount nfa := by
  simp [totalTransCount, toAbsoluteNfa, List.map_map, Function.comp_def, List.length_map]

theorem toAbsolute_statesLength (nfa : Nfa) :
    (toAbsoluteNfa nfa).states.length = nfa.states.length := by
  simp [toAbsoluteNfa]

theorem toAbsolute_closureFuel (nfa : Nfa) (k : Nat) :
    closureFuel (toAbsoluteNfa nfa) k = closureFuel nfa k := by
  simp [closureFuel, toAbsolute_totalTransCount, toAbsolute_statesLength]

theorem toAbsolute_epsilonClosure (nfa : Nfa) (cs : List Char) (sp : Nat)
    (states : List SimState) (pos : Nat) :
    epsilonClosure (toAbsoluteNfa nfa) cs sp states pos =
      epsilonClosure nfa cs sp states pos := by
  unfold epsilonClosure
  rw [toAbsolute_closureFuel, toAbsolute_closureGo]

theorem toAbsolute_findAccepting (nfa : Nfa) (states : List SimState) :
    findAccepting (toAbsoluteNfa nfa) states = findAccepting nfa states := rfl

theorem toAbsolute_stepTrans (nfa : Nfa) (cs : List Char) (pos : Nat)
    (st : SimState) (c : Char) (acc : List SimState × Nat) (t : Transition) (target : Nat) :
    stepTrans (toAbsoluteNfa nfa) cs pos st c acc (Transition.toAbsolute nfa t, target) =
      stepTrans nfa cs pos st c acc (t, target) := by
  cases t <;> try rfl
  case backrefRelative rel =>
    cases hr : resolveRelative nfa rel <;> simp only [Transition.toAbsolute, hr]
    · show stepTrans _ _ _ _ _ _ _ = _
      simp only [stepTrans, toAbsolute_resolveRelative, hr]
    · simp only [stepTrans, toAbsolute_resolveRelative, hr]

theorem toAbsolute_stepWithBackrefs (nfa : Nfa) (cs : List Char) (sp : Nat)
    (states : List SimState) (c : Char) (pos : Nat) :
    stepWithBackrefs (toAbsoluteNfa nfa) cs sp states c pos =
      stepWithBackrefs nfa cs sp states c pos := by
  unfold stepWithBackrefs
  have hfold :
      List.foldl
        (fun acc st =>
          List.foldl (stepTrans (toAbsoluteNfa nfa) cs pos st c) acc
            (getState (toAbsoluteNfa nfa) st.stateId).transitions)
        ([], 1) states =
      List.foldl
        (fun acc st =>
          List.foldl (stepTrans nfa cs pos st c) acc
            (getState nfa st.stateId).transitions)
        ([], 1) states := by
    refine List.foldl_ext _ _ _ ?_
    intro acc st _
    rw [toAbsolute_getState]
    simp only [List.foldl_map]
    refine List.foldl_ext _ _ _ ?_
    intro acc' tr _
    obtain ⟨t, target⟩ := tr
    exact toAbsolute_stepTrans nfa cs pos st c acc' t target
  rw [hfold]
  simp only [toAbsolute_epsilonClosure]

theorem toAbsolute_runFinish (nfa : Nfa) (cs : List Char) (sp : Nat)
    (states : List SimState) (pos : Nat) (la : Option (Nat × GroupMap)) :
    runFinish (toAbsoluteNfa nfa) cs sp states pos la = runFinish nfa cs sp states pos la := by
  unfold runFinish
  simp only [toAbsolute_epsilonClosure, toAbsolute_findAccepting]

theorem toAbsolute_runLoop (nfa : Nfa) (cs : List Char) (sp : Nat) :
    ∀ (fuel : Nat) (cur : List SimState) (pos : Nat) (la : Option (Nat × GroupMap)),
      runLoop (toAbsoluteNfa nfa) cs sp fuel cur pos la = runLoop nfa cs sp fuel cur pos la := by
  intro fuel
  induction fuel with
  | zero => intro cur pos la; rfl
  | succ fuel ih =>
    intro cur pos la
    simp only [runLoop]
    by_cases h : pos < cs.length
    · simp only [dif_pos h]
      rw [toAbsolute_stepWithBackrefs, toAbsolute_findAccepting, toAbsolute_runFinish, ih]
    · simp only [dif_neg h]
      exact toAbsolute_runFinish nfa cs sp cur pos la

theorem toAbsolute_find (nfa : Nfa) (cs : List Char) :
    find (toAbsoluteNfa nfa) cs = find nfa cs := by
  unfold find
  have hm : ∀ s, matchFrom (toAbsoluteNfa nfa) cs s = matchFrom nfa cs s := by
    intro s
    unfold matchFrom runSim
    simp only [show (toAbsoluteNfa nfa).start = nfa.start from rfl,
      toAbsolute_epsilonClosure, toAbsolute_findAccepting, toAbsolute_runLoop]
  have hgo : ∀ remaining s, findGo (toAbsoluteNfa nfa) cs s remaining = findGo nfa cs s remaining := by
    intro remaining
    induction remaining with
    | zero => intro s; rfl
    | succ remaining ih =>
      intro s
      simp only [findGo, hm, ih]
  exact hgo _ _

/-- C9 amended: a question mark after a braced quantifier is always
consumed by the quantifier routine, whatever comes next in the pattern:
after \x7b2\x7d? it is consumed and DISCARDED (the quantifier stays
exactly-2, since exactly-n has no lazy variant), while after \x7b2,\x7d?
and \x7b2,3\x7d? it converts the quantifier to the lazy variant. -/
theorem c9_amended_question_always_consumed (r : List Char) :
    parseQuantifier 10 (mkParser ("\x7b2\x7d?".data ++ r))
      = .ok (some (.exactly 2), mkParser r) ∧
    parseQuantifier 10 (mkParser ("\x7b2,\x7d?".data ++ r))
      = .ok (some (.atLeastLazy 2), mkParser r) ∧
    parseQuantifier 10 (mkParser ("\x7b2,3\x7d?".data ++ r))
      = .ok (some (.betweenLazy 2 3), mkParser r) := by
  refine ⟨rfl, rfl, rfl⟩

/-- C6 amended: resolution of a relative backreference is against the full
numbered-group list of the pattern, not the groups to the left of the
backreference: replacing every relative backreference \g\x7b-k\x7d by the
absolute backreference it resolves to (group number N + 1 - k, where N is
the count of all numbered groups in the pattern) leaves find unchanged on
every input, captures included. -/
theorem c6_amended_equivalence (nfa : Nfa) :
    (∀ cs : List Char, find (toAbsoluteNfa nfa) cs = find nfa cs) ∧
    (∀ k : Nat, 1 ≤ k → k ≤ nfa.numberedGroups.length →
      nfa.numberedGroups = List.range' 1 nfa.numberedGroups.length →
      resolveRelative nfa (-(k : Int)) = some (nfa.numberedGroups.length + 1 - k)) := by
  constructor
  · exact fun cs => toAbsolute_find nfa cs
  · intro k hk1 hklen hrange
    unfold resolveRelative
    rw [if_neg (by omega)]
    simp only [neg_neg, Int.toNat_natCast]
    rw [if_neg (by omega)]
    rw [show nfa.numberedGroups.getD (nfa.numberedGroups.length - k) 0
        = nfa.numberedGroups.length + 1 - k from ?_]
    conv_lhs => rw [hrange]
    rw [List.getD_eq_getElem _ _ (by simp [List.length_range']; omega)]
    rw [List.getElem_range']
    simp only [List.length_range']
    omega

/-- C6 counterexample: with one numbered group to the left, the claim says
\g\x7b-1\x7d is equivalent to \1; but in (a)\g\x7b-1\x7d(b) the engine
resolves -1 against the full numbered-group list [1, 2] to group 2 (which
has no capture yet), so the pattern rejects "aab" while the claimed
equivalent (a)\1(b) matches it at [0,3). -/
theorem c6_counterexample :
    find (nfaOf "(a)\\g\x7b-1\x7d(b)") ("aab".data) = none ∧
    ((find (nfaOf "(a)\\1(b)") ("aab".data)).map fun m => (m.start, m.end))
      = some (0, 3) := by
  exact ⟨by decide!, by decide!⟩

/-- C10 counterexample: after register("a"), a failing register("a"), and
register(unnamed), the reachable registry state carries group indices
[1, 3]: the failed call advanced next_index, so indices are not dense
1..=N. -/
theorem c10_counterexample :
    Reachable c10Failing ∧
    c10Failing.groups.map (·.index) = [1, 3] ∧
    c10Failing.groups.map (·.index) ≠ List.range' 1 c10Failing.groups.length := by
  refine ⟨?_, by decide, by decide⟩
  exact Reachable.step _ _ (Reachable.step _ _ (Reachable.step _ _ Reachable.base))

theorem resolveRelBack_neg (r : GroupRegistry) (k : Nat) (hk : 1 ≤ k) :
    resolveRelativeBackreference r (-(k : Int)) =
      if r.numberedGroups.length < k then
        .error (.invalidRelativeBackreference (k : Int))
      else .ok (r.numberedGroups.getD (r.numberedGroups.length - k) 0) := by
  unfold resolveRelativeBackreference getNumberedByReverseIndex
  rw [if_neg (by omega)]
  simp only [neg_neg, Int.toNat_natCast]
  by_cases hlt : r.numberedGroups.length < k
  · rw [if_pos (Or.inr hlt), if_pos hlt]
  · rw [if_neg (by omega), if_neg hlt]

theorem resolveRelBack_nonneg (r : GroupRegistry) (z : Int) (hz : 0 ≤ z) :
    resolveRelativeBackreference r z = .error (.invalidRelativeBackreference z) := by
  unfold resolveRelativeBackreference
  rw [if_pos hz]

theorem regInv_of_reachableOk (r : GroupRegistry) (h : ReachableOk r) :
    r.groups.map (·.index) = List.range' 1 r.groups.length ∧
    r.nextIndex = r.groups.length + 1 ∧
    (r.nameToIndex.map Prod.fst).Nodup ∧
    r.nameToIndex.reverse = r.groups.filterMap (fun g => g.name.map fun n => (n, g.index)) ∧
    r.numberedGroups = (r.groups.filter (fun g => !g.isNamed)).map (·.index) := by
  induction h with
  | base => exact ⟨rfl, rfl, List.nodup_nil, rfl, rfl⟩
  | step r name i hr hok ih =>
    obtain ⟨ih1, ih2, ih3, ih4, ih5⟩ := ih
    cases name with
    | none =>
      simp only [registerGroup] at hok ⊢
      refine ⟨?_, ?_, ?_, ?_, ?_⟩
      · simp only [List.map_append, ih1, List.length_append, List.map_cons, List.map_nil,
          List.length_cons, List.length_nil]
        rw [ih2]
        rw [show r.groups.length + (0 + 1) = r.groups.length + 1 from by omega,
          List.range'_1_concat]
        congr 2
        omega
      · simp [ih2]
      · exact ih3
      · simp only [List.filterMap_append, ← ih4]
        simp
      · simp only [List.filter_append, List.map_append, ih5, ih2]
        simp
    | some gn =>
      have hlook : r.nameToIndex.lookup gn = none := by
        cases hl : r.nameToIndex.lookup gn with
        | none => rfl
        | some v =>
          exfalso
          simp only [registerGroup, hl] at hok
          simp at hok
      simp only [registerGroup, hlook] at hok ⊢
      simp only [Option.isSome_none, Bool.false_eq_true, if_false, ite_false]
      refine ⟨?_, ?_, ?_, ?_, ?_⟩
      · simp only [List.map_append, ih1, List.length_append, List.map_cons, List.map_nil,
          List.length_cons, List.length_nil]
        rw [ih2]
        rw [show r.groups.length + (0 + 1) = r.groups.length + 1 from by omega,
          List.range'_1_concat]
        congr 2
        omega
      · simp [ih2]
      · simp only [List.map_cons, List.nodup_cons]
        refine ⟨?_, ih3⟩
        intro hmem
        rw [List.lookup_eq_none_iff] at hlook
        obtain ⟨p, hp, hfst⟩ := List.mem_map.mp hmem
        have := hlook p hp
        simp [hfst] at this
      · simp only [List.filterMap_append, ← ih4]
        simp
      · simp only [List.filter_append, List.map_append, ih5]
        simp

/-- C10 amended: the claimed registry invariants hold for every state
reachable from new() through SUCCESSFUL register_group calls (a failing
call still advances next_index, breaking density, as the counterexample
shows): group indices are dense 1..=N in declaration order, next_index is
N+1, name_to_index is a bijection onto the named groups (no duplicate
names, entries exactly the named groups in order), numbered_groups lists
exactly the unnamed group indices in order, and
resolve_relative_backreference(-k) returns numbered_groups[len-k] when
1 <= k <= len and an invalid-relative-backreference error otherwise
(including every non-negative argument). -/
theorem c10_amended_invariants (r : GroupRegistry) (h : ReachableOk r) :
    r.groups.map (·.index) = List.range' 1 r.groups.length ∧
    r.nextIndex = r.groups.length + 1 ∧
    (r.nameToIndex.map Prod.fst).Nodup ∧
    r.nameToIndex.reverse = r.groups.filterMap (fun g => g.name.map fun n => (n, g.index)) ∧
    r.numberedGroups = (r.groups.filter (fun g => !g.isNamed)).map (·.index) ∧
    (∀ k : Nat, 1 ≤ k →
      resolveRelativeBackreference r (-(k : Int)) =
        if r.numberedGroups.length < k then
          .error (.invalidRelativeBackreference (k : Int))
        else .ok (r.numberedGroups.getD (r.numberedGroups.length - k) 0)) ∧
    (∀ z : Int, 0 ≤ z →
      resolveRelativeBackreference r z = .error (.invalidRelativeBackreference z)) := by
  obtain ⟨h1, h2, h3, h4, h5⟩ := regInv_of_reachableOk r h
  exact ⟨h1, h2, h3, h4, h5, fun k hk => resolveRelBack_neg r k hk,
    fun z hz => resolveRelBack_nonneg r z hz⟩

/-- C10 amended witness: the invariants instantiated at the registry built
by register("a") then register(unnamed): indices [1, 2] are dense and
\g\x7b-1\x7d resolves to group 2. -/
theorem c10_amended_invariants_witness :
    (registerGroup (registerGroup GroupRegistry.new (some "a")).2 none).2.groups.map (·.index)
      = List.range' 1
          (registerGroup (registerGroup GroupRegistry.new (some "a")).2 none).2.groups.length ∧
    resolveRelativeBackreference
        (registerGroup (registerGroup GroupRegistry.new (some "a")).2 none).2 (-(1 : Int))
      = .ok 2 := by
  have h := c10_amended_invariants
    (registerGroup (registerGroup GroupRegistry.new (some "a")).2 none).2
    (ReachableOk.step _ none 2
      (ReachableOk.step _ (some "a") 1 ReachableOk.base (by decide)) (by decide))
  refine ⟨h.1, ?_⟩
  have h6 := h.2.2.2.2.2.1 1 (by decide)
  simp only [Nat.cast_one] at h6
  rw [h6]
  decide

/-- C1 counterexample: the spec-side semantics accepts the substring [0,1)
of "y" for the compiled pattern (x?)\1y (the group captures the empty span,
the backreference consumes zero codepoints, then y matches), yet find
returns none: the engine forces every backreference step to consume at
least one codepoint, so it misses this accepted substring. -/
theorem c1_counterexample :
    find c1Nfa c1Input = none ∧ AcceptsAt c1Nfa c1Input 0 1 := by
  unfold AcceptsAt
  rw [show c1Nfa.start = 0 from by decide, show c1Nfa.accept = 9 from by decide,
      show c1Input.length = 1 from by decide]
  refine ⟨by decide, (by decide : (0:Nat) ≤ 1), [(1,(0,0)), (1,(0,0))], ?_⟩
  have e1 : SpecExec c1Nfa c1Input 0 0 [] 3 0 [(1,(0,0))] :=
    .tail .refl (.groupStart (by decide))
  have e2 : SpecExec c1Nfa c1Input 0 0 [] 4 0 [(1,(0,0))] :=
    .tail e1 (.epsilon (by decide))
  have e3 : SpecExec c1Nfa c1Input 0 0 [] 5 0 [(1,(0,0)), (1,(0,0))] :=
    .tail e2 (@SpecStep.groupEndSome c1Nfa c1Input 4 5 0 [(1,(0,0))] 1 0 0
      (by decide) (by decide))
  have e4 : SpecExec c1Nfa c1Input 0 0 [] 6 0 [(1,(0,0)), (1,(0,0))] :=
    .tail e3 (.epsilon (by decide))
  have e5 : SpecExec c1Nfa c1Input 0 0 [] 7 0 [(1,(0,0)), (1,(0,0))] :=
    .tail e4 (@SpecStep.backrefStep c1Nfa c1Input 6 7 0 [(1,(0,0)), (1,(0,0))] 1 0 0
      (by decide) (by decide) (by decide) (by decide))
  have e6 : SpecExec c1Nfa c1Input 0 0 [] 8 0 [(1,(0,0)), (1,(0,0))] :=
    .tail e5 (.epsilon (by decide))
  exact .tail e6 (@SpecStep.charStep c1Nfa c1Input 8 9 0 [(1,(0,0)), (1,(0,0))]
    (.char 'y') (by decide) (by decide) (by decide))


theorem nextToken_cons_plain (c : Char) (rest : List Char) (h : plainChar c = true) :
    nextToken (c :: rest) = (.literal c, rest) := by
  unfold nextToken
  split <;> simp_all [plainChar] <;> rfl

theorem notQuantTok_readEscape (c : Char) (rest : List Char) :
    notQuantTok (readEscape c rest).1 = true := by
  unfold readEscape
  split <;> first | rfl | (split <;> rfl)

theorem notQuantTok_readGBackref (rest : List Char) :
    notQuantTok (readGBackref rest).1 = true := by
  simp only [readGBackref]
  split <;> (try rfl) <;> (split <;> (try rfl) <;> split <;> rfl)

theorem notQuantTok_lexLParen (rest : List Char) :
    notQuantTok (lexLParen rest).1 = true := by
  unfold lexLParen
  split <;> (try rfl) <;> first | (split <;> rfl) | (split <;> (try rfl) <;> split <;> rfl)

theorem nextToken_notQuant (cs : List Char) (h : headNotQuant cs = true) :
    notQuantTok (nextToken cs).1 = true := by
  unfold nextToken
  split <;>
    first
      | rfl
      | exact notQuantTok_lexLParen _
      | (split <;>
          first
            | rfl
            | exact notQuantTok_readEscape _ _
            | (split <;> first | rfl | exact notQuantTok_readGBackref _))
      | simp_all [headNotQuant]

theorem isSequenceEnd_of_seqEndHead (cs : List Char) (h : seqEndHead cs = true) :
    isSequenceEnd (nextToken cs).1 = true := by
  match cs with
  | [] => rfl
  | c :: t =>
    simp only [seqEndHead, List.mem_cons, List.mem_singleton, decide_eq_true_eq] at h
    simp only [List.elem_eq_mem, List.mem_cons, List.not_mem_nil, or_false,
      decide_eq_true_eq] at h
    rcases h with rfl | rfl <;> rfl

theorem headNotQuant_of_seqEndHead (cs : List Char) (h : seqEndHead cs = true) :
    headNotQuant cs = true := by
  match cs with
  | [] => rfl
  | c :: t =>
    simp only [seqEndHead, List.elem_eq_mem, List.mem_cons, List.not_mem_nil, or_false,
      decide_eq_true_eq] at h
    rcases h with rfl | rfl <;> rfl

theorem lexLParen_plain (cs : List Char) (h1 : headNotQm cs = true)
    (h2 : noColonAfterIdent cs = true) : lexLParen cs = (.leftParen, cs) := by
  simp only [lexLParen]
  split
  · simp [headNotQm] at h1
  · rename_i c t hne
    by_cases ha : (c.isAlpha || c = '_') = true
    · rw [if_pos ha]
      split
      · rename_i t2 heq2
        exfalso
        simp only [noColonAfterIdent, heq2] at h2
        exact absurd h2 (by simp)
      · rfl
    · rw [if_neg ha]
  · rfl

theorem plainChar_of_digit (c : Char) (h : isAsciiDigit c = true) : plainChar c = true := by
  simp only [plainChar, Bool.not_eq_true', List.elem_eq_mem, decide_eq_false_iff_not]
  intro hmem
  fin_cases hmem <;> simp [isAsciiDigit] at h

theorem natToCharsGo_spec (fuel : Nat) :
    ∀ n, n < fuel →
      natToCharsGo fuel n ≠ [] ∧
      (∀ d ∈ natToCharsGo fuel n, isAsciiDigit d = true ∧ plainChar d = true) ∧
      digitsToNat (natToCharsGo fuel n) = n := by
  induction fuel with
  | zero => intro n hn; omega
  | succ fuel ih =>
    intro n hn
    by_cases h10 : n < 10
    · unfold natToCharsGo
      rw [if_pos h10]
      refine ⟨by simp, ?_, ?_⟩
      · intro d hd
        simp only [List.mem_singleton] at hd
        subst hd
        interval_cases n <;> exact ⟨by decide, by decide⟩
      · simp only [digitsToNat, List.foldl_cons, List.foldl_nil]
        interval_cases n <;> decide
    · unfold natToCharsGo
      rw [if_neg h10]
      have hdiv : n / 10 < fuel := by omega
      obtain ⟨ih1, ih2, ih3⟩ := ih (n / 10) hdiv
      refine ⟨by simp, ?_, ?_⟩
      · intro d hd
        rcases List.mem_append.mp hd with hd | hd
        · exact ih2 d hd
        · simp only [List.mem_singleton] at hd
          subst hd
          have hm : n % 10 < 10 := Nat.mod_lt _ (by omega)
          set m := n % 10 with hmdef
          clear_value m
          interval_cases m <;> exact ⟨by decide, by decide⟩
      · simp only [digitsToNat] at ih3 ⊢
        rw [List.foldl_append]
        rw [ih3]
        simp only [List.foldl_cons, List.foldl_nil]
        have hm : n % 10 < 10 := Nat.mod_lt _ (by omega)
        have hval : (Char.ofNat ('0'.toNat + n % 10)).toNat - '0'.toNat = n % 10 := by
          set m := n % 10 with hmdef
          clear_value m
          interval_cases m <;> decide
        rw [hval]
        omega

theorem natToChars_spec (n : Nat) :
    natToChars n ≠ [] ∧
    (∀ d ∈ natToChars n, isAsciiDigit d = true ∧ plainChar d = true) ∧
    digitsToNat (natToChars n) = n :=
  natToCharsGo_spec (n + 1) n (by omega)

theorem mkParser_current (cs : List Char) : (mkParser cs).current = (nextToken cs).1 := rfl

theorem mkParser_cons_plain (c : Char) (rest : List Char) (h : plainChar c = true) :
    mkParser (c :: rest) = ⟨.literal c, rest⟩ := by
  unfold mkParser
  rw [nextToken_cons_plain c rest h]

theorem parseNumberRest_rt (ds : List Char) : ∀ (acc : Nat) (rest : List Char) (fuel : Nat),
    (∀ d ∈ ds, isAsciiDigit d = true) → ds.length < fuel →
    digitStopTok (nextToken rest).1 = true →
    parseNumberRest fuel acc (mkParser (ds ++ rest)) =
      .ok (ds.foldl (fun n d => n * 10 + (d.toNat - '0'.toNat)) acc, mkParser rest) := by
  induction ds with
  | nil =>
    intro acc rest fuel _ hf hstop
    obtain ⟨f, rfl⟩ : ∃ f, fuel = f + 1 := ⟨fuel - 1, by omega⟩
    show parseNumberRest (f + 1) acc (mkParser rest) = .ok (acc, mkParser rest)
    unfold parseNumberRest
    rw [← mkParser_current] at hstop
    cases htok : (mkParser rest).current <;>
      simp_all [digitStopTok]
  | cons d ds ih =>
    intro acc rest fuel hd hf hstop
    obtain ⟨f, rfl⟩ : ∃ f, fuel = f + 1 := ⟨fuel - 1, by omega⟩
    have hdd : isAsciiDigit d = true := hd d (by simp)
    rw [List.cons_append, mkParser_cons_plain d _ (plainChar_of_digit d hdd)]
    unfold parseNumberRest
    simp only [hdd, if_true]
    show parseNumberRest f (acc * 10 + (d.toNat - '0'.toNat)) (mkParser (ds ++ rest)) = _
    rw [ih _ rest f (fun x hx => hd x (by simp [hx])) (by simpa using hf) hstop]
    rfl

theorem parseNumber_rt (n : Nat) (rest : List Char) (fuel : Nat)
    (hf : (natToChars n).length + 1 ≤ fuel)
    (hstop : digitStopTok (nextToken rest).1 = true) :
    parseNumber fuel (mkParser (natToChars n ++ rest)) = .ok (n, mkParser rest) := by
  obtain ⟨hne, hdig, hval⟩ := natToChars_spec n
  obtain ⟨f, rfl⟩ : ∃ f, fuel = f + 1 := ⟨fuel - 1, by omega⟩
  match hds : natToChars n with
  | [] => exact absurd hds hne
  | d :: ds =>
    rw [hds] at hdig hval hf
    have hdd : isAsciiDigit d = true := (hdig d (by simp)).1
    rw [List.cons_append, mkParser_cons_plain d _ (hdig d (by simp)).2]
    unfold parseNumber
    simp only [hdd, if_true]
    have := parseNumberRest_rt ds (d.toNat - '0'.toNat) rest f
      (fun x hx => (hdig x (by simp [hx])).1) (by simpa using hf) hstop
    show parseNumberRest f (d.toNat - '0'.toNat) (mkParser (ds ++ rest)) = _
    rw [this]
    simp only [digitsToNat, List.foldl_cons] at hval
    rw [show (0 * 10 + (d.toNat - '0'.toNat)) = d.toNat - '0'.toNat from by omega] at hval
    rw [hval]

theorem advance_mk (t : Token) (cs : List Char) :
    ParserSt.advance ⟨t, cs⟩ = mkParser cs := rfl

theorem nextToken_star (rest : List Char) (h : headNotQm rest = true) :
    nextToken ('*' :: rest) = (.star, rest) := by
  match rest with
  | [] => rfl
  | c :: t =>
    have : c ≠ '?' := by simpa [headNotQm] using h
    unfold nextToken
    split <;> simp_all
    all_goals
      rename_i heq
      exact absurd heq.1.symm (by assumption)

theorem nextToken_plus (rest : List Char) (h : headNotQm rest = true) :
    nextToken ('+' :: rest) = (.plus, rest) := by
  match rest with
  | [] => rfl
  | c :: t =>
    have : c ≠ '?' := by simpa [headNotQm] using h
    unfold nextToken
    split <;> simp_all
    all_goals
      rename_i heq
      exact absurd heq.1.symm (by assumption)

theorem headNotQm_of_headNotQuant (cs : List Char) (h : headNotQuant cs = true) :
    headNotQm cs = true := by
  match cs with
  | [] => rfl
  | c :: t =>
    simp only [headNotQuant, List.elem_eq_mem, Bool.not_eq_true'] at h
    simp only [headNotQm, decide_eq_true_eq]
    intro hc
    subst hc
    simp at h

theorem current_ne_question (cs : List Char) (h : headNotQuant cs = true) :
    ((mkParser cs).current = .question) = False := by
  have := nextToken_notQuant cs h
  rw [← mkParser_current] at this
  simp only [eq_iff_iff, iff_false]
  intro heq
  rw [heq] at this
  simp [notQuantTok] at this

theorem ok_bind {e a b : Type} (x : a) (f : a → Except e b) :
    (Except.ok x >>= f : Except e b) = f x := rfl

theorem pure_bindE {e a b : Type} (x : a) (f : a → Except e b) :
    ((pure x : Except e a) >>= f) = f x := rfl

theorem parseQuantifier_rt (q : Quantifier) (rest : List Char) (fuel : Nat)
    (hf : (q.printChars).length + 4 ≤ fuel) (hq : headNotQuant rest = true) :
    parseQuantifier fuel (mkParser (q.printChars ++ rest)) = .ok (some q, mkParser rest) := by
  obtain ⟨f, rfl⟩ : ∃ f, fuel = f + 1 := ⟨fuel - 1, by omega⟩
  have hqm := headNotQm_of_headNotQuant rest hq
  have hnq := current_ne_question rest hq
  cases q with
  | zeroOrMore =>
    show parseQuantifier (f + 1) (mkParser ('*' :: rest)) = _
    rw [show mkParser ('*' :: rest) = ⟨.star, rest⟩ from by
      unfold mkParser; rw [nextToken_star rest hqm]]
    unfold parseQuantifier
    rfl
  | zeroOrMoreLazy =>
    show parseQuantifier (f + 1) (mkParser ('*' :: '?' :: rest)) = _
    unfold parseQuantifier
    rfl
  | oneOrMore =>
    show parseQuantifier (f + 1) (mkParser ('+' :: rest)) = _
    rw [show mkParser ('+' :: rest) = ⟨.plus, rest⟩ from by
      unfold mkParser; rw [nextToken_plus rest hqm]]
    unfold parseQuantifier
    rfl
  | oneOrMoreLazy =>
    show parseQuantifier (f + 1) (mkParser ('+' :: '?' :: rest)) = _
    unfold parseQuantifier
    rfl
  | optional =>
    show parseQuantifier (f + 1) (mkParser ('?' :: rest)) = _
    unfold parseQuantifier
    rfl
  | exactly n =>
    show parseQuantifier (f + 1)
      (mkParser ('\x7b' :: (natToChars n ++ ['\x7d']) ++ rest)) = _
    rw [show '\x7b' :: (natToChars n ++ ['\x7d']) ++ rest
        = '\x7b' :: (natToChars n ++ '\x7d' :: rest) from by simp]
    rw [show mkParser ('\x7b' :: (natToChars n ++ '\x7d' :: rest))
        = ⟨.leftBrace, natToChars n ++ '\x7d' :: rest⟩ from rfl]
    unfold parseQuantifier
    simp only [advance_mk]
    rw [parseNumber_rt n ('\x7d' :: rest) f
      (by simp [Quantifier.printChars] at hf; omega) (by rfl)]
    rw [show mkParser ('\x7d' :: rest) = ⟨.rightBrace, rest⟩ from rfl]
    simp [ok_bind, pure_bindE, expectTok, advance_mk, hnq]
  | atLeast n =>
    show parseQuantifier (f + 1)
      (mkParser ('\x7b' :: (natToChars n ++ [',', '\x7d']) ++ rest)) = _
    rw [show '\x7b' :: (natToChars n ++ [',', '\x7d']) ++ rest
        = '\x7b' :: (natToChars n ++ ',' :: '\x7d' :: rest) from by simp]
    rw [show mkParser ('\x7b' :: (natToChars n ++ ',' :: '\x7d' :: rest))
        = ⟨.leftBrace, natToChars n ++ ',' :: '\x7d' :: rest⟩ from rfl]
    unfold parseQuantifier
    simp only [advance_mk]
    rw [parseNumber_rt n (',' :: '\x7d' :: rest) f
      (by simp [Quantifier.printChars] at hf; omega) (by rfl)]
    rw [show mkParser (',' :: '\x7d' :: rest) = ⟨.comma, '\x7d' :: rest⟩ from rfl]
    simp [ok_bind, pure_bindE, expectTok, advance_mk, hnq,
      show ParserSt.advance ⟨.comma, '\x7d' :: rest⟩ = ⟨.rightBrace, rest⟩ from rfl]
  | atLeastLazy n =>
    show parseQuantifier (f + 1)
      (mkParser ('\x7b' :: (natToChars n ++ [',', '\x7d', '?']) ++ rest)) = _
    rw [show '\x7b' :: (natToChars n ++ [',', '\x7d', '?']) ++ rest
        = '\x7b' :: (natToChars n ++ ',' :: '\x7d' :: '?' :: rest) from by simp]
    rw [show mkParser ('\x7b' :: (natToChars n ++ ',' :: '\x7d' :: '?' :: rest))
        = ⟨.leftBrace, natToChars n ++ ',' :: '\x7d' :: '?' :: rest⟩ from rfl]
    unfold parseQuantifier
    simp only [advance_mk]
    rw [parseNumber_rt n (',' :: '\x7d' :: '?' :: rest) f
      (by simp [Quantifier.printChars] at hf; omega) (by rfl)]
    rw [show mkParser (',' :: '\x7d' :: '?' :: rest) = ⟨.comma, '\x7d' :: '?' :: rest⟩ from rfl]
    simp [ok_bind, pure_bindE, expectTok, advance_mk,
      show ParserSt.advance ⟨.comma, '\x7d' :: '?' :: rest⟩ = ⟨.rightBrace, '?' :: rest⟩ from rfl,
      show ParserSt.advance ⟨.rightBrace, '?' :: rest⟩ = ⟨.question, rest⟩ from rfl]
  | between n m =>
    show parseQuantifier (f + 1)
      (mkParser ('\x7b' :: (natToChars n ++ ',' :: natToChars m ++ ['\x7d']) ++ rest)) = _
    rw [show '\x7b' :: (natToChars n ++ ',' :: natToChars m ++ ['\x7d']) ++ rest
        = '\x7b' :: (natToChars n ++ ',' :: (natToChars m ++ '\x7d' :: rest)) from by simp]
    rw [show mkParser ('\x7b' :: (natToChars n ++ ',' :: (natToChars m ++ '\x7d' :: rest)))
        = ⟨.leftBrace, natToChars n ++ ',' :: (natToChars m ++ '\x7d' :: rest)⟩ from rfl]
    unfold parseQuantifier
    simp only [advance_mk]
    rw [parseNumber_rt n (',' :: (natToChars m ++ '\x7d' :: rest)) f
      (by simp [Quantifier.printChars] at hf; omega) (by rfl)]
    rw [show mkParser (',' :: (natToChars m ++ '\x7d' :: rest))
        = ⟨.comma, natToChars m ++ '\x7d' :: rest⟩ from rfl]
    obtain ⟨hne, hdig, -⟩ := natToChars_spec m
    obtain ⟨d, ds, hds⟩ : ∃ d ds, natToChars m = d :: ds := by
      match hx : natToChars m with
      | [] => exact absurd hx hne
      | d :: ds => exact ⟨d, ds, rfl⟩
    have hcur : (mkParser (natToChars m ++ '\x7d' :: rest)).current = .literal d := by
      rw [hds, List.cons_append, mkParser_cons_plain d _ (hdig d (by rw [hds]; simp)).2]
    simp only [ok_bind, pure_bindE]
    rw [show ParserSt.advance ⟨.comma, natToChars m ++ '\x7d' :: rest⟩
        = mkParser (natToChars m ++ '\x7d' :: rest) from rfl]
    rw [parseNumber_rt m ('\x7d' :: rest) f
      (by simp [Quantifier.printChars] at hf; omega) (by rfl)]
    rw [show mkParser ('\x7d' :: rest) = ⟨.rightBrace, rest⟩ from rfl]
    simp [ok_bind, pure_bindE, expectTok, advance_mk, hnq, hcur]
  | betweenLazy n m =>
    show parseQuantifier (f + 1)
      (mkParser ('\x7b' :: (natToChars n ++ ',' :: natToChars m ++ ['\x7d', '?']) ++ rest)) = _
    rw [show '\x7b' :: (natToChars n ++ ',' :: natToChars m ++ ['\x7d', '?']) ++ rest
        = '\x7b' :: (natToChars n ++ ',' :: (natToChars m ++ '\x7d' :: '?' :: rest)) from by
          simp]
    rw [show mkParser
          ('\x7b' :: (natToChars n ++ ',' :: (natToChars m ++ '\x7d' :: '?' :: rest)))
        = ⟨.leftBrace, natToChars n ++ ',' :: (natToChars m ++ '\x7d' :: '?' :: rest)⟩ from rfl]
    unfold parseQuantifier
    simp only [advance_mk]
    rw [parseNumber_rt n (',' :: (natToChars m ++ '\x7d' :: '?' :: rest)) f
      (by simp [Quantifier.printChars] at hf; omega) (by rfl)]
    rw [show mkParser (',' :: (natToChars m ++ '\x7d' :: '?' :: rest))
        = ⟨.comma, natToChars m ++ '\x7d' :: '?' :: rest⟩ from rfl]
    obtain ⟨hne, hdig, -⟩ := natToChars_spec m
    obtain ⟨d, ds, hds⟩ : ∃ d ds, natToChars m = d :: ds := by
      match hx : natToChars m with
      | [] => exact absurd hx hne
      | d :: ds => exact ⟨d, ds, rfl⟩
    have hcur : (mkParser (natToChars m ++ '\x7d' :: '?' :: rest)).current = .literal d := by
      rw [hds, List.cons_append, mkParser_cons_plain d _ (hdig d (by rw [hds]; simp)).2]
    simp only [ok_bind, pure_bindE]
    rw [show ParserSt.advance ⟨.comma, natToChars m ++ '\x7d' :: '?' :: rest⟩
        = mkParser (natToChars m ++ '\x7d' :: '?' :: rest) from rfl]
    rw [parseNumber_rt m ('\x7d' :: '?' :: rest) f
      (by simp [Quantifier.printChars] at hf; omega) (by rfl)]
    rw [show mkParser ('\x7d' :: '?' :: rest) = ⟨.rightBrace, '?' :: rest⟩ from rfl]
    simp [ok_bind, pure_bindE, expectTok, advance_mk, hcur,
      show ParserSt.advance ⟨.rightBrace, '?' :: rest⟩ = ⟨.question, rest⟩ from rfl]

theorem readEscape_escape (c : Char) (rest : List Char)
    (h : (c ∈ ['w', 'W', 'd', 'D', 's', 'S', 'b', 'B']) = False)
    (hd : isAsciiDigit c = false) : readEscape c rest = (.escape c, rest) := by
  unfold readEscape
  split <;> simp_all

theorem nextToken_backslash (c : Char) (rest : List Char) (hg : c ≠ 'g') :
    nextToken ('\\' :: c :: rest) = readEscape c rest := by
  have hred : nextToken ('\\' :: c :: rest) = (match c :: rest with
      | 'g' :: rest2 =>
        (match rest2 with
          | '\x7b' :: rest3 => readGBackref rest3
          | _ => (Token.escape 'g', rest2))
      | c :: rest2 => readEscape c rest2
      | [] => (Token.escape '\x00', [])) := rfl
  rw [hred]
  split
  · rename_i rest2 heq
    exact absurd (List.cons.inj heq).1 hg
  · rename_i c2 rest2 heq
    obtain ⟨rfl, rfl⟩ := List.cons.inj heq
    rfl
  · rename_i heq
    simp at heq

theorem readEscape_ne_ncg (c : Char) (rest : List Char) :
    ((readEscape c rest).1 = .nonCapturing) = False := by
  unfold readEscape
  split <;> (try simp) <;> split <;> simp

theorem readGBackref_ne_ncg (rest : List Char) :
    ((readGBackref rest).1 = .nonCapturing) = False := by
  simp only [readGBackref]
  split <;> (try simp) <;> split <;> (try simp) <;> split <;> simp

theorem lexLParen_ncg (r : List Char) (h : (lexLParen r).1 = .nonCapturing) :
    ∃ t, r = '?' :: ':' :: t := by
  simp only [lexLParen] at h
  split at h
  · rename_i more
    split at h
    · rename_i t
      exact ⟨t, rfl⟩
    · simp at h
  · split at h
    · split at h <;> simp at h
    · simp at h
  · simp at h

theorem nextToken_ncg (cs : List Char) (h : (nextToken cs).1 = .nonCapturing) :
    ∃ t, cs = '(' :: '?' :: ':' :: t := by
  unfold nextToken at h
  split at h
  · simp at h
  · split at h
    · split at h
      · rw [readGBackref_ne_ncg] at h
        exact h.elim
      · simp at h
    · rw [readEscape_ne_ncg] at h
      exact h.elim
    · simp at h
  · rename_i r
    obtain ⟨t, rfl⟩ := lexLParen_ncg r h
    exact ⟨t, rfl⟩
  all_goals simp at h

theorem readEscape_ne_ngs (c : Char) (rest : List Char) (s : String) :
    ((readEscape c rest).1 = .namedGroupStart s) = False := by
  unfold readEscape
  split <;> (try simp) <;> split <;> simp

theorem readGBackref_ne_ngs (rest : List Char) (s : String) :
    ((readGBackref rest).1 = .namedGroupStart s) = False := by
  simp only [readGBackref]
  split <;> (try simp) <;> split <;> (try simp) <;> split <;> simp

theorem lexLParen_ngs (r : List Char) (s : String)
    (h : (lexLParen r).1 = .namedGroupStart s) :
    ∃ t2, r.dropWhile isIdentifierChar = ':' :: t2 := by
  simp only [lexLParen] at h
  split at h
  · split at h <;> simp at h
  · rename_i c t hne
    split at h
    · split at h
      · rename_i t2 heq
        exact ⟨t2, heq⟩
      · simp at h
    · simp at h
  · simp at h

theorem nextToken_ngs (cs : List Char) (s : String)
    (h : (nextToken cs).1 = .namedGroupStart s) :
    ∃ r, cs = '(' :: r ∧ ∃ t2, r.dropWhile isIdentifierChar = ':' :: t2 := by
  unfold nextToken at h
  split at h
  · simp at h
  · split at h
    · split at h
      · rw [readGBackref_ne_ngs] at h
        exact h.elim
      · simp at h
    · rw [readEscape_ne_ngs] at h
      exact h.elim
    · simp at h
  · rename_i r
    exact ⟨r, rfl, lexLParen_ngs r s h⟩
  all_goals simp at h

theorem noColon_append_indep (a : List Char) (c0 : Char) (z : List Char)
    (h0 : isIdentifierChar c0 = false) :
    noColonAfterIdent (a ++ c0 :: z) = noColonAfterIdent (a ++ [c0]) := by
  unfold noColonAfterIdent
  rw [List.dropWhile_append, List.dropWhile_append]
  by_cases he : (a.dropWhile isIdentifierChar).isEmpty
  · rw [if_pos he, if_pos he]
    rw [List.dropWhile_cons_of_neg (by simp [h0]), List.dropWhile_cons_of_neg (by simp [h0])]
    by_cases hc : c0 = ':' <;> simp_all
  · rw [if_neg he, if_neg he]
    match hd : a.dropWhile isIdentifierChar with
    | [] => simp [hd] at he
    | x :: xs => by_cases hx : x = ':' <;> simp_all

theorem headNotQm_append (a : List Char) (c0 : Char) (z : List Char)
    (ha : headNotQm a = true) (h0 : c0 ≠ '?') :
    headNotQm (a ++ c0 :: z) = true := by
  cases a with
  | nil => simpa [headNotQm] using h0
  | cons x xs => simpa [headNotQm] using ha

theorem parseQuantifier_none (ps : ParserSt) (fuel : Nat) (h0 : 1 ≤ fuel)
    (h : notQuantTok ps.current = true) :
    parseQuantifier fuel ps = .ok (none, ps) := by
  obtain ⟨f, rfl⟩ : ∃ f, fuel = f + 1 := ⟨fuel - 1, by omega⟩
  unfold parseQuantifier
  cases htok : ps.current <;> simp_all [notQuantTok]

theorem itemFront_print_ne_nil (e : Expr) (hf : ItemFront e) : e.toRegexString ≠ [] := by
  intro hnil
  have := (hf [')']).2
  rw [hnil] at this
  simp [isSequenceEnd, nextToken] at this

theorem seqEndHead_of_altEndHead (cs : List Char) (h : altEndHead cs = true) :
    seqEndHead cs = true := by
  match cs with
  | [] => rfl
  | c :: t =>
    simp only [altEndHead, decide_eq_true_eq] at h
    subst h
    rfl

theorem current_ne_pipe_of_altEnd (cs : List Char) (h : altEndHead cs = true) :
    ((mkParser cs).current = .pipe) = False := by
  match cs with
  | [] => simp [mkParser, nextToken]
  | c :: t =>
    simp only [altEndHead, decide_eq_true_eq] at h
    subst h
    simp [mkParser, nextToken]

theorem itemRT_of_atomRT (e : Expr) (ha : AtomRT e) (hf : ItemFront e) : ItemRT e := by
  intro rest fuel hfuel hrest
  obtain ⟨f, rfl⟩ : ∃ f, fuel = f + 1 := ⟨fuel - 1, by omega⟩
  unfold parseQuantified
  rw [ha rest f (by omega)]
  simp only [ok_bind]
  rw [parseQuantifier_none (mkParser rest) f (by omega)
    (by rw [mkParser_current]; exact nextToken_notQuant rest hrest)]
  simp only [ok_bind]

theorem itemRT_quantified (e : Expr) (q : Quantifier) (ha : AtomRT e)
    (halt : e.isAlternation = false) : ItemRT (.quantified e q) := by
  intro rest fuel hfuel hrest
  obtain ⟨f, rfl⟩ : ∃ f, fuel = f + 1 := ⟨fuel - 1, by omega⟩
  have hprint : (Expr.quantified e q).toRegexString = e.toRegexString ++ q.printChars := by
    rw [show (Expr.quantified e q).toRegexString
        = (if e.isAlternation = true then '(' :: '?' :: ':' :: (e.toRegexString ++ [')'])
           else e.toRegexString) ++ q.printChars from rfl]
    rw [halt]
    simp
  rw [hprint] at hfuel ⊢
  unfold parseQuantified
  rw [List.append_assoc]
  rw [ha (q.printChars ++ rest) f (by simp at hfuel; omega)]
  simp only [ok_bind]
  rw [parseQuantifier_rt q rest f (by simp at hfuel; omega) hrest]
  simp only [ok_bind]

theorem seqItemsRT (es : List Expr) (h : ∀ e ∈ es, ItemRT e ∧ ItemFront e) :
    ∀ (rest : List Char) (fuel : Nat),
      8 * (Expr.printSeq es).length + 10 ≤ fuel → seqEndHead rest = true →
      parseSequenceItems fuel (mkParser (Expr.printSeq es ++ rest)) = .ok (es, mkParser rest) := by
  induction es with
  | nil =>
    intro rest fuel hfuel hrest
    obtain ⟨f, rfl⟩ : ∃ f, fuel = f + 1 := ⟨fuel - 1, by omega⟩
    show parseSequenceItems (f + 1) (mkParser rest) = _
    unfold parseSequenceItems
    rw [if_pos (show isSequenceEnd (mkParser rest).current = true from by
      rw [mkParser_current]; exact isSequenceEnd_of_seqEndHead rest hrest)]
  | cons e es ih =>
    intro rest fuel hfuel hrest
    obtain ⟨f, rfl⟩ : ∃ f, fuel = f + 1 := ⟨fuel - 1, by omega⟩
    obtain ⟨hrt, hfr⟩ := h e (by simp)
    have hplen : 1 ≤ (e.toRegexString).length :=
      List.length_pos.mpr (itemFront_print_ne_nil e hfr)
    have hps : Expr.printSeq (e :: es) = e.toRegexString ++ Expr.printSeq es := rfl
    rw [hps] at hfuel ⊢
    rw [List.append_assoc]
    unfold parseSequenceItems
    rw [if_neg (show ¬ (isSequenceEnd
        (mkParser (e.toRegexString ++ (Expr.printSeq es ++ rest))).current = true) from by
      rw [mkParser_current]
      have hse := (hfr (Expr.printSeq es ++ rest)).2
      simp [hse])]
    have hrest' : headNotQuant (Expr.printSeq es ++ rest) = true := by
      match es, h with
      | [], _ =>
        show headNotQuant ([] ++ rest) = true
        simpa using headNotQuant_of_seqEndHead rest hrest
      | e2 :: es2, h =>
        have hfr2 := (h e2 (by simp)).2
        show headNotQuant ((e2.toRegexString ++ Expr.printSeq es2) ++ rest) = true
        rw [List.append_assoc]
        exact (hfr2 (Expr.printSeq es2 ++ rest)).1
    rw [hrt (Expr.printSeq es ++ rest) f (by simp at hfuel ⊢; omega) hrest']
    simp only [ok_bind]
    rw [ih (fun x hx => h x (by simp [hx])) rest f (by simp at hfuel ⊢; omega) hrest]
    simp only [ok_bind]

theorem seqRT_of_itemRT (e : Expr) (hrt : ItemRT e) (hfr : ItemFront e) : SeqRT e := by
  intro rest fuel hfuel hrest
  obtain ⟨f, rfl⟩ : ∃ f, fuel = f + 1 := ⟨fuel - 1, by omega⟩
  unfold parseSequence
  have : Expr.printSeq [e] = e.toRegexString := by
    show e.toRegexString ++ [] = _
    simp
  rw [show e.toRegexString ++ rest = Expr.printSeq [e] ++ rest from by rw [this]]
  rw [seqItemsRT [e] (by simpa using ⟨hrt, hfr⟩) rest f (by rw [this]; omega) hrest]
  simp only [ok_bind]

theorem seqRT_empty : SeqRT .empty := by
  intro rest fuel hfuel hrest
  obtain ⟨f, rfl⟩ : ∃ f, fuel = f + 1 := ⟨fuel - 1, by omega⟩
  unfold parseSequence
  show (do
    let __discr ← parseSequenceItems f (mkParser ([] ++ rest))
    match __discr with
    | (es, ps) =>
      match es with
      | [] => Except.ok (Expr.empty, ps)
      | [e] => Except.ok (e, ps)
      | _ => Except.ok (Expr.sequence es, ps)) = Except.ok (Expr.empty, mkParser rest)
  rw [show ([] : List Char) ++ rest = Expr.printSeq [] ++ rest from rfl]
  rw [seqItemsRT [] (by simp) rest f
    (by simp [show Expr.printSeq [] = [] from rfl]; omega) hrest]
  simp only [ok_bind]

theorem seqRT_sequence (es : List Expr) (hlen : 2 ≤ es.length)
    (h : ∀ e ∈ es, ItemRT e ∧ ItemFront e) : SeqRT (.sequence es) := by
  intro rest fuel hfuel hrest
  obtain ⟨f, rfl⟩ : ∃ f, fuel = f + 1 := ⟨fuel - 1, by omega⟩
  unfold parseSequence
  have hps : (Expr.sequence es).toRegexString = Expr.printSeq es := rfl
  rw [hps] at hfuel ⊢
  rw [seqItemsRT es h rest f (by omega) hrest]
  simp only [ok_bind]
  match es, hlen with
  | a :: b :: t, _ => rfl

theorem altRestRT (bs : List Expr) (h : ∀ b ∈ bs, SeqRT b) :
    ∀ (rest : List Char) (fuel : Nat),
      8 * (printAltsTail bs).length + 14 ≤ fuel → altEndHead rest = true →
      parseAlternationRest fuel (mkParser (printAltsTail bs ++ rest)) = .ok (bs, mkParser rest) := by
  induction bs with
  | nil =>
    intro rest fuel hfuel hrest
    obtain ⟨f, rfl⟩ : ∃ f, fuel = f + 1 := ⟨fuel - 1, by omega⟩
    show parseAlternationRest (f + 1) (mkParser rest) = _
    unfold parseAlternationRest
    rw [if_neg (by rw [show ((mkParser rest).current = Token.pipe) = False from
      current_ne_pipe_of_altEnd rest hrest]; exact id)]
  | cons b bs ih =>
    intro rest fuel hfuel hrest
    obtain ⟨f, rfl⟩ : ∃ f, fuel = f + 1 := ⟨fuel - 1, by omega⟩
    have hpt : printAltsTail (b :: bs) = '|' :: b.toRegexString ++ printAltsTail bs := rfl
    rw [hpt] at hfuel ⊢
    simp only [List.cons_append, List.append_assoc]
    rw [show mkParser ('|' :: (b.toRegexString ++ (printAltsTail bs ++ rest)))
        = ⟨.pipe, b.toRegexString ++ (printAltsTail bs ++ rest)⟩ from rfl]
    unfold parseAlternationRest
    rw [if_pos rfl]
    rw [advance_mk]
    have hrest' : seqEndHead (printAltsTail bs ++ rest) = true := by
      match bs with
      | [] => simpa using seqEndHead_of_altEndHead rest hrest
      | b2 :: bs2 => rfl
    rw [h b (by simp) (printAltsTail bs ++ rest) f (by simp at hfuel ⊢; omega) hrest']
    simp only [ok_bind]
    rw [ih (fun x hx => h x (by simp [hx])) rest f (by simp at hfuel ⊢; omega) hrest]
    simp only [ok_bind]

theorem exprRT_of_seqRT (e : Expr) (hs : SeqRT e) : ExprRT e := by
  intro rest fuel hfuel hrest
  obtain ⟨f, rfl⟩ : ∃ f, fuel = f + 1 := ⟨fuel - 1, by omega⟩
  unfold parseAlternation
  rw [hs rest f (by omega) (seqEndHead_of_altEndHead rest hrest)]
  simp only [ok_bind]
  rw [show parseAlternationRest f (mkParser rest) = .ok ([], mkParser rest) from
    altRestRT [] (by simp) rest f (by simp [show printAltsTail [] = [] from rfl]; omega) hrest]
  simp only [ok_bind]

theorem exprRT_alternation (b : Expr) (bs : List Expr) (hbs : bs ≠ [])
    (h : ∀ x ∈ b :: bs, SeqRT x) : ExprRT (.alternation (b :: bs)) := by
  intro rest fuel hfuel hrest
  obtain ⟨f, rfl⟩ : ∃ f, fuel = f + 1 := ⟨fuel - 1, by omega⟩
  have hpr : (Expr.alternation (b :: bs)).toRegexString
      = b.toRegexString ++ printAltsTail bs := by
    show Expr.printAlts (b :: bs) = _
    match bs, hbs with
    | b2 :: bs2, _ =>
      show b.toRegexString ++ '|' :: Expr.printAlts (b2 :: bs2) = _
      have : ∀ (c : Expr) (cs : List Expr), '|' :: Expr.printAlts (c :: cs)
          = printAltsTail (c :: cs) := by
        intro c cs
        induction cs generalizing c with
        | nil =>
          show '|' :: c.toRegexString = '|' :: c.toRegexString ++ []
          simp
        | cons d ds ihd =>
          show '|' :: (c.toRegexString ++ '|' :: Expr.printAlts (d :: ds)) = _
          rw [show printAltsTail (c :: d :: ds)
              = '|' :: c.toRegexString ++ printAltsTail (d :: ds) from rfl]
          rw [← ihd d]
          simp
      rw [this]
  rw [hpr] at hfuel ⊢
  unfold parseAlternation
  rw [List.append_assoc]
  have hrest' : seqEndHead (printAltsTail bs ++ rest) = true := by
    match bs, hbs with
    | b2 :: bs2, _ => rfl
  rw [h b (by simp) (printAltsTail bs ++ rest) f (by simp at hfuel ⊢; omega) hrest']
  simp only [ok_bind]
  rw [altRestRT bs (fun x hx => h x (by simp [hx])) rest f (by simp at hfuel ⊢; omega) hrest]
  simp only [ok_bind]

theorem plain_not_quad (c : Char) (h : plainChar c = true) :
    (c ∈ ['*', '+', '?', '\x7b']) = False := by
  simp only [plainChar, Bool.not_eq_true', List.elem_eq_mem, decide_eq_false_iff_not] at h
  simp only [eq_iff_iff, iff_false]
  intro hm
  fin_cases hm <;> simp_all

theorem atomRT_literal (c : Char) (h : plainChar c = true) : AtomRT (.literal c) := by
  intro rest fuel hfuel
  obtain ⟨f, rfl⟩ : ∃ f, fuel = f + 1 := ⟨fuel - 1, by omega⟩
  show parseAtom (f + 1) (mkParser (c :: rest)) = _
  rw [mkParser_cons_plain c rest h]
  unfold parseAtom
  rfl

theorem itemFront_literal (c : Char) (h : plainChar c = true) : ItemFront (.literal c) := by
  intro z
  constructor
  · show headNotQuant (c :: z) = true
    simp [headNotQuant, plain_not_quad c h]
  · show isSequenceEnd (nextToken (c :: z)).1 = false
    rw [nextToken_cons_plain c z h]
    rfl

theorem atomRT_any : AtomRT .any := by
  intro rest fuel hfuel
  obtain ⟨f, rfl⟩ : ∃ f, fuel = f + 1 := ⟨fuel - 1, by omega⟩
  show parseAtom (f + 1) (mkParser ('.' :: rest)) = _
  unfold parseAtom
  rfl

theorem itemFront_any : ItemFront .any := fun z => ⟨rfl, rfl⟩

theorem atomRT_startAnchor : AtomRT .startAnchor := by
  intro rest fuel hfuel
  obtain ⟨f, rfl⟩ : ∃ f, fuel = f + 1 := ⟨fuel - 1, by omega⟩
  show parseAtom (f + 1) (mkParser ('^' :: rest)) = _
  unfold parseAtom
  rfl

theorem itemFront_startAnchor : ItemFront .startAnchor := fun z => ⟨rfl, rfl⟩

theorem atomRT_endAnchor : AtomRT .endAnchor := by
  intro rest fuel hfuel
  obtain ⟨f, rfl⟩ : ∃ f, fuel = f + 1 := ⟨fuel - 1, by omega⟩
  show parseAtom (f + 1) (mkParser ('$' :: rest)) = _
  unfold parseAtom
  rfl

theorem itemFront_endAnchor : ItemFront .endAnchor := fun z => ⟨rfl, rfl⟩

theorem atomRT_wordBoundary : AtomRT .wordBoundary := by
  intro rest fuel hfuel
  obtain ⟨f, rfl⟩ : ∃ f, fuel = f + 1 := ⟨fuel - 1, by omega⟩
  show parseAtom (f + 1) (mkParser ('\\' :: 'b' :: rest)) = _
  unfold parseAtom
  rfl

theorem itemFront_wordBoundary : ItemFront .wordBoundary := fun z => ⟨rfl, rfl⟩

theorem atomRT_nonWordBoundary : AtomRT .nonWordBoundary := by
  intro rest fuel hfuel
  obtain ⟨f, rfl⟩ : ∃ f, fuel = f + 1 := ⟨fuel - 1, by omega⟩
  show parseAtom (f + 1) (mkParser ('\\' :: 'B' :: rest)) = _
  unfold parseAtom
  rfl

theorem itemFront_nonWordBoundary : ItemFront .nonWordBoundary := fun z => ⟨rfl, rfl⟩

theorem atomRT_shorthand (c : Char) (h : c ∈ (['w', 'W', 'd', 'D', 's', 'S'] : List Char)) :
    AtomRT (.shorthand c) := by
  intro rest fuel hfuel
  obtain ⟨f, rfl⟩ : ∃ f, fuel = f + 1 := ⟨fuel - 1, by omega⟩
  fin_cases h <;>
    (show parseAtom (f + 1) (mkParser ('\\' :: _ :: rest)) = _
     unfold parseAtom
     rfl)

theorem itemFront_shorthand (c : Char) (h : c ∈ (['w', 'W', 'd', 'D', 's', 'S'] : List Char)) :
    ItemFront (.shorthand c) := by
  intro z
  fin_cases h <;> exact ⟨rfl, rfl⟩

theorem plainChar_dash : plainChar '-' = true := by decide

theorem classItem_print_head_ne (items : List ClassItem)
    (h : ∀ it ∈ items, classItemOk it = true) (rest : List Char) :
    ((mkParser ((items.map ClassItem.printChars).flatten ++ ']' :: rest)).current
        = Token.literal '-') = False ∧
    ((mkParser ((items.map ClassItem.printChars).flatten ++ ']' :: rest)).current
        = Token.caret) = False ∧
    ((mkParser ((items.map ClassItem.printChars).flatten ++ ']' :: rest)).current
        = Token.rightBracket) = (items = []) ∧
    ((mkParser ((items.map ClassItem.printChars).flatten ++ ']' :: rest)).current
        = Token.eof) = False := by
  match items with
  | [] =>
    rw [show ((List.map ClassItem.printChars []).flatten ++ ']' :: rest) = ']' :: rest from
      by simp]
    rw [show mkParser (']' :: rest) = ⟨.rightBracket, rest⟩ from rfl]
    simp
  | it :: its =>
    have hok := h it (by simp)
    have hne : (it :: its) = ([] : List ClassItem) → False := by simp
    match it, hok with
    | .char c, hok =>
      simp only [classItemOk, Bool.and_eq_true, decide_eq_true_eq] at hok
      rw [show ((List.map ClassItem.printChars (.char c :: its)).flatten ++ ']' :: rest)
          = c :: ((List.map ClassItem.printChars its).flatten ++ ']' :: rest) from by
        simp [ClassItem.printChars]]
      rw [mkParser_cons_plain c _ hok.1]
      simp [hok.2]
    | .range lo hi, hok =>
      simp only [classItemOk, Bool.and_eq_true, decide_eq_true_eq] at hok
      rw [show ((List.map ClassItem.printChars (.range lo hi :: its)).flatten ++ ']' :: rest)
          = lo :: '-' :: hi :: ((List.map ClassItem.printChars its).flatten ++ ']' :: rest)
        from by simp [ClassItem.printChars]]
      rw [mkParser_cons_plain lo _ hok.1.1.1]
      simp [hok.1.2]
    | .shorthand c, hok =>
      simp only [classItemOk, Bool.and_eq_true, Bool.not_eq_true', List.elem_eq_mem,
        decide_eq_false_iff_not] at hok
      have hg : c ≠ 'g' := by
        intro hc
        exact hok.1 (by simp [hc])
      rw [show ((List.map ClassItem.printChars (.shorthand c :: its)).flatten ++ ']' :: rest)
          = '\\' :: c :: ((List.map ClassItem.printChars its).flatten ++ ']' :: rest)
        from by simp [ClassItem.printChars]]
      rw [show mkParser ('\\' :: c :: ((List.map ClassItem.printChars its).flatten ++ ']' :: rest))
          = ⟨(readEscape c ((List.map ClassItem.printChars its).flatten ++ ']' :: rest)).1,
             (readEscape c ((List.map ClassItem.printChars its).flatten ++ ']' :: rest)).2⟩
        from by unfold mkParser; rw [nextToken_backslash _ _ hg]]
      rw [readEscape_escape c _ (by
        simp only [eq_iff_iff, iff_false]
        intro hm
        apply hok.1
        fin_cases hm <;> simp) hok.2]
      simp

theorem classItemsRT (items : List ClassItem) (h : ∀ it ∈ items, classItemOk it = true) :
    ∀ (rest : List Char) (fuel : Nat), items.length + 1 ≤ fuel →
      parseClassItems fuel (mkParser ((items.map ClassItem.printChars).flatten ++ ']' :: rest))
        = .ok (items, mkParser (']' :: rest)) := by
  induction items with
  | nil =>
    intro rest fuel hfuel
    obtain ⟨f, rfl⟩ : ∃ f, fuel = f + 1 := ⟨fuel - 1, by omega⟩
    rw [show ((List.map ClassItem.printChars []).flatten ++ ']' :: rest) = ']' :: rest from
      by simp]
    unfold parseClassItems
    rw [if_neg]
    rw [show mkParser (']' :: rest) = ⟨.rightBracket, rest⟩ from rfl]
    simp
  | cons it its ih =>
    intro rest fuel hfuel
    obtain ⟨f, rfl⟩ : ∃ f, fuel = f + 1 := ⟨fuel - 1, by omega⟩
    obtain ⟨hd1, hd2, hd3, hd4⟩ := classItem_print_head_ne (it :: its) h rest
    unfold parseClassItems
    rw [if_pos (by
      constructor
      · intro hc
        rw [hc] at hd3
        simp at hd3
      · intro hc
        rw [hc] at hd4
        simp at hd4)]
    obtain ⟨hnd, hnc, -, -⟩ := classItem_print_head_ne its (fun x hx => h x (by simp [hx])) rest
    have hok := h it (by simp)
    have hitem : parseClassItem f (mkParser ((List.map ClassItem.printChars (it :: its)).flatten
          ++ ']' :: rest))
        = .ok (it, mkParser ((List.map ClassItem.printChars its).flatten ++ ']' :: rest)) := by
      obtain ⟨g, rfl⟩ : ∃ g, f = g + 1 := ⟨f - 1, by simp at hfuel; omega⟩
      match it, hok with
      | .char c, hok =>
        simp only [classItemOk, Bool.and_eq_true, decide_eq_true_eq] at hok
        rw [show ((List.map ClassItem.printChars (.char c :: its)).flatten ++ ']' :: rest)
            = c :: ((List.map ClassItem.printChars its).flatten ++ ']' :: rest) from by
          simp [ClassItem.printChars]]
        rw [mkParser_cons_plain c _ hok.1]
        unfold parseClassItem
        simp only [advance_mk]
        rw [if_neg (by rw [hnd]; exact id)]
      | .range lo hi, hok =>
        simp only [classItemOk, Bool.and_eq_true, decide_eq_true_eq] at hok
        rw [show ((List.map ClassItem.printChars (.range lo hi :: its)).flatten ++ ']' :: rest)
            = lo :: '-' :: hi :: ((List.map ClassItem.printChars its).flatten ++ ']' :: rest)
          from by simp [ClassItem.printChars]]
        rw [mkParser_cons_plain lo _ hok.1.1.1]
        unfold parseClassItem
        simp only [advance_mk]
        rw [mkParser_cons_plain '-' _ plainChar_dash]
        simp only [advance_mk, if_true]
        rw [mkParser_cons_plain hi _ hok.1.1.2]
        simp only [advance_mk]
      | .shorthand c, hok =>
        simp only [classItemOk, Bool.and_eq_true, Bool.not_eq_true', List.elem_eq_mem,
          decide_eq_false_iff_not] at hok
        have hg : c ≠ 'g' := by
          intro hc
          exact hok.1 (by simp [hc])
        rw [show ((List.map ClassItem.printChars (.shorthand c :: its)).flatten ++ ']' :: rest)
            = '\\' :: c :: ((List.map ClassItem.printChars its).flatten ++ ']' :: rest)
          from by simp [ClassItem.printChars]]
        rw [show mkParser
              ('\\' :: c :: ((List.map ClassItem.printChars its).flatten ++ ']' :: rest))
            = ⟨(readEscape c ((List.map ClassItem.printChars its).flatten ++ ']' :: rest)).1,
               (readEscape c ((List.map ClassItem.printChars its).flatten ++ ']' :: rest)).2⟩
          from by unfold mkParser; rw [nextToken_backslash _ _ hg]]
        rw [readEscape_escape c _ (by
          simp only [eq_iff_iff, iff_false]
          intro hm
          apply hok.1
          fin_cases hm <;> simp) hok.2]
        unfold parseClassItem
        simp only [advance_mk]
    rw [hitem]
    simp only [ok_bind]
    rw [ih (fun x hx => h x (by simp [hx])) rest f (by simp at hfuel ⊢; omega)]
    simp only [ok_bind]

theorem items_len_le_flat (items : List ClassItem) :
    items.length ≤ ((items.map ClassItem.printChars).flatten).length := by
  induction items with
  | nil => simp
  | cons it its ih =>
    simp only [List.map_cons, List.flatten_cons, List.length_append, List.length_cons]
    have : 1 ≤ (ClassItem.printChars it).length := by
      cases it <;> simp [ClassItem.printChars]
    omega

theorem atomRT_characterClass (cc : CharacterClass) (hne : cc.items ≠ [])
    (h : ∀ it ∈ cc.items, classItemOk it = true) : AtomRT (.characterClass cc) := by
  intro rest fuel hfuel
  obtain ⟨f, rfl⟩ : ∃ f, fuel = f + 1 := ⟨fuel - 1, by omega⟩
  have hflatlen := items_len_le_flat cc.items
  have hprlen : (Expr.characterClass cc).toRegexString.length
      = 1 + (if cc.negated then 1 else 0)
        + ((cc.items.map ClassItem.printChars).flatten).length + 1 := by
    show (CharacterClass.printChars cc).length = _
    unfold CharacterClass.printChars
    cases cc.negated <;> simp <;> omega
  obtain ⟨g, rfl⟩ : ∃ g, f = g + 1 := ⟨f - 1, by rw [hprlen] at hfuel; omega⟩
  obtain ⟨hnd, hnc, -, -⟩ := classItem_print_head_ne cc.items h rest
  cases hneg : cc.negated with
  | false =>
    rw [show (Expr.characterClass cc).toRegexString ++ rest
        = '[' :: ((cc.items.map ClassItem.printChars).flatten ++ ']' :: rest) from by
      show CharacterClass.printChars cc ++ rest = _
      unfold CharacterClass.printChars
      rw [hneg]
      simp]
    rw [show mkParser ('[' :: ((cc.items.map ClassItem.printChars).flatten ++ ']' :: rest))
        = ⟨.leftBracket, (cc.items.map ClassItem.printChars).flatten ++ ']' :: rest⟩ from rfl]
    unfold parseAtom
    unfold parseCharClass
    simp only [expectTok, eq_self_iff_true, if_true, advance_mk, ok_bind]
    rw [if_neg (show ¬ ((mkParser ((cc.items.map ClassItem.printChars).flatten
        ++ ']' :: rest)).current = Token.caret) from by rw [hnc]; exact id)]
    simp only []
    rw [classItemsRT cc.items h rest g (by rw [hprlen] at hfuel; simp at hfuel hflatlen ⊢; omega)]
    simp only [ok_bind]
    match hcc : cc.items, hne with
    | it :: its, _ =>
      rw [show mkParser (']' :: rest) = ⟨.rightBracket, rest⟩ from rfl]
      simp only [expectTok, eq_self_iff_true, if_true, advance_mk, ok_bind]
      rw [show ({ negated := false, items := it :: its } : CharacterClass) = cc from by
        rw [← hneg, ← hcc]]
  | true =>
    rw [show (Expr.characterClass cc).toRegexString ++ rest
        = '[' :: '^' :: ((cc.items.map ClassItem.printChars).flatten ++ ']' :: rest) from by
      show CharacterClass.printChars cc ++ rest = _
      unfold CharacterClass.printChars
      rw [hneg]
      simp]
    rw [show mkParser ('[' :: '^' :: ((cc.items.map ClassItem.printChars).flatten ++ ']' :: rest))
        = ⟨.leftBracket, '^' :: ((cc.items.map ClassItem.printChars).flatten ++ ']' :: rest)⟩
      from rfl]
    unfold parseAtom
    unfold parseCharClass
    simp only [expectTok, eq_self_iff_true, if_true, advance_mk, ok_bind]
    rw [show mkParser ('^' :: ((cc.items.map ClassItem.printChars).flatten ++ ']' :: rest))
        = ⟨.caret, (cc.items.map ClassItem.printChars).flatten ++ ']' :: rest⟩ from rfl]
    simp only [eq_self_iff_true, if_true, advance_mk]
    rw [classItemsRT cc.items h rest g (by rw [hprlen] at hfuel; simp at hfuel hflatlen ⊢; omega)]
    simp only [ok_bind]
    match hcc : cc.items, hne with
    | it :: its, _ =>
      rw [show mkParser (']' :: rest) = ⟨.rightBracket, rest⟩ from rfl]
      simp only [expectTok, eq_self_iff_true, if_true, advance_mk, ok_bind]
      rw [show ({ negated := true, items := it :: its } : CharacterClass) = cc from by
        rw [← hneg, ← hcc]]

theorem itemFront_characterClass (cc : CharacterClass) : ItemFront (.characterClass cc) := by
  intro z
  constructor
  · show headNotQuant (CharacterClass.printChars cc ++ z) = true
    unfold CharacterClass.printChars
    rfl
  · show isSequenceEnd (nextToken (CharacterClass.printChars cc ++ z)).1 = false
    unfold CharacterClass.printChars
    rfl

theorem atomRT_ncg (e : Expr) (hrt : ExprRT e) : AtomRT (.nonCapturingGroup e) := by
  intro rest fuel hfuel
  obtain ⟨f, rfl⟩ : ∃ f, fuel = f + 1 := ⟨fuel - 1, by omega⟩
  have hpr : (Expr.nonCapturingGroup e).toRegexString
      = '(' :: '?' :: ':' :: (e.toRegexString ++ [')']) := rfl
  rw [hpr] at hfuel ⊢
  simp only [List.cons_append, List.append_assoc, List.singleton_append, List.nil_append]
  rw [show mkParser ('(' :: '?' :: ':' :: (e.toRegexString ++ ')' :: rest))
      = ⟨.nonCapturing, e.toRegexString ++ ')' :: rest⟩ from rfl]
  unfold parseAtom
  rw [advance_mk]
  rw [hrt (')' :: rest) f (by simp at hfuel ⊢; omega) rfl]
  simp only [ok_bind]
  rw [show mkParser (')' :: rest) = ⟨.rightParen, rest⟩ from rfl]
  simp only [expectTok, eq_self_iff_true, if_true, advance_mk, ok_bind]

theorem itemFront_ncg (e : Expr) : ItemFront (.nonCapturingGroup e) := by
  intro z
  exact ⟨rfl, by
    rw [show (Expr.nonCapturingGroup e).toRegexString ++ z
        = '(' :: '?' :: ':' :: (e.toRegexString ++ [')']) ++ z from rfl]
    rfl⟩

theorem atomRT_group (e : Expr) (hrt : ExprRT e)
    (hqm : headNotQm (e.toRegexString) = true)
    (hncg : headNotNcg (e.toRegexString) = true)
    (hcol : noColonAfterIdent (e.toRegexString ++ [')']) = true)
    (hcol2 : noColonAfterIdent ((e.toRegexString).drop 1 ++ [')']) = true) :
    AtomRT (.group e) := by
  intro rest fuel hfuel
  obtain ⟨f, rfl⟩ : ∃ f, fuel = f + 1 := ⟨fuel - 1, by omega⟩
  have hpr : (Expr.group e).toRegexString = '(' :: (e.toRegexString ++ [')']) := rfl
  rw [hpr] at hfuel ⊢
  simp only [List.cons_append, List.append_assoc, List.singleton_append, List.nil_append]
  have hqm' : headNotQm (e.toRegexString ++ ')' :: rest) = true := by
    cases hx : e.toRegexString with
    | nil => rfl
    | cons c t =>
      rw [hx] at hqm
      simpa [headNotQm] using hqm
  have hcol' : noColonAfterIdent (e.toRegexString ++ ')' :: rest) = true := by
    rw [noColon_append_indep _ _ _ (by decide)]
    exact hcol
  rw [show mkParser ('(' :: (e.toRegexString ++ ')' :: rest))
      = ⟨.leftParen, e.toRegexString ++ ')' :: rest⟩ from by
    unfold mkParser
    rw [show nextToken ('(' :: (e.toRegexString ++ ')' :: rest))
        = lexLParen (e.toRegexString ++ ')' :: rest) from rfl]
    rw [lexLParen_plain _ hqm' hcol']]
  unfold parseAtom
  show parseGroup f ⟨.leftParen, e.toRegexString ++ ')' :: rest⟩ = _
  obtain ⟨g, rfl⟩ : ∃ g, f = g + 1 := ⟨f - 1, by simp at hfuel; omega⟩
  unfold parseGroup
  simp only [expectTok, eq_self_iff_true, if_true, advance_mk, ok_bind]
  split
  · rename_i name heq
    exfalso
    rw [mkParser_current] at heq
    obtain ⟨r, hr, t2, ht2⟩ := nextToken_ngs _ name heq
    match hx : e.toRegexString, hr with
    | [], hr => simp at hr
    | c :: ts, hr =>
      simp only [List.cons_append] at hr
      obtain ⟨hc, hrr⟩ := List.cons.inj hr
      rw [hx] at hcol2
      rw [← hrr] at ht2
      have hind : noColonAfterIdent (ts ++ ')' :: rest) = true := by
        rw [noColon_append_indep _ _ _ (by decide)]
        simpa using hcol2
      unfold noColonAfterIdent at hind
      rw [ht2] at hind
      simp at hind
  · rename_i heq
    exfalso
    rw [mkParser_current] at heq
    obtain ⟨t, ht⟩ := nextToken_ncg _ heq
    match hx : e.toRegexString, ht with
    | [], ht => simp at ht
    | [c1], ht => simp at ht
    | [c1, c2], ht => simp at ht
    | c1 :: c2 :: c3 :: ts, ht =>
      simp only [List.cons_append, List.cons.injEq] at ht
      obtain ⟨h1, h2, h3, -⟩ := ht
      rw [hx, h1, h2, h3] at hncg
      simp [headNotNcg] at hncg
  · rw [hrt (')' :: rest) g (by simp at hfuel ⊢; omega) rfl]
    simp only [ok_bind, pure_bindE]
    rw [show mkParser (')' :: rest) = ⟨.rightParen, rest⟩ from rfl]
    simp only [expectTok, eq_self_iff_true, if_true, advance_mk, ok_bind]

theorem itemFront_group (e : Expr)
    (hqm : headNotQm (e.toRegexString) = true)
    (hcol : noColonAfterIdent (e.toRegexString ++ [')']) = true) :
    ItemFront (.group e) := by
  intro z
  have hpr : (Expr.group e).toRegexString ++ z = '(' :: (e.toRegexString ++ ')' :: z) := by
    rw [show (Expr.group e).toRegexString = '(' :: (e.toRegexString ++ [')']) from rfl]
    simp
  rw [hpr]
  constructor
  · rfl
  · have hqm' : headNotQm (e.toRegexString ++ ')' :: z) = true := by
      cases hx : e.toRegexString with
      | nil => rfl
      | cons c t =>
        rw [hx] at hqm
        simpa [headNotQm] using hqm
    have hcol' : noColonAfterIdent (e.toRegexString ++ ')' :: z) = true := by
      rw [noColon_append_indep _ _ _ (by decide)]
      exact hcol
    rw [show nextToken ('(' :: (e.toRegexString ++ ')' :: z))
        = lexLParen (e.toRegexString ++ ')' :: z) from rfl]
    rw [lexLParen_plain _ hqm' hcol']
    rfl

theorem isItemShape_of_atom (e : Expr) (h : isAtomShape e = true) : isItemShape e = true := by
  cases e <;> simp_all [isAtomShape, isItemShape]

theorem isAlternation_false_of_atom (e : Expr) (h : isAtomShape e = true) :
    e.isAlternation = false := by
  cases e <;> simp_all [isAtomShape, Expr.isAlternation]

theorem frag_roundtrip (e : Expr) (h : Frag e) :
    (isAtomShape e = true → AtomRT e) ∧
    (isItemShape e = true → ItemRT e ∧ ItemFront e) ∧
    (isSeqShape e = true → SeqRT e) ∧
    ExprRT e := by
  induction h with
  | literal c hc =>
    have ha := atomRT_literal c hc
    have hf := itemFront_literal c hc
    have hi := itemRT_of_atomRT _ ha hf
    have hs := seqRT_of_itemRT _ hi hf
    exact ⟨fun _ => ha, fun _ => ⟨hi, hf⟩, fun _ => hs, exprRT_of_seqRT _ hs⟩
  | any =>
    have hi := itemRT_of_atomRT _ atomRT_any itemFront_any
    have hs := seqRT_of_itemRT _ hi itemFront_any
    exact ⟨fun _ => atomRT_any, fun _ => ⟨hi, itemFront_any⟩, fun _ => hs,
      exprRT_of_seqRT _ hs⟩
  | startAnchor =>
    have hi := itemRT_of_atomRT _ atomRT_startAnchor itemFront_startAnchor
    have hs := seqRT_of_itemRT _ hi itemFront_startAnchor
    exact ⟨fun _ => atomRT_startAnchor, fun _ => ⟨hi, itemFront_startAnchor⟩, fun _ => hs,
      exprRT_of_seqRT _ hs⟩
  | endAnchor =>
    have hi := itemRT_of_atomRT _ atomRT_endAnchor itemFront_endAnchor
    have hs := seqRT_of_itemRT _ hi itemFront_endAnchor
    exact ⟨fun _ => atomRT_endAnchor, fun _ => ⟨hi, itemFront_endAnchor⟩, fun _ => hs,
      exprRT_of_seqRT _ hs⟩
  | wordBoundary =>
    have hi := itemRT_of_atomRT _ atomRT_wordBoundary itemFront_wordBoundary
    have hs := seqRT_of_itemRT _ hi itemFront_wordBoundary
    exact ⟨fun _ => atomRT_wordBoundary, fun _ => ⟨hi, itemFront_wordBoundary⟩, fun _ => hs,
      exprRT_of_seqRT _ hs⟩
  | nonWordBoundary =>
    have hi := itemRT_of_atomRT _ atomRT_nonWordBoundary itemFront_nonWordBoundary
    have hs := seqRT_of_itemRT _ hi itemFront_nonWordBoundary
    exact ⟨fun _ => atomRT_nonWordBoundary, fun _ => ⟨hi, itemFront_nonWordBoundary⟩,
      fun _ => hs, exprRT_of_seqRT _ hs⟩
  | shorthand c hc =>
    have ha := atomRT_shorthand c hc
    have hf := itemFront_shorthand c hc
    have hi := itemRT_of_atomRT _ ha hf
    have hs := seqRT_of_itemRT _ hi hf
    exact ⟨fun _ => ha, fun _ => ⟨hi, hf⟩, fun _ => hs, exprRT_of_seqRT _ hs⟩
  | characterClass cc hne hok =>
    have ha := atomRT_characterClass cc hne hok
    have hf := itemFront_characterClass cc
    have hi := itemRT_of_atomRT _ ha hf
    have hs := seqRT_of_itemRT _ hi hf
    exact ⟨fun _ => ha, fun _ => ⟨hi, hf⟩, fun _ => hs, exprRT_of_seqRT _ hs⟩
  | group e2 hfr hqm hncg hcol hcol2 ih =>
    obtain ⟨-, -, -, he⟩ := ih
    have ha := atomRT_group e2 he hqm hncg hcol hcol2
    have hf := itemFront_group e2 hqm hcol
    have hi := itemRT_of_atomRT _ ha hf
    have hs := seqRT_of_itemRT _ hi hf
    exact ⟨fun _ => ha, fun _ => ⟨hi, hf⟩, fun _ => hs, exprRT_of_seqRT _ hs⟩
  | nonCapturingGroup e2 hfr ih =>
    obtain ⟨-, -, -, he⟩ := ih
    have ha := atomRT_ncg e2 he
    have hf := itemFront_ncg e2
    have hi := itemRT_of_atomRT _ ha hf
    have hs := seqRT_of_itemRT _ hi hf
    exact ⟨fun _ => ha, fun _ => ⟨hi, hf⟩, fun _ => hs, exprRT_of_seqRT _ hs⟩
  | quantified e2 q hfr hshape ih =>
    obtain ⟨hA, hI, -, -⟩ := ih
    have ha := hA hshape
    have halt := isAlternation_false_of_atom e2 hshape
    have hi := itemRT_quantified e2 q ha halt
    obtain ⟨-, hfe⟩ := hI (isItemShape_of_atom e2 hshape)
    have hprq : ∀ z, (Expr.quantified e2 q).toRegexString ++ z
        = e2.toRegexString ++ (q.printChars ++ z) := by
      intro z
      rw [show (Expr.quantified e2 q).toRegexString
          = (if e2.isAlternation = true then '(' :: '?' :: ':' :: (e2.toRegexString ++ [')'])
             else e2.toRegexString) ++ q.printChars from rfl]
      rw [halt]
      simp
    have hf : ItemFront (.quantified e2 q) := by
      intro z
      rw [hprq z]
      exact hfe (q.printChars ++ z)
    have hs := seqRT_of_itemRT _ hi hf
    exact ⟨fun hab => by simp [isAtomShape] at hab, fun _ => ⟨hi, hf⟩, fun _ => hs,
      exprRT_of_seqRT _ hs⟩
  | empty =>
    have hs := seqRT_empty
    exact ⟨fun hab => by simp [isAtomShape] at hab,
      fun hab => by simp [isItemShape, isAtomShape] at hab, fun _ => hs,
      exprRT_of_seqRT _ hs⟩
  | sequence es hlen hshapes hfrags ih =>
    have hitems : ∀ x ∈ es, ItemRT x ∧ ItemFront x := fun x hx => (ih x hx).2.1 (hshapes x hx)
    have hs := seqRT_sequence es hlen hitems
    exact ⟨fun hab => by simp [isAtomShape] at hab,
      fun hab => by simp [isItemShape, isAtomShape] at hab, fun _ => hs,
      exprRT_of_seqRT _ hs⟩
  | alternation es hlen hshapes hfrags ih =>
    have hbranches : ∀ x ∈ es, SeqRT x := fun x hx => (ih x hx).2.2.1 (hshapes x hx)
    match es, hlen, hbranches with
    | b :: bs, hlen, hbranches =>
      have hbs : bs ≠ [] := by
        cases bs
        · simp at hlen
        · simp
      have he := exprRT_alternation b bs hbs hbranches
      exact ⟨fun hab => by simp [isAtomShape] at hab,
        fun hab => by simp [isItemShape, isAtomShape] at hab,
        fun hab => by simp [isSeqShape] at hab, he⟩

theorem frag_parse_print (e : Expr) (h : Frag e) :
    parseChars (Expr.toRegexString e) = .ok e := by
  have hE := (frag_roundtrip e h).2.2.2
  have hb := hE [] (parseFuel (Expr.toRegexString e))
    (by simp only [parseFuel]; omega) rfl
  rw [List.append_nil] at hb
  unfold parseChars
  rw [hb, ok_bind]
  rfl

theorem frag_transpile_print (e : Expr) (h : Frag e) :
    transpile (String.mk (Expr.toRegexString e)) = .ok (Expr.toRegexString e) := by
  unfold transpile parse
  rw [show (String.mk (Expr.toRegexString e)).data = Expr.toRegexString e from rfl]
  rw [frag_parse_print e h]
  rfl

/-- C3: amended statement. The surface-syntax round-trip holds on the
ASCII-printing part of the printable fragment Frag of the AST (no named
groups or backreferences, plain literals, class items that re-lex to
themselves, quantifiers on atoms).  The ASCII hypothesis on the printed
pattern is required for faithfulness to the program: the source lexer
byte-slices identifiers at codepoint indices and so panics on a pattern
whose group body begins with a non-ASCII letter, while on ASCII patterns it
coincides with the model.  On that domain, parsing the printed pattern
returns exactly the same AST, and transpiling the printed pattern returns
it unchanged.  The original claim is false for named groups; see the
counterexample. -/
theorem c3_amended_fragment_roundtrip (e : Expr) (h : Frag e)
    (hascii : (Expr.toRegexString e).all (fun c => c.toNat < 128) = true) :
    parseChars (Expr.toRegexString e) = .ok e ∧
    transpile (String.mk (Expr.toRegexString e)) = .ok (Expr.toRegexString e) :=
  ⟨frag_parse_print e h, frag_transpile_print e h⟩

/-- C3 witness: the amended round-trip instantiated at the concrete
all-ASCII pattern (ab)*|c. -/
theorem c3_amended_fragment_roundtrip_witness :
    parseChars (Expr.toRegexString c3FragExpr) = .ok c3FragExpr ∧
    transpile (String.mk (Expr.toRegexString c3FragExpr)) = .ok (Expr.toRegexString c3FragExpr) :=
  c3_amended_fragment_roundtrip c3FragExpr
    (Frag.alternation _ (by decide) (by decide)
      (by
        intro x hx
        cases hx with
        | head =>
          exact Frag.quantified _ _
            (Frag.group _
              (Frag.sequence _ (by decide) (by decide)
                (by
                  intro y hy
                  cases hy with
                  | head => exact Frag.literal 'a' (by decide)
                  | tail _ hy2 =>
                    cases hy2 with
                    | head => exact Frag.literal 'b' (by decide)
                    | tail _ hy3 => cases hy3))
              (by decide) (by decide) (by decide) (by decide))
            (by decide)
        | tail _ hx2 =>
          cases hx2 with
          | head => exact Frag.literal 'c' (by decide)
          | tail _ hx3 => cases hx3))
    (by decide)

/-- C3 counterexample: the pattern (name:abc) is accepted by the parser and
contains a named group; transpile renders it as (?<name>abc); but that output
is not itself a valid pattern: parsing it fails, because after consuming the
plain left parenthesis the parser meets a bare question-mark token. -/
theorem c3_counterexample :
    (parse "(name:abc)").isOk = true ∧
    transpile "(name:abc)" = .ok ("(?<name>abc)".data) ∧
    (parse "(?<name>abc)").isOk = false := by
  refine ⟨by decide!, by decide!, by decide!⟩

theorem containsId_iff (l : List SimState) (id : Nat) :
    containsId l id = true ↔ ∃ y ∈ l, y.stateId = id := by
  simp [containsId, List.any_eq_true]

theorem specExecH_trans {nfa : Nfa} {cs : List Char} {q pos m q1 pos1 m1 q2 pos2 m2}
    (h1 : SpecExecH nfa cs q pos m q1 pos1 m1)
    (h2 : SpecExecH nfa cs q1 pos1 m1 q2 pos2 m2) :
    SpecExecH nfa cs q pos m q2 pos2 m2 := by
  induction h1 with
  | refl => exact h2
  | head s _ ih => exact .head s (ih h2)

theorem specExec_trans {nfa : Nfa} {cs : List Char} {q pos m q1 pos1 m1 q2 pos2 m2}
    (h1 : SpecExec nfa cs q pos m q1 pos1 m1)
    (h2 : SpecExec nfa cs q1 pos1 m1 q2 pos2 m2) :
    SpecExec nfa cs q pos m q2 pos2 m2 := by
  induction h2 with
  | refl => exact h1
  | tail e s ih => exact .tail ih s

theorem specExec_toH {nfa : Nfa} {cs : List Char} {q pos m q1 pos1 m1}
    (h : SpecExec nfa cs q pos m q1 pos1 m1) :
    SpecExecH nfa cs q pos m q1 pos1 m1 := by
  induction h with
  | refl => exact .refl
  | tail _ s ih => exact specExecH_trans ih (.head s .refl)

theorem specExecH_toExec {nfa : Nfa} {cs : List Char} {q pos m q1 pos1 m1}
    (h : SpecExecH nfa cs q pos m q1 pos1 m1) :
    SpecExec nfa cs q pos m q1 pos1 m1 := by
  induction h with
  | refl => exact .refl
  | head s _ ih => exact specExec_trans (.tail .refl s) ih

theorem specStep_pos_le {nfa : Nfa} {cs : List Char} {q pos m q1 pos1 m1}
    (h : SpecStep nfa cs q pos m q1 pos1 m1) : pos ≤ pos1 := by
  cases h <;> omega

theorem specExec_pos_le {nfa : Nfa} {cs : List Char} {q pos m q1 pos1 m1}
    (h : SpecExec nfa cs q pos m q1 pos1 m1) : pos ≤ pos1 := by
  induction h with
  | refl => exact Nat.le_refl _
  | tail _ s ih => exact Nat.le_trans ih (specStep_pos_le s)

theorem specStep_le_len {nfa : Nfa} {cs : List Char} {q pos m q1 pos1 m1}
    (h : SpecStep nfa cs q pos m q1 pos1 m1) (hp : pos ≤ cs.length) :
    pos1 ≤ cs.length := by
  cases h <;> omega

theorem backrefFree_trans {nfa : Nfa} (hbf : BackrefFree nfa = true) (q : Nat) :
    ∀ tr ∈ (getState nfa q).transitions,
      (∀ g, tr.1 ≠ .backref g) ∧ (∀ r, tr.1 ≠ .backrefRelative r) := by
  intro tr htr
  unfold getState at htr
  by_cases hq : q < nfa.states.length
  · rw [List.getD_eq_getElem nfa.states _ hq] at htr
    unfold BackrefFree at hbf
    rw [List.all_eq_true] at hbf
    have hst := hbf (nfa.states[q]) (List.getElem_mem hq)
    rw [List.all_eq_true] at hst
    have := hst tr htr
    constructor
    · intro g hg; rw [hg] at this; simp at this
    · intro r hr; rw [hr] at this; simp at this
  · rw [List.getD_eq_getElem?_getD, List.getElem?_eq_none (Nat.le_of_not_lt hq)] at htr
    simp at htr

theorem backrefFree_no_backref {nfa : Nfa} (hbf : BackrefFree nfa = true)
    {q g q'} : ¬ hasTrans nfa q (.backref g) q' := by
  intro h
  exact (backrefFree_trans hbf q _ h).1 g rfl

theorem backrefFree_no_backrefRel {nfa : Nfa} (hbf : BackrefFree nfa = true)
    {q r q'} : ¬ hasTrans nfa q (.backrefRelative r) q' := by
  intro h
  exact (backrefFree_trans hbf q _ h).2 r rfl

theorem tryTransition_default {nfa : Nfa} (hmf : nfa.modeFlags = {})
    (st : SimState) (t : Transition) (tgt : Nat) (c : Char) :
    tryTransition nfa st t tgt c =
      if charMatches t c then some ⟨tgt, st.groups⟩ else none := by
  unfold tryTransition charMatches
  rw [hmf]
  cases t <;> rfl

theorem mem_zwPushes_elim {nfa : Nfa} {cs : List Char} {s0 pos : Nat}
    {clo : List SimState} {st x : SimState}
    (h : x ∈ zwPushes nfa cs s0 pos clo st) :
    x ∈ zwTargets nfa cs s0 pos st ∧ containsId clo x.stateId = false := by
  simp only [zwTargets, zwPushes, List.mem_filterMap] at h ⊢
  obtain ⟨⟨t, tgt⟩, htr, hf⟩ := h
  simp only [] at hf
  cases hc : containsId clo tgt with
  | true => simp [hc] at hf
  | false =>
    simp only [hc, Bool.false_eq_true, if_false] at hf
    have hx : x.stateId = tgt := by
      cases t <;> (try split at hf) <;> (try split at hf) <;>
        (try simp only [Option.ite_none_right_eq_some, Option.some.injEq] at hf) <;>
        first
          | (cases hf; rfl)
          | (obtain ⟨-, hf⟩ := hf; cases hf; rfl)
          | simp_all
    refine ⟨⟨(t, tgt), htr, ?_⟩, by rw [hx]; exact hc⟩
    simp only [containsId, List.any_nil, Bool.false_eq_true, if_false]
    exact hf

theorem mem_zwPushes_intro {nfa : Nfa} {cs : List Char} {s0 pos : Nat}
    {clo : List SimState} {st x : SimState}
    (h : x ∈ zwTargets nfa cs s0 pos st)
    (hc : containsId clo x.stateId = false) :
    x ∈ zwPushes nfa cs s0 pos clo st := by
  simp only [zwTargets, zwPushes, List.mem_filterMap] at h ⊢
  obtain ⟨⟨t, tgt⟩, htr, hf⟩ := h
  simp only [containsId, List.any_nil, Bool.false_eq_true, if_false] at hf
  have hx : x.stateId = tgt := by
    cases t <;> (try split at hf) <;> (try split at hf) <;>
      (try simp only [Option.ite_none_right_eq_some, Option.some.injEq] at hf) <;>
      first
        | (cases hf; rfl)
        | (obtain ⟨-, hf⟩ := hf; cases hf; rfl)
        | simp_all
  refine ⟨(t, tgt), htr, ?_⟩
  rw [hx] at hc
  simp only [hc, Bool.false_eq_true, if_false]
  exact hf

theorem mem_zwTargets_stateId {nfa : Nfa} {cs : List Char} {s0 pos : Nat}
    {st x : SimState} (h : x ∈ zwTargets nfa cs s0 pos st) :
    ∃ t, (t, x.stateId) ∈ (getState nfa st.stateId).transitions := by
  simp only [zwTargets, zwPushes, List.mem_filterMap] at h
  obtain ⟨⟨t, tgt⟩, htr, hf⟩ := h
  simp only [containsId, List.any_nil, Bool.false_eq_true, if_false] at hf
  have hx : x.stateId = tgt := by
    cases t <;> (try split at hf) <;> (try split at hf) <;>
      (try simp only [Option.ite_none_right_eq_some, Option.some.injEq] at hf) <;>
      first
        | (cases hf; rfl)
        | (obtain ⟨-, hf⟩ := hf; cases hf; rfl)
        | simp_all
  exact ⟨t, hx ▸ htr⟩

theorem mem_zwTargets_specStep {nfa : Nfa} {cs : List Char} {s0 pos : Nat}
    {st x : SimState} (hmf : nfa.modeFlags = {})
    (h : x ∈ zwTargets nfa cs s0 pos st) :
    SpecStep nfa cs st.stateId pos st.groups x.stateId pos x.groups := by
  simp only [zwTargets, zwPushes, List.mem_filterMap] at h
  obtain ⟨⟨t, tgt⟩, htr, hf⟩ := h
  simp only [containsId, List.any_nil, Bool.false_eq_true, if_false, hmf,
    show ModeFlags.multiline {} = false from rfl, if_false] at hf
  cases t with
  | epsilon =>
    cases hf
    exact SpecStep.epsilon htr
  | startAnchor =>
    rw [Option.ite_none_right_eq_some] at hf
    obtain ⟨⟨h0, hp⟩, hf⟩ := hf
    cases hf
    subst hp; subst h0
    exact SpecStep.startAnchor htr
  | endAnchor =>
    rw [Option.ite_none_right_eq_some] at hf
    obtain ⟨hp, hf⟩ := hf
    cases hf
    subst hp
    exact SpecStep.endAnchor htr
  | wordBoundary =>
    rw [Option.ite_none_right_eq_some] at hf
    obtain ⟨hp, hf⟩ := hf
    cases hf
    exact SpecStep.wordBoundary htr hp
  | nonWordBoundary =>
    rw [Option.ite_none_right_eq_some] at hf
    obtain ⟨hp, hf⟩ := hf
    cases hf
    exact SpecStep.nonWordBoundary htr (by simpa using hp)
  | groupStart g =>
    cases hf
    exact SpecStep.groupStart htr
  | groupEnd g =>
    rcases hl : st.groups.lookup g with _ | ⟨a, b⟩
    · simp only [hl] at hf
      cases hf
      exact SpecStep.groupEndNone htr hl
    · simp only [hl] at hf
      cases hf
      exact SpecStep.groupEndSome htr hl
  | char c => simp at hf
  | any => simp at hf
  | charClass neg items => simp at hf
  | backref g => simp at hf
  | backrefRelative r => simp at hf

theorem zwTargets_epsilon {nfa : Nfa} {cs : List Char} {s0 pos : Nat}
    {q q' : Nat} (st : SimState) (htr : hasTrans nfa q .epsilon q')
    (hq : st.stateId = q) :
    ∃ x ∈ zwTargets nfa cs s0 pos st, x.stateId = q' := by
  subst hq
  simp only [zwTargets, zwPushes, List.mem_filterMap]
  exact ⟨⟨q', st.groups⟩, ⟨(.epsilon, q'), htr, rfl⟩, rfl⟩

theorem zwTargets_startAnchor {nfa : Nfa} {cs : List Char} {s0 : Nat}
    {q q' : Nat} (st : SimState) (hmf : nfa.modeFlags = {})
    (htr : hasTrans nfa q .startAnchor q') (hq : st.stateId = q)
    (hs0 : s0 = 0) :
    ∃ x ∈ zwTargets nfa cs s0 0 st, x.stateId = q' := by
  subst hq; subst hs0
  simp only [zwTargets, zwPushes, List.mem_filterMap]
  refine ⟨⟨q', st.groups⟩, ⟨(.startAnchor, q'), htr, ?_⟩, rfl⟩
  simp [hmf, containsId]

theorem zwTargets_endAnchor {nfa : Nfa} {cs : List Char} {s0 : Nat}
    {q q' : Nat} (st : SimState) (hmf : nfa.modeFlags = {})
    (htr : hasTrans nfa q .endAnchor q') (hq : st.stateId = q) :
    ∃ x ∈ zwTargets nfa cs s0 cs.length st, x.stateId = q' := by
  subst hq
  simp only [zwTargets, zwPushes, List.mem_filterMap]
  refine ⟨⟨q', st.groups⟩, ⟨(.endAnchor, q'), htr, ?_⟩, rfl⟩
  simp [hmf, containsId]

theorem zwTargets_wordBoundary {nfa : Nfa} {cs : List Char} {s0 pos : Nat}
    {q q' : Nat} (st : SimState) (htr : hasTrans nfa q .wordBoundary q')
    (hq : st.stateId = q) (hw : isWordBoundary cs pos = true) :
    ∃ x ∈ zwTargets nfa cs s0 pos st, x.stateId = q' := by
  subst hq
  simp only [zwTargets, zwPushes, List.mem_filterMap]
  refine ⟨⟨q', st.groups⟩, ⟨(.wordBoundary, q'), htr, ?_⟩, rfl⟩
  simp [containsId, hw]

theorem zwTargets_nonWordBoundary {nfa : Nfa} {cs : List Char} {s0 pos : Nat}
    {q q' : Nat} (st : SimState) (htr : hasTrans nfa q .nonWordBoundary q')
    (hq : st.stateId = q) (hw : isWordBoundary cs pos = false) :
    ∃ x ∈ zwTargets nfa cs s0 pos st, x.stateId = q' := by
  subst hq
  simp only [zwTargets, zwPushes, List.mem_filterMap]
  refine ⟨⟨q', st.groups⟩, ⟨(.nonWordBoundary, q'), htr, ?_⟩, rfl⟩
  simp [containsId, hw]

theorem zwTargets_groupStart {nfa : Nfa} {cs : List Char} {s0 pos : Nat}
    {q q' g : Nat} (st : SimState) (htr : hasTrans nfa q (.groupStart g) q')
    (hq : st.stateId = q) :
    ∃ x ∈ zwTargets nfa cs s0 pos st, x.stateId = q' := by
  subst hq
  simp only [zwTargets, zwPushes, List.mem_filterMap]
  exact ⟨⟨q', (g, (pos, pos)) :: st.groups⟩, ⟨(.groupStart g, q'), htr, rfl⟩, rfl⟩

theorem zwTargets_groupEnd {nfa : Nfa} {cs : List Char} {s0 pos : Nat}
    {q q' g : Nat} (st : SimState) (htr : hasTrans nfa q (.groupEnd g) q')
    (hq : st.stateId = q) :
    ∃ x ∈ zwTargets nfa cs s0 pos st, x.stateId = q' := by
  subst hq
  simp only [zwTargets, zwPushes, List.mem_filterMap]
  rcases hl : st.groups.lookup g with _ | ⟨a, b⟩
  · refine ⟨⟨q', st.groups⟩, ⟨(.groupEnd g, q'), htr, ?_⟩, rfl⟩
    simp [containsId, hl]
  · refine ⟨⟨q', (g, (a, pos)) :: st.groups⟩, ⟨(.groupEnd g, q'), htr, ?_⟩, rfl⟩
    simp [containsId, hl]

theorem closureGo_sound {nfa : Nfa} {cs : List Char} {s0 pos : Nat}
    (P : SimState → Prop)
    (hzw : ∀ st, P st → ∀ x ∈ zwTargets nfa cs s0 pos st, P x) :
    ∀ fuel clo stack, (∀ st ∈ clo, P st) → (∀ st ∈ stack, P st) →
      ∀ st ∈ closureGo nfa cs s0 pos fuel clo stack, P st := by
  intro fuel
  induction fuel with
  | zero => intro clo stack hclo _ st hst; exact hclo st hst
  | succ f ih =>
    intro clo stack hclo hstack
    match stack with
    | [] => simpa [closureGo] using hclo
    | st0 :: stack' =>
      simp only [closureGo]
      split
      · exact ih clo stack' hclo (fun st hst => hstack st (List.mem_cons_of_mem _ hst))
      · apply ih
        · intro st hst
          rcases List.mem_append.1 hst with h | h
          · exact hclo st h
          · rw [List.mem_singleton] at h
            subst h
            exact hstack st (List.mem_cons_self _ _)
        · intro st hst
          rcases List.mem_append.1 hst with h | h
          · rw [List.mem_reverse] at h
            exact hzw st0 (hstack st0 (List.mem_cons_self _ _)) st (mem_zwPushes_elim h).1
          · exact hstack st (List.mem_cons_of_mem _ h)

theorem containsId_of_mem {l : List SimState} {st : SimState} (h : st ∈ l) :
    containsId l st.stateId = true :=
  (containsId_iff l st.stateId).2 ⟨st, h, rfl⟩

theorem containsId_append (a b : List SimState) (id : Nat) :
    containsId (a ++ b) id = (containsId a id || containsId b id) := by
  simp [containsId, List.any_append]

/-- All transition targets of the NFA, in table order. -/
theorem trans_mem_allTargets {nfa : Nfa} {q : Nat} {tr : Transition × Nat}
    (h : tr ∈ (getState nfa q).transitions) :
    tr.2 ∈ (nfa.states.map (fun st => st.transitions.map Prod.snd)).flatten := by
  unfold getState at h
  by_cases hq : q < nfa.states.length
  · rw [List.getD_eq_getElem nfa.states _ hq] at h
    rw [List.mem_flatten]
    exact ⟨nfa.states[q].transitions.map Prod.snd,
      List.mem_map_of_mem _ (List.getElem_mem hq), List.mem_map_of_mem _ h⟩
  · rw [List.getD_eq_getElem?_getD, List.getElem?_eq_none (Nat.le_of_not_lt hq)] at h
    simp at h

theorem getState_transitions_le {nfa : Nfa} (q : Nat) :
    (getState nfa q).transitions.length ≤ totalTransCount nfa := by
  unfold getState totalTransCount
  by_cases hq : q < nfa.states.length
  · rw [List.getD_eq_getElem nfa.states _ hq]
    exact List.single_le_sum (fun a _ => Nat.zero_le a) _
      (List.mem_map_of_mem _ (List.getElem_mem hq))
  · rw [List.getD_eq_getElem?_getD, List.getElem?_eq_none (Nat.le_of_not_lt hq)]
    simp

theorem zwPushes_length_le {nfa : Nfa} {cs : List Char} {s0 pos : Nat}
    (clo : List SimState) (st : SimState) :
    (zwPushes nfa cs s0 pos clo st).length ≤ totalTransCount nfa :=
  Nat.le_trans (List.length_filterMap_le _ _) (getState_transitions_le st.stateId)

theorem closureGo_drain {nfa : Nfa} {cs : List Char} {s0 pos : Nat} (S : Finset Nat)
    (hS : ∀ (st x : SimState), x ∈ zwTargets nfa cs s0 pos st → x.stateId ∈ S) :
    ∀ fuel clo stack,
      (∀ st ∈ clo, st.stateId ∈ S) →
      (∀ st ∈ stack, st.stateId ∈ S) →
      (∀ st ∈ clo, ∀ x ∈ zwTargets nfa cs s0 pos st,
        containsId clo x.stateId = true ∨ ∃ y ∈ stack, y.stateId = x.stateId) →
      stack.length + (S.card + 1 - (clo.map SimState.stateId).toFinset.card) *
        (totalTransCount nfa + 1) ≤ fuel →
      (∀ st ∈ clo, st ∈ closureGo nfa cs s0 pos fuel clo stack) ∧
      (∀ st ∈ stack, containsId (closureGo nfa cs s0 pos fuel clo stack) st.stateId = true) ∧
      SatAt nfa cs s0 pos (closureGo nfa cs s0 pos fuel clo stack) := by
  intro fuel
  induction fuel with
  | zero =>
    intro clo stack hclo _ _ hfuel
    exfalso
    have hDB : (clo.map SimState.stateId).toFinset.card ≤ S.card := by
      apply Finset.card_le_card
      intro a ha
      rw [List.mem_toFinset, List.mem_map] at ha
      obtain ⟨st, hst, rfl⟩ := ha
      exact hclo st hst
    have h1 : 1 ≤ S.card + 1 - (clo.map SimState.stateId).toFinset.card := by omega
    have h2 := Nat.mul_le_mul h1 (Nat.le_refl (totalTransCount nfa + 1))
    rw [Nat.one_mul] at h2
    generalize (S.card + 1 - (clo.map SimState.stateId).toFinset.card) *
      (totalTransCount nfa + 1) = X at h2 hfuel
    omega
  | succ f ih =>
    intro clo stack hclo hstack hinv hfuel
    match stack with
    | [] =>
      refine ⟨by simp [closureGo], by simp, ?_⟩
      intro st hst x hx
      rcases hinv st (by simpa [closureGo] using hst) x hx with h | h
      · simpa [closureGo] using h
      · simp at h
    | st0 :: stack' =>
      simp only [closureGo]
      by_cases hdup : containsId clo st0.stateId = true
      · rw [if_pos hdup]
        have hinv' : ∀ st ∈ clo, ∀ x ∈ zwTargets nfa cs s0 pos st,
            containsId clo x.stateId = true ∨ ∃ y ∈ stack', y.stateId = x.stateId := by
          intro st hst x hx
          rcases hinv st hst x hx with h | h
          · exact .inl h
          · obtain ⟨y, hy, hyx⟩ := h
            rcases List.mem_cons.1 hy with rfl | hy'
            · exact .inl (hyx ▸ hdup)
            · exact .inr ⟨y, hy', hyx⟩
        have hfuel2 : stack'.length +
            (S.card + 1 - (clo.map SimState.stateId).toFinset.card) *
              (totalTransCount nfa + 1) ≤ f := by
          rw [List.length_cons] at hfuel
          generalize (S.card + 1 - (clo.map SimState.stateId).toFinset.card) *
            (totalTransCount nfa + 1) = X at hfuel ⊢
          omega
        have hrec := ih clo stack' hclo
          (fun st hst => hstack st (List.mem_cons_of_mem _ hst)) hinv' hfuel2
        refine ⟨hrec.1, ?_, hrec.2.2⟩
        intro st hst
        rcases List.mem_cons.1 hst with rfl | hst'
        · obtain ⟨y, hy, hyx⟩ := (containsId_iff clo st.stateId).1 hdup
          exact hyx ▸ containsId_of_mem (hrec.1 y hy)
        · exact hrec.2.1 st hst'
      · rw [if_neg hdup]
        have hdupf : containsId clo st0.stateId = false := by
          revert hdup; cases containsId clo st0.stateId <;> simp
        have hclo' : ∀ st ∈ clo ++ [st0], st.stateId ∈ S := by
          intro st hst
          rcases List.mem_append.1 hst with h | h
          · exact hclo st h
          · rw [List.mem_singleton] at h
            subst h
            exact hstack st (List.mem_cons_self _ _)
        have hstack'' : ∀ st ∈ (zwPushes nfa cs s0 pos (clo ++ [st0]) st0).reverse ++ stack',
            st.stateId ∈ S := by
          intro st hst
          rcases List.mem_append.1 hst with h | h
          · rw [List.mem_reverse] at h
            exact hS st0 st (mem_zwPushes_elim h).1
          · exact hstack st (List.mem_cons_of_mem _ h)
        have hinv'' : ∀ st ∈ clo ++ [st0], ∀ x ∈ zwTargets nfa cs s0 pos st,
            containsId (clo ++ [st0]) x.stateId = true ∨
            ∃ y ∈ (zwPushes nfa cs s0 pos (clo ++ [st0]) st0).reverse ++ stack',
              y.stateId = x.stateId := by
          intro st hst x hx
          rcases List.mem_append.1 hst with h | h
          · rcases hinv st h x hx with hcase | hcase
            · exact .inl (by simp [containsId_append, hcase])
            · obtain ⟨y, hy, hyx⟩ := hcase
              rcases List.mem_cons.1 hy with rfl | hy'
              · exact .inl (by simp [containsId_append, containsId, hyx])
              · exact .inr ⟨y, List.mem_append_right _ hy', hyx⟩
          · rw [List.mem_singleton] at h
            subst h
            by_cases hcx : containsId (clo ++ [st]) x.stateId = true
            · exact .inl hcx
            · have hcxf : containsId (clo ++ [st]) x.stateId = false := by
                revert hcx; cases containsId (clo ++ [st]) x.stateId <;> simp
              exact .inr ⟨x, List.mem_append_left _ (List.mem_reverse.2
                (mem_zwPushes_intro hx hcxf)), rfl⟩
        have hDB : (clo.map SimState.stateId).toFinset.card ≤ S.card := by
          apply Finset.card_le_card
          intro a ha
          rw [List.mem_toFinset, List.mem_map] at ha
          obtain ⟨st, hst, rfl⟩ := ha
          exact hclo st hst
        have hcard : ((clo ++ [st0]).map SimState.stateId).toFinset.card =
            (clo.map SimState.stateId).toFinset.card + 1 := by
          have hni : st0.stateId ∉ (clo.map SimState.stateId).toFinset := by
            rw [List.mem_toFinset, List.mem_map]
            rintro ⟨y, hy, hyx⟩
            rw [(containsId_iff clo st0.stateId).2 ⟨y, hy, hyx⟩] at hdupf
            simp at hdupf
          rw [List.map_append, List.toFinset_append]
          simp only [List.map_cons, List.map_nil, List.toFinset_cons, List.toFinset_nil]
          rw [Finset.union_comm, Finset.insert_union, Finset.empty_union,
            Finset.card_insert_of_not_mem hni]
        have hplen : (zwPushes nfa cs s0 pos (clo ++ [st0]) st0).length ≤
            totalTransCount nfa := zwPushes_length_le _ _
        have hfuel' : ((zwPushes nfa cs s0 pos (clo ++ [st0]) st0).reverse ++ stack').length +
            (S.card + 1 - ((clo ++ [st0]).map SimState.stateId).toFinset.card) *
              (totalTransCount nfa + 1) ≤ f := by
          rw [List.length_append, List.length_reverse, hcard, List.length_cons] at *
          have h1 : S.card + 1 - (clo.map SimState.stateId).toFinset.card =
              (S.card - (clo.map SimState.stateId).toFinset.card) + 1 := by omega
          have h2 : S.card + 1 - ((clo.map SimState.stateId).toFinset.card + 1) =
              S.card - (clo.map SimState.stateId).toFinset.card := by omega
          rw [h1, Nat.add_mul, Nat.one_mul] at hfuel
          rw [h2]
          generalize (S.card - (clo.map SimState.stateId).toFinset.card) *
            (totalTransCount nfa + 1) = X at hfuel ⊢
          omega
        have hrec := ih (clo ++ [st0]) _ hclo' hstack'' hinv'' hfuel'
        refine ⟨?_, ?_, hrec.2.2⟩
        · intro st hst
          exact hrec.1 st (List.mem_append_left _ hst)
        · intro st hst
          rcases List.mem_cons.1 hst with rfl | hst'
          · exact containsId_of_mem
              (hrec.1 st (List.mem_append_right _ (List.mem_singleton_self st)))
          · exact hrec.2.1 st (List.mem_append_right _ hst')

theorem epsilonClosure_sound {nfa : Nfa} {cs : List Char} {s0 pos : Nat}
    (P : SimState → Prop)
    (hzw : ∀ st, P st → ∀ x ∈ zwTargets nfa cs s0 pos st, P x)
    (input : List SimState) (hin : ∀ st ∈ input, P st) :
    ∀ st ∈ epsilonClosure nfa cs s0 input pos, P st := by
  unfold epsilonClosure
  exact closureGo_sound P hzw _ [] input.reverse (by simp)
    (fun st hst => hin st (List.mem_reverse.1 hst))

theorem epsilonClosure_post {nfa : Nfa} {cs : List Char} {s0 pos : Nat}
    (input : List SimState) :
    (∀ st ∈ input, containsId (epsilonClosure nfa cs s0 input pos) st.stateId = true) ∧
    SatAt nfa cs s0 pos (epsilonClosure nfa cs s0 input pos) := by
  have hflat : ((nfa.states.map (fun st => st.transitions.map Prod.snd)).flatten).length =
      totalTransCount nfa := by
    simp only [totalTransCount, List.length_flatten, List.map_map]
    congr 1
    apply List.map_congr_left
    intro a _
    simp
  have hS : ∀ (st x : SimState), x ∈ zwTargets nfa cs s0 pos st →
      x.stateId ∈ (input.map SimState.stateId ++
        (nfa.states.map (fun st => st.transitions.map Prod.snd)).flatten).toFinset := by
    intro st x hx
    obtain ⟨t, htr⟩ := mem_zwTargets_stateId hx
    rw [List.mem_toFinset]
    exact List.mem_append_right _ (trans_mem_allTargets htr)
  have hfuel : input.reverse.length +
      ((input.map SimState.stateId ++
        (nfa.states.map (fun st => st.transitions.map Prod.snd)).flatten).toFinset.card + 1 -
        (([] : List SimState).map SimState.stateId).toFinset.card) *
        (totalTransCount nfa + 1) ≤ closureFuel nfa input.length := by
    rw [List.length_reverse]
    have hD : (([] : List SimState).map SimState.stateId).toFinset.card = 0 := by simp
    rw [hD, Nat.sub_zero]
    have hcard : (input.map SimState.stateId ++
        (nfa.states.map (fun st => st.transitions.map Prod.snd)).flatten).toFinset.card ≤
        input.length + totalTransCount nfa := by
      calc (input.map SimState.stateId ++
          (nfa.states.map (fun st => st.transitions.map Prod.snd)).flatten).toFinset.card
          ≤ (input.map SimState.stateId ++
            (nfa.states.map (fun st => st.transitions.map Prod.snd)).flatten).length :=
            List.toFinset_card_le _
        _ = input.length + totalTransCount nfa := by
            rw [List.length_append, List.length_map, hflat]
    unfold closureFuel
    have hmul := Nat.mul_le_mul_right (totalTransCount nfa + 1)
      (show (input.map SimState.stateId ++
        (nfa.states.map (fun st => st.transitions.map Prod.snd)).flatten).toFinset.card + 1 ≤
        nfa.states.length + input.length + totalTransCount nfa + 1 by omega)
    generalize ((input.map SimState.stateId ++
      (nfa.states.map (fun st => st.transitions.map Prod.snd)).flatten).toFinset.card + 1) *
      (totalTransCount nfa + 1) = X at hmul ⊢
    generalize (nfa.states.length + input.length + totalTransCount nfa + 1) *
      (totalTransCount nfa + 1) = Y at hmul ⊢
    omega
  have hdrain := closureGo_drain _ hS (closureFuel nfa input.length) [] input.reverse
    (by simp)
    (fun st hst => by
      rw [List.mem_toFinset]
      exact List.mem_append_left _ (List.mem_map_of_mem _ (List.mem_reverse.1 hst)))
    (by simp) hfuel
  exact ⟨fun st hst => hdrain.2.1 st (List.mem_reverse.2 hst), hdrain.2.2⟩

theorem stepTrans_eq {nfa : Nfa} {cs : List Char} {pos : Nat} {st : SimState}
    {c : Char} {acc : List SimState × Nat} {tr : Transition × Nat}
    (h1 : ∀ g, tr.1 ≠ .backref g) (h2 : ∀ r, tr.1 ≠ .backrefRelative r) :
    stepTrans nfa cs pos st c acc tr =
      match tryTransition nfa st tr.1 tr.2 c with
      | some ns => (acc.1 ++ [ns], acc.2)
      | none => acc := by
  obtain ⟨t, tgt⟩ := tr
  cases t <;> first
    | rfl
    | (exact absurd rfl (h1 _))
    | (exact absurd rfl (h2 _))

theorem foldl_stepTrans {nfa : Nfa} {cs : List Char} {pos : Nat} {st : SimState}
    {c : Char} :
    ∀ (l : List (Transition × Nat)),
      (∀ tr ∈ l, (∀ g, tr.1 ≠ .backref g) ∧ (∀ r, tr.1 ≠ .backrefRelative r)) →
      ∀ acc : List SimState × Nat,
        List.foldl (stepTrans nfa cs pos st c) acc l =
        (acc.1 ++ l.filterMap (fun tr => tryTransition nfa st tr.1 tr.2 c), acc.2) := by
  intro l
  induction l with
  | nil => intro _ acc; simp
  | cons tr l ih =>
    intro hl acc
    rw [List.foldl_cons,
      stepTrans_eq (hl tr (List.mem_cons_self _ _)).1 (hl tr (List.mem_cons_self _ _)).2]
    cases htt : tryTransition nfa st tr.1 tr.2 c with
    | none =>
      rw [ih (fun tr' h => hl tr' (List.mem_cons_of_mem _ h)) acc]
      simp [List.filterMap_cons, htt]
    | some ns =>
      rw [ih (fun tr' h => hl tr' (List.mem_cons_of_mem _ h)) _]
      simp [List.filterMap_cons, htt]

theorem foldl_outer {nfa : Nfa} {cs : List Char} {pos : Nat} {c : Char}
    (hbf : BackrefFree nfa = true) :
    ∀ (states : List SimState) (acc : List SimState × Nat),
      List.foldl (fun acc st => List.foldl (stepTrans nfa cs pos st c) acc
        (getState nfa st.stateId).transitions) acc states =
      (acc.1 ++ (states.map (fun st => charSucc nfa st c)).flatten, acc.2) := by
  intro states
  induction states with
  | nil => intro acc; simp
  | cons st states ih =>
    intro acc
    rw [List.foldl_cons, foldl_stepTrans _ (backrefFree_trans hbf st.stateId) acc, ih]
    simp [charSucc, List.flatten_cons, List.append_assoc]

theorem stepWithBackrefs_eq {nfa : Nfa} {cs : List Char} {s0 : Nat} {c : Char}
    {pos : Nat} (hbf : BackrefFree nfa = true) (states : List SimState) :
    stepWithBackrefs nfa cs s0 states c pos =
      (epsilonClosure nfa cs s0
        ((states.map (fun st => charSucc nfa st c)).flatten) (pos + 1), 1) := by
  unfold stepWithBackrefs
  rw [foldl_outer hbf states ([], 1)]
  simp

theorem mem_charSucc_elim {nfa : Nfa} {st : SimState} {c : Char} {x : SimState}
    (hmf : nfa.modeFlags = {}) (h : x ∈ charSucc nfa st c) :
    ∃ t, hasTrans nfa st.stateId t x.stateId ∧ charMatches t c = true ∧
      x.groups = st.groups := by
  unfold charSucc at h
  rw [List.mem_filterMap] at h
  obtain ⟨⟨t, tgt⟩, htr, hf⟩ := h
  rw [tryTransition_default hmf, Option.ite_none_right_eq_some, Option.some.injEq] at hf
  obtain ⟨hm, hx⟩ := hf
  cases hx
  exact ⟨t, htr, hm, rfl⟩

theorem mem_charSucc_intro {nfa : Nfa} {st : SimState} {c : Char} {t : Transition}
    {tgt : Nat} (hmf : nfa.modeFlags = {}) (htr : hasTrans nfa st.stateId t tgt)
    (hm : charMatches t c = true) :
    (⟨tgt, st.groups⟩ : SimState) ∈ charSucc nfa st c := by
  unfold charSucc
  rw [List.mem_filterMap]
  exact ⟨(t, tgt), htr, by rw [tryTransition_default hmf, if_pos hm]⟩

theorem findAccepting_isSome_iff {nfa : Nfa} {states : List SimState} :
    (findAccepting nfa states).isSome = true ↔ containsId states nfa.accept = true := by
  unfold findAccepting containsId
  simp [List.find?_isSome, List.any_eq_true]

theorem findAccepting_some_elim {nfa : Nfa} {states : List SimState} {g : GroupMap}
    (h : findAccepting nfa states = some g) :
    ∃ st ∈ states, st.stateId = nfa.accept ∧ st.groups = g := by
  unfold findAccepting at h
  rw [Option.map_eq_some'] at h
  obtain ⟨st, hfind, rfl⟩ := h
  exact ⟨st, List.mem_of_find?_eq_some hfind, by simpa using List.find?_some hfind, rfl⟩

theorem threadsOk_closure {nfa : Nfa} {cs : List Char} {s0 pos : Nat}
    {input : List SimState} (hmf : nfa.modeFlags = {})
    (h : ThreadsOk nfa cs s0 pos input) :
    ThreadsOk nfa cs s0 pos (epsilonClosure nfa cs s0 input pos) :=
  epsilonClosure_sound _
    (fun st hst x hx => .tail hst (mem_zwTargets_specStep hmf hx)) input h

theorem runFinish_sound {nfa : Nfa} {cs : List Char} {s0 : Nat}
    {states : List SimState} {pos : Nat} {la : Option (Nat × GroupMap)}
    {res : Nat × GroupMap} (hmf : nfa.modeFlags = {})
    (hth : ThreadsOk nfa cs s0 pos states) (hla : LaSound nfa cs s0 la)
    (h : runFinish nfa cs s0 states pos la = some res) :
    SpecExec nfa cs nfa.start s0 [] nfa.accept res.1 res.2 := by
  simp only [runFinish] at h
  have hclosed := threadsOk_closure hmf hth
  cases hacc : findAccepting nfa (epsilonClosure nfa cs s0 states pos) with
  | some g =>
    rw [hacc] at h
    obtain ⟨st, hmem, hid, hg⟩ := findAccepting_some_elim hacc
    cases h
    have := hclosed st hmem
    rw [hid, hg] at this
    exact this
  | none =>
    rw [hacc] at h
    obtain ⟨p, g⟩ := res
    exact hla p g h

theorem runLoop_sound {nfa : Nfa} {cs : List Char} {s0 : Nat}
    (hbf : BackrefFree nfa = true) (hmf : nfa.modeFlags = {}) :
    ∀ (fuel : Nat) (cur : List SimState) (pos : Nat) (la : Option (Nat × GroupMap))
      (res : Nat × GroupMap),
      ThreadsOk nfa cs s0 pos cur → LaSound nfa cs s0 la →
      runLoop nfa cs s0 fuel cur pos la = some res →
      SpecExec nfa cs nfa.start s0 [] nfa.accept res.1 res.2 := by
  intro fuel
  induction fuel with
  | zero =>
    intro cur pos la res _ hla h
    obtain ⟨p, g⟩ := res
    exact hla p g h
  | succ f ih =>
    intro cur pos la res hth hla h
    simp only [runLoop] at h
    split at h
    · rename_i hpos
      rw [stepWithBackrefs_eq hbf] at h
      split at h
      · rename_i hemp
        refine runFinish_sound hmf ?_ hla h
        rw [hemp]
        intro st hst
        simp at hst
      · rename_i hemp
        have hnext : ThreadsOk nfa cs s0 (pos + 1)
            (epsilonClosure nfa cs s0
              ((cur.map (fun st => charSucc nfa st (cs.get ⟨pos, hpos⟩))).flatten)
              (pos + 1)) := by
          apply threadsOk_closure hmf
          intro x hx
          rw [List.mem_flatten] at hx
          obtain ⟨sub, hsub, hxsub⟩ := hx
          rw [List.mem_map] at hsub
          obtain ⟨st, hstcur, rfl⟩ := hsub
          obtain ⟨t, htr, hm, hgr⟩ := mem_charSucc_elim hmf hxsub
          have := @SpecStep.charStep nfa cs st.stateId x.stateId pos st.groups t
            htr hpos hm
          rw [hgr]
          exact .tail (hth st hstcur) this
        apply ih _ _ _ _ hnext _ h
        intro p g hla'
        split at hla'
        · rename_i g' hacc
          cases hla'
          obtain ⟨st, hmem, hid, hg⟩ := findAccepting_some_elim hacc
          have := hnext st hmem
          rw [hid, hg] at this
          exact this
        · exact hla p g hla'
    · exact runFinish_sound hmf hth hla h

theorem runFinish_isSome_of_la {nfa : Nfa} {cs : List Char} {s0 : Nat}
    {states : List SimState} {pos : Nat} {la : Option (Nat × GroupMap)}
    (h : la.isSome = true) :
    (runFinish nfa cs s0 states pos la).isSome = true := by
  simp only [runFinish]
  split <;> simp [h]

theorem runFinish_isSome_of_accept {nfa : Nfa} {cs : List Char} {s0 : Nat}
    {states : List SimState} {pos : Nat} {la : Option (Nat × GroupMap)}
    (h : containsId states nfa.accept = true) :
    (runFinish nfa cs s0 states pos la).isSome = true := by
  simp only [runFinish]
  have hsup := (@epsilonClosure_post nfa cs s0 pos states).1
  obtain ⟨st, hmem, hid⟩ := (containsId_iff _ _).1 h
  have := hsup st hmem
  rw [hid] at this
  have hacc : (findAccepting nfa (epsilonClosure nfa cs s0 states pos)).isSome = true :=
    findAccepting_isSome_iff.2 this
  split
  · simp
  · rename_i heq
    rw [heq] at hacc
    simp at hacc

theorem runLoop_isSome_of_la {nfa : Nfa} {cs : List Char} {s0 : Nat} :
    ∀ (fuel : Nat) (cur : List SimState) (pos : Nat) (la : Option (Nat × GroupMap)),
      la.isSome = true → (runLoop nfa cs s0 fuel cur pos la).isSome = true := by
  intro fuel
  induction fuel with
  | zero => intro cur pos la h; exact h
  | succ f ih =>
    intro cur pos la h
    simp only [runLoop]
    split
    · split
      · exact runFinish_isSome_of_la h
      · apply ih
        split
        · simp
        · exact h
    · exact runFinish_isSome_of_la h

theorem ne_nil_of_containsId {l : List SimState} {id : Nat}
    (h : containsId l id = true) : l ≠ [] := by
  intro hnil
  rw [hnil] at h
  simp [containsId] at h

theorem laOk_update {nfa : Nfa} {res1 : List SimState} {la : Option (Nat × GroupMap)}
    {pos' : Nat} :
    LaOk nfa res1 (match findAccepting nfa res1 with
      | some g => some (pos', g)
      | none => la) := by
  intro hacc
  cases hfa : findAccepting nfa res1 with
  | some g => simp [hfa]
  | none =>
    rw [← findAccepting_isSome_iff, hfa] at hacc
    simp at hacc

theorem runLoop_complete {nfa : Nfa} {cs : List Char} {s0 : Nat}
    (hbf : BackrefFree nfa = true) (hmf : nfa.modeFlags = {}) :
    ∀ {q pos m q2 j g2}, SpecExecH nfa cs q pos m q2 j g2 →
      q2 = nfa.accept →
      ∀ (fuel : Nat) (cur : List SimState) (la : Option (Nat × GroupMap)),
        cs.length ≤ pos + fuel → s0 ≤ pos →
        SatAt nfa cs s0 pos cur → LaOk nfa cur la →
        containsId cur q = true →
        (runLoop nfa cs s0 fuel cur pos la).isSome = true := by
  intro q pos m q2 j g2 hpath
  induction hpath with
  | refl =>
    intro hacc fuel cur la _ _ _ hlaok hq
    rw [hacc] at hq
    exact runLoop_isSome_of_la fuel cur _ la (hlaok hq)
  | head hstep hrest ih =>
    rename_i q0 pos0 m0 qmid posmid mmid qf posf mf
    intro hacc fuel cur la hfuel hs0 hsat hlaok hq
    cases hstep with
    | epsilon htr =>
      obtain ⟨st, hmem, hid⟩ := (containsId_iff _ _).1 hq
      obtain ⟨x, hx, hxid⟩ := @zwTargets_epsilon nfa cs s0 pos0 _ _ st htr hid
      exact ih hacc fuel cur la hfuel hs0 hsat hlaok (hxid ▸ hsat st hmem x hx)
    | startAnchor htr =>
      obtain ⟨st, hmem, hid⟩ := (containsId_iff _ _).1 hq
      have h00 : s0 = 0 := Nat.le_zero.1 hs0
      obtain ⟨x, hx, hxid⟩ := @zwTargets_startAnchor nfa cs s0 _ _ st hmf htr hid h00
      exact ih hacc fuel cur la hfuel hs0 hsat hlaok (hxid ▸ hsat st hmem x hx)
    | endAnchor htr =>
      obtain ⟨st, hmem, hid⟩ := (containsId_iff _ _).1 hq
      obtain ⟨x, hx, hxid⟩ := @zwTargets_endAnchor nfa cs s0 _ _ st hmf htr hid
      exact ih hacc fuel cur la hfuel hs0 hsat hlaok (hxid ▸ hsat st hmem x hx)
    | wordBoundary htr hw =>
      obtain ⟨st, hmem, hid⟩ := (containsId_iff _ _).1 hq
      obtain ⟨x, hx, hxid⟩ := @zwTargets_wordBoundary nfa cs s0 pos0 _ _ st htr hid hw
      exact ih hacc fuel cur la hfuel hs0 hsat hlaok (hxid ▸ hsat st hmem x hx)
    | nonWordBoundary htr hw =>
      obtain ⟨st, hmem, hid⟩ := (containsId_iff _ _).1 hq
      obtain ⟨x, hx, hxid⟩ := @zwTargets_nonWordBoundary nfa cs s0 pos0 _ _ st htr hid hw
      exact ih hacc fuel cur la hfuel hs0 hsat hlaok (hxid ▸ hsat st hmem x hx)
    | groupStart htr =>
      obtain ⟨st, hmem, hid⟩ := (containsId_iff _ _).1 hq
      obtain ⟨x, hx, hxid⟩ := @zwTargets_groupStart nfa cs s0 pos0 _ _ _ st htr hid
      exact ih hacc fuel cur la hfuel hs0 hsat hlaok (hxid ▸ hsat st hmem x hx)
    | groupEndSome htr hl =>
      obtain ⟨st, hmem, hid⟩ := (containsId_iff _ _).1 hq
      obtain ⟨x, hx, hxid⟩ := @zwTargets_groupEnd nfa cs s0 pos0 _ _ _ st htr hid
      exact ih hacc fuel cur la hfuel hs0 hsat hlaok (hxid ▸ hsat st hmem x hx)
    | groupEndNone htr hl =>
      obtain ⟨st, hmem, hid⟩ := (containsId_iff _ _).1 hq
      obtain ⟨x, hx, hxid⟩ := @zwTargets_groupEnd nfa cs s0 pos0 _ _ _ st htr hid
      exact ih hacc fuel cur la hfuel hs0 hsat hlaok (hxid ▸ hsat st hmem x hx)
    | charStep htr hpos hm =>
      match fuel, hfuel with
      | 0, hfuel => exact absurd hpos (by omega)
      | f + 1, hfuel =>
        simp only [runLoop]
        rw [dif_pos hpos, stepWithBackrefs_eq hbf]
        obtain ⟨st, hmem, hid⟩ := (containsId_iff _ _).1 hq
        have hcsucc := mem_charSucc_intro hmf (hid ▸ htr) hm
        have hflat := List.mem_flatten.2
          ⟨_, List.mem_map_of_mem
            (fun st => charSucc nfa st (cs.get ⟨_, hpos⟩)) hmem, hcsucc⟩
        have hin : containsId
            (epsilonClosure nfa cs s0
              ((cur.map (fun st => charSucc nfa st (cs.get ⟨pos0, hpos⟩))).flatten)
              (pos0 + 1)) qmid = true :=
          (epsilonClosure_post _).1 _ hflat
        rw [if_neg (ne_nil_of_containsId hin)]
        exact ih hacc f _ _ (by omega) (by omega)
          (epsilonClosure_post
            ((cur.map (fun st => charSucc nfa st (cs.get ⟨pos0, hpos⟩))).flatten)).2
          laOk_update hin
    | backrefStep htr hl hpre hle =>
      exact absurd htr (backrefFree_no_backref hbf)
    | backrefRelStep htr hres hl hpre hle =>
      exact absurd htr (backrefFree_no_backrefRel hbf)

theorem runSim_la0_sound {nfa : Nfa} {cs : List Char} {s : Nat}
    (hmf : nfa.modeFlags = {}) :
    LaSound nfa cs s
      (match findAccepting nfa (epsilonClosure nfa cs s [⟨nfa.start, []⟩] s) with
        | some g => some (s, g)
        | none => none) := by
  intro p g hla
  split at hla
  · rename_i g' hacc
    cases hla
    obtain ⟨st, hmem, hid, hg⟩ := findAccepting_some_elim hacc
    have hth : ThreadsOk nfa cs s s (epsilonClosure nfa cs s [⟨nfa.start, []⟩] s) := by
      apply threadsOk_closure hmf
      intro st' hst'
      rw [List.mem_singleton] at hst'
      subst hst'
      exact .refl
    have := hth st hmem
    rw [hid, hg] at this
    exact this
  · cases hla

theorem runSim_sound {nfa : Nfa} {cs : List Char} {s : Nat}
    (hbf : BackrefFree nfa = true) (hmf : nfa.modeFlags = {}) {m : Match}
    (h : runSim nfa cs s = some m) :
    m.start = s ∧ SpecExec nfa cs nfa.start s [] nfa.accept m.«end» m.groups := by
  simp only [runSim] at h
  rw [Option.map_eq_some'] at h
  obtain ⟨eg, hrl, hm⟩ := h
  have hth : ThreadsOk nfa cs s s (epsilonClosure nfa cs s [⟨nfa.start, []⟩] s) := by
    apply threadsOk_closure hmf
    intro st' hst'
    rw [List.mem_singleton] at hst'
    subst hst'
    exact .refl
  have hspec := runLoop_sound hbf hmf _ _ _ _ _ hth (runSim_la0_sound hmf) hrl
  cases hm
  exact ⟨rfl, hspec⟩

theorem runSim_complete {nfa : Nfa} {cs : List Char} {s j : Nat} {g : GroupMap}
    (hbf : BackrefFree nfa = true) (hmf : nfa.modeFlags = {}) (hs : s ≤ cs.length)
    (hpath : SpecExec nfa cs nfa.start s [] nfa.accept j g) :
    (runSim nfa cs s).isSome = true := by
  simp only [runSim, Option.isSome_map']
  apply runLoop_complete hbf hmf (specExec_toH hpath) rfl
  · omega
  · exact Nat.le_refl s
  · exact (epsilonClosure_post _).2
  · intro hacc
    rw [← findAccepting_isSome_iff] at hacc
    split
    · simp
    · rename_i heq
      rw [heq] at hacc
      simp at hacc
  · have := (@epsilonClosure_post nfa cs s s [⟨nfa.start, []⟩]).1
      ⟨nfa.start, []⟩ (List.mem_singleton_self _)
    exact this

theorem findGo_eq_none_iff {nfa : Nfa} {cs : List Char} :
    ∀ (remaining s : Nat), findGo nfa cs s remaining = none ↔
      ∀ i < remaining, matchFrom nfa cs (s + i) = none := by
  intro remaining
  induction remaining with
  | zero => intro s; simp [findGo]
  | succ r ih =>
    intro s
    simp only [findGo]
    cases hm : matchFrom nfa cs s with
    | some m =>
      constructor
      · intro h; cases h
      · intro h
        have h0 := h 0 (by omega)
        rw [Nat.add_zero, hm] at h0
        cases h0
    | none =>
      rw [ih (s + 1)]
      constructor
      · intro h i hi
        match i, hi with
        | 0, _ =>
          rw [Nat.add_zero]
          exact hm
        | i' + 1, hi =>
          rw [show s + (i' + 1) = s + 1 + i' by omega]
          exact h i' (by omega)
      · intro h i hi
        rw [show s + 1 + i = s + (i + 1) by omega]
        exact h (i + 1) (by omega)

theorem findGo_some_elim {nfa : Nfa} {cs : List Char} {m : Match} :
    ∀ (remaining s : Nat), findGo nfa cs s remaining = some m →
      ∃ i < remaining, matchFrom nfa cs (s + i) = some m ∧
        ∀ i' < i, matchFrom nfa cs (s + i') = none := by
  intro remaining
  induction remaining with
  | zero => intro s h; cases h
  | succ r ih =>
    intro s h
    simp only [findGo] at h
    cases hm : matchFrom nfa cs s with
    | some m0 =>
      rw [hm] at h
      cases h
      exact ⟨0, by omega, by rw [Nat.add_zero]; exact hm, fun i' hi' => by omega⟩
    | none =>
      rw [hm] at h
      obtain ⟨i, hi, hmi, hmin⟩ := ih (s + 1) h
      refine ⟨i + 1, by omega, ?_, ?_⟩
      · rw [show s + (i + 1) = s + 1 + i by omega]
        exact hmi
      · intro i' hi'
        match i', hi' with
        | 0, _ =>
          rw [Nat.add_zero]
          exact hm
        | i'' + 1, hi' =>
          rw [show s + (i'' + 1) = s + 1 + i'' by omega]
          exact hmin i'' (by omega)

/-- C1: amended statement. For a backreference-free compiled pattern with
default mode flags, on an input whose UTF-8 byte length equals its codepoint
count, find returns none exactly when no substring of the input is accepted
by the spec-side transition semantics, and a returned match is an accepted
substring starting at the least accepted start position. The original
unconditional claim fails for backreferences (see the counterexample) and,
separately, for non-ASCII inputs, whose byte-length scan bound lets find
probe positions past the end of the input. -/
theorem c1_amended_leftmost (nfa : Nfa) (cs : List Char)
    (hbf : BackrefFree nfa = true) (hmf : nfa.modeFlags = {})
    (hascii : utf8Len cs = cs.length) :
    (find nfa cs = none ↔ ∀ s j, ¬ AcceptsAt nfa cs s j) ∧
    (∀ m, find nfa cs = some m →
      AcceptsAt nfa cs m.start m.«end» ∧
      ∀ s j, AcceptsAt nfa cs s j → m.start ≤ s) := by
  constructor
  · constructor
    · intro hnone s j hacc
      obtain ⟨hs, g, hpath⟩ := hacc
      unfold find at hnone
      rw [findGo_eq_none_iff] at hnone
      have hmn := hnone s (by omega)
      rw [Nat.zero_add] at hmn
      have hsome := runSim_complete hbf hmf hs hpath
      unfold matchFrom at hmn
      rw [hmn] at hsome
      cases hsome
    · intro hall
      unfold find
      rw [findGo_eq_none_iff]
      intro i hi
      rw [Nat.zero_add]
      cases hmi : matchFrom nfa cs i with
      | none => rfl
      | some m =>
        obtain ⟨hstart, hspec⟩ := runSim_sound hbf hmf hmi
        exact absurd ⟨by omega, m.groups, hspec⟩ (hall i m.«end»)
  · intro m hfind
    unfold find at hfind
    obtain ⟨i, hi, hmi, hmin⟩ := findGo_some_elim _ _ hfind
    rw [Nat.zero_add] at hmi
    obtain ⟨hstart, hspec⟩ := runSim_sound hbf hmf hmi
    rw [← hstart] at hspec
    constructor
    · exact ⟨by omega, m.groups, hspec⟩
    · intro s j hacc
      by_contra hlt
      push_neg at hlt
      obtain ⟨hs, g, hpath⟩ := hacc
      have hsome := runSim_complete hbf hmf hs hpath
      have hnone := hmin s (by omega)
      rw [Nat.zero_add] at hnone
      unfold matchFrom at hnone
      rw [hnone] at hsome
      cases hsome

/-- C1 witness: the amended leftmost-match equivalence instantiated at the
pattern ab|b and the input "xab". -/
theorem c1_amended_leftmost_witness :
    BackrefFree (nfaOf "ab|b") = true ∧
    (nfaOf "ab|b").modeFlags = {} ∧
    utf8Len "xab".data = "xab".data.length ∧
    ((find (nfaOf "ab|b") "xab".data = none ↔
        ∀ s j, ¬ AcceptsAt (nfaOf "ab|b") "xab".data s j) ∧
      (∀ m, find (nfaOf "ab|b") "xab".data = some m →
        AcceptsAt (nfaOf "ab|b") "xab".data m.start m.«end» ∧
        ∀ s j, AcceptsAt (nfaOf "ab|b") "xab".data s j → m.start ≤ s)) :=
  ⟨by decide!, by decide!, by decide!,
    c1_amended_leftmost _ _ (by decide!) (by decide!) (by decide!)⟩

end Ogex
